import Mathlib

/-!
# CodeSense-Copilot: the trie autocomplete engine

A shallow embedding of `Trie.h` / `Trie.cpp`, of `StringHandler.cpp` and of the suggestion
call and the tokenizer of `MainLogicController.cpp` (namespace `TrieEngine`) followed by
the theorems that relate it to the natural-language specification.

Conventions of the embedding

* `std::string` is `List Char`; the literal `"cat"` of the source is `"cat".toList`.
* `int` values (frequencies, edit counts, `k`) are `Int`.  The edit counters stay within
  `-1 .. max_edits + 1` and a score is `frequency - edit_distance`, so the search and the
  ranking cannot overflow and no wrap-around is modelled for them; reading an `int` from
  a file does check the 32-bit range.  The one addition on a stored frequency,
  `frequency + 5` in `log_selection`, can leave the 32-bit range: `wrap_int` gives it the
  two's complement result.
* `double score` only ever holds `frequency - alpha * edit_distance` (plus the boosts `10`
  and `200`) with the default `alpha = 1`; these values are integers that a double
  represents exactly, so `score` is an `Int`.
* A `std::unique_ptr<TrieNode>` slot is an `Option TrieNode`; `std::array<_, 26>` is a
  function on `Fin 26`.  Every value of `TrieNode` is a finite tree.
* Reading `children[index]` with `index` outside `0..25` is undefined behaviour in the
  source; functions that index without a guard return `Option`, `none` being that fault.
-/

namespace TrieEngine

/-! ## Data model (`Trie.h`) -/

/-- The class `Trie::TrieNode`: the end-of-word flag, the frequency and the 26 child slots. -/
inductive TrieNode where
  | mk (is_end_of_word : Bool) (frequency : Int) (children : Fin 26 → Option TrieNode) : TrieNode

/-- Field `is_end_of_word`. -/
def TrieNode.is_end_of_word : TrieNode → Bool
  | .mk e _ _ => e

/-- Field `frequency`. -/
def TrieNode.frequency : TrieNode → Int
  | .mk _ f _ => f

/-- Field `children`. -/
def TrieNode.children : TrieNode → Fin 26 → Option TrieNode
  | .mk _ _ c => c

/-- The constructor `TrieNode() : is_end_of_word(false)`, with `frequency = 0` and all
child slots null. -/
def TrieNode.fresh : TrieNode := .mk false 0 (fun _ => none)

/-- The class `Trie`: it owns the root node, which is never null. -/
structure Trie where
  root : TrieNode

/-- The constructor `Trie() : root(std::make_unique<TrieNode>())`. -/
def Trie.empty : Trie := ⟨TrieNode.fresh⟩

/-- The struct `FuzzyMatch`. -/
structure FuzzyMatch where
  word : List Char
  frequency : Int
  edit_distance : Int
  score : Int
deriving DecidableEq

/-! ## Characters and indices -/

/-- The call `std::islower(ch)` in the default "C" locale: `ch` is one of `a..z`. -/
def islower (ch : Char) : Bool := decide (97 ≤ ch.toNat ∧ ch.toNat ≤ 122)

/-- The initialisation `size_t index = ch - 'a'`: the difference is taken in `int` and
converted to the unsigned 64-bit `size_t`. -/
def char_index (ch : Char) : Nat := (((ch.toNat : Int) - 97) % 2 ^ 64).toNat

/-- The loop variable of `for (char ch = 'a'; ch <= 'z'; ++ch)` at the iteration whose
index `ch - 'a'` is `i`. -/
def letter (i : Fin 26) : Char := Char.ofNat (97 + i.val)

/-! ## Insertion (`Trie::insert`) -/

/-- The loop of `Trie::insert` started at `node`, as a function returning the updated
subtree: characters that are not lowercase are skipped (`continue`), a missing child is
created, and the node reached at the end of the word is marked and given `freq`.
The guard `islower ch` puts `ch - 'a'` in `0..25`; the last branch (an index outside the
array) is therefore never taken and returns the node unchanged. -/
def TrieNode.insert : TrieNode → List Char → Int → TrieNode
  | .mk _ _ c, [], freq => .mk true freq c
  | .mk e fr c, ch :: rest, freq =>
    if !islower ch then TrieNode.insert (.mk e fr c) rest freq
    else if h : char_index ch < 26 then
      let child := match c ⟨char_index ch, h⟩ with
        | none => TrieNode.fresh
        | some n => n
      .mk e fr (Function.update c ⟨char_index ch, h⟩ (some (TrieNode.insert child rest freq)))
    else .mk e fr c

/-- The method `Trie::insert(word, freq)`. -/
def insert (t : Trie) (word : List Char) (freq : Int) : Trie := ⟨t.root.insert word freq⟩

/-! ## Enumeration (`Trie::dfs`, `Trie::collect_all_words`) -/

mutual
/-- The method `Trie::dfs(node, current, results)`: pre-order walk, children in `a..z`
order; `results` is threaded through and returned. -/
def dfs : TrieNode → List Char → List (List Char × Int) → List (List Char × Int)
  | .mk e f c, current, results =>
    (List.finRange 26).foldl
      (fun results i => dfs_child (c i) (current ++ [letter i]) results)
      (if e then results ++ [(current, f)] else results)
/-- One iteration of the loop of `dfs`: the guard `if (node->children[index])` followed by
the recursive call on the child. -/
def dfs_child : Option TrieNode → List Char → List (List Char × Int) → List (List Char × Int)
  | none, _, results => results
  | some n, current, results => dfs n current results
end

mutual
/-- The method `Trie::collect_all_words(node, current, out)`. -/
def collect_all_words : TrieNode → List Char → List (List Char × Int) → List (List Char × Int)
  | .mk e f c, current, out =>
    (List.finRange 26).foldl
      (fun out i => collect_all_words_child (c i) (current ++ [letter i]) out)
      (if e then out ++ [(current, f)] else out)
/-- One iteration of the loop of `collect_all_words`. -/
def collect_all_words_child :
    Option TrieNode → List Char → List (List Char × Int) → List (List Char × Int)
  | none, _, out => out
  | some n, current, out => collect_all_words n current out
end

/-! ## Prefix query -/

/-- The descent loop of `Trie::get_words_with_prefix` from `node` over the remaining
characters `rest` of `pre`, followed by the `dfs` call.  `none` is an index outside the
child array. -/
def words_from (pre : List Char) : TrieNode → List Char → Option (List (List Char × Int))
  | node, [] => some (dfs node pre [])
  | node, ch :: rest =>
    if h : char_index ch < 26 then
      match node.children ⟨char_index ch, h⟩ with
      | none => some []
      | some child => words_from pre child rest
    else none

/-- The method `Trie::get_words_with_prefix(prefix)`. -/
def get_words_with_prefix (t : Trie) (pre : List Char) : Option (List (List Char × Int)) :=
  words_from pre t.root pre

/-! ## Top-k by frequency (`Trie::get_top_k_with_prefix`) -/

/-- The lambda `cmp` of `get_top_k_with_prefix`: `a` is below `b` in the max-heap when its
frequency is smaller, or equal with a greater word. -/
def cmp (a b : List Char × Int) : Bool :=
  decide (a.2 < b.2) || (decide (a.2 = b.2) && decide (a.1 > b.1))

/-- The call `pq.top()` of a `std::priority_queue` ordered by `cmp`, the queue being the
list of its elements: an element that no other element is above. -/
def pq_top : List (List Char × Int) → Option (List Char × Int)
  | [] => none
  | x :: xs => some (xs.foldl (fun best y => if cmp best y then y else best) x)

/-- The call `pq.pop()`: one copy of the top element `top` leaves the queue. -/
def pq_pop (top : List Char × Int) : List (List Char × Int) → List (List Char × Int)
  | [] => []
  | y :: ys => if y = top then ys else y :: pq_pop top ys

/-- The loop `for (int i = 0; i < k && !pq.empty(); i++)` with `n` iterations left:
push the word of `pq.top()` to the result and `pq.pop()`. -/
def top_k_loop : Nat → List (List Char × Int) → List (List Char)
  | 0, _ => []
  | n + 1, pq =>
    match pq_top pq with
    | none => []
    | some top => top.1 :: top_k_loop n (pq_pop top pq)

/-- The method `Trie::get_top_k_with_prefix(prefix, k)`. -/
def get_top_k_with_prefix (t : Trie) (pre : List Char) (k : Int) : Option (List (List Char)) :=
  match get_words_with_prefix t pre with
  | none => none
  | some all_words => some (top_k_loop k.toNat all_words)

/-! ## Fuzzy search (`Trie::search_fuzzy`, `Trie::get_ranked_fuzzy_matches`) -/

/-- The member `FuzzyMatch::operator<`. -/
def FuzzyMatch.lt (a other : FuzzyMatch) : Bool :=
  if a.edit_distance = 0 ∧ other.edit_distance ≠ 0 then true
  else if a.edit_distance ≠ 0 ∧ other.edit_distance = 0 then false
  else if a.score ≠ other.score then decide (a.score > other.score)
  else decide (a.word < other.word)

/-- The type `std::unordered_map<std::string, FuzzyMatch>` as an association list; the
order of the list stands for the (unspecified) iteration order of the map. -/
abbrev ResultMap := List (List Char × FuzzyMatch)

/-- The call `results.find(key)`; `none` is `results.end()`. -/
def map_find : ResultMap → List Char → Option FuzzyMatch
  | [], _ => none
  | (k, v) :: rest, key => if k = key then some v else map_find rest key

/-- The assignment `results[key] = value`. -/
def map_assign : ResultMap → List Char → FuzzyMatch → ResultMap
  | [], key, value => [(key, value)]
  | (k, v) :: rest, key, value =>
    if k = key then (k, value) :: rest else (k, v) :: map_assign rest key value

/-- The method `Trie::search_fuzzy(node, target, current, index, edits_remaining, results,
edits_used)`; the updated `results` is returned.  The first argument bounds the depth of
the recursion: every recursive call lowers `(|target| - index) + edits_remaining`, and the
entry point supplies that quantity, so the bound is never the reason for returning.
`index <= |target|` holds at every call, so `target[index]` is read in range. -/
def search_fuzzy : Nat → Option TrieNode → List Char → List Char → Nat → Int → ResultMap →
    Int → ResultMap
  | 0, _, _, _, _, _, results, _ => results
  | fuel + 1, node, target, current, index, edits_remaining, results, edits_used =>
    match node with
    | none => results
    | some n =>
      if edits_remaining < 0 then results
      else if index = target.length then
        let results :=
          if n.is_end_of_word = true ∧ edits_remaining ≥ 0 then
            match map_find results current with
            | none => map_assign results current ⟨current, n.frequency, edits_used, 0⟩
            | some it =>
              if it.edit_distance > edits_used then
                map_assign results current ⟨current, n.frequency, edits_used, 0⟩
              else results
          else results
        (List.finRange 26).foldl
          (fun results i =>
            match n.children i with
            | none => results
            | some child =>
              search_fuzzy fuel (some child) target (current ++ [letter i]) index
                (edits_remaining - 1) results (edits_used + 1))
          results
      else
        match target[index]? with
        | none => results
        | some target_ch =>
          let results := (List.finRange 26).foldl
            (fun results i =>
              match n.children i with
              | none => results
              | some child =>
                let results :=
                  if letter i = target_ch then
                    search_fuzzy fuel (some child) target (current ++ [letter i]) (index + 1)
                      edits_remaining results edits_used
                  else
                    search_fuzzy fuel (some child) target (current ++ [letter i]) (index + 1)
                      (edits_remaining - 1) results (edits_used + 1)
                search_fuzzy fuel (some child) target (current ++ [letter i]) index
                  (edits_remaining - 1) results (edits_used + 1))
            results
          search_fuzzy fuel (some n) target current (index + 1) (edits_remaining - 1) results
            (edits_used + 1)

/-- The call `std::sort(result_vec.begin(), result_vec.end())` with `operator<`: the
elements are put in an order in which no later element is `<` an earlier one. -/
def std_sort (v : List FuzzyMatch) : List FuzzyMatch :=
  v.insertionSort (fun a b => FuzzyMatch.lt b a = false)

/-- The method `Trie::get_ranked_fuzzy_matches(input, max_edits, alpha)`. -/
def get_ranked_fuzzy_matches (t : Trie) (input : List Char) (max_edits : Int)
    (alpha : Int := 1) : List FuzzyMatch :=
  let result_map :=
    search_fuzzy (input.length + (max_edits + 1).toNat) (some t.root) input [] 0 max_edits [] 0
  let result_vec := result_map.map
    (fun pair => { pair.2 with score := pair.2.frequency - alpha * pair.2.edit_distance })
  std_sort result_vec

/-! ## Fuzzy matches filtered by the prefix matches (`Trie::get_top_k_fuzzy_matches`) -/

/-- The erase loop of `get_top_k_fuzzy_matches`: a match whose word is in
`prefix_words_set` stays, with its score raised by 10; any other match is erased. -/
def prefix_filter (prefix_words_set : List (List Char)) : List FuzzyMatch → List FuzzyMatch
  | [] => []
  | m :: rest =>
    if m.word ∈ prefix_words_set then
      { m with score := m.score + 10 } :: prefix_filter prefix_words_set rest
    else prefix_filter prefix_words_set rest

/-- The method `Trie::get_top_k_fuzzy_matches(input, max_edits, k)`.  `none` is a fault:
an index outside the child array in the prefix lookup, or `resize(k)` with a negative `k`
(the length error of `std::vector`). -/
def get_top_k_fuzzy_matches (t : Trie) (input : List Char) (max_edits : Int) (k : Int) :
    Option (List FuzzyMatch) :=
  let all_matches := get_ranked_fuzzy_matches t input max_edits
  match get_top_k_with_prefix t input k with
  | none => none
  | some words_with_prefix =>
    let all_matches := prefix_filter words_with_prefix all_matches
    if (all_matches.length : Int) > k then
      if k < 0 then none else some (all_matches.take k.toNat)
    else some all_matches

/-! ## Persistence (`Trie::save_to_file`, `Trie::load_from_file`)

The content of the file is a `List Char`.  The stream operations are those of the standard
library in the default "C" locale. -/

/-- The bounds `INT_MIN` and `INT_MAX` of the 32-bit `int`. -/
def INT_MIN : Int := -2147483648

/-- The largest `int`. -/
def INT_MAX : Int := 2147483647

/-- The insertion `out << frequency` of an `int`: the decimal digits, after a `-` for a
negative value. -/
def int_to_chars (n : Int) : List Char :=
  if n < 0 then '-' :: Nat.toDigits 10 n.natAbs else Nat.toDigits 10 n.natAbs

/-- The method `Trie::save_to_file`, for a file that could be opened: the text written,
one line `<word> <frequency>` per pair collected by `collect_all_words`. -/
def save_to_file (t : Trie) : List Char :=
  (collect_all_words t.root [] []).foldl
    (fun out pair => out ++ pair.1 ++ [' '] ++ int_to_chars pair.2 ++ ['\n']) []

/-- The classification `std::isspace` in the "C" locale. -/
def isspace (c : Char) : Bool :=
  c = ' ' || c = '\t' || c = '\n' || c = '\x0b' || c = '\x0c' || c = '\r'

/-- The extraction `in >> word` of a `std::string`: leading whitespace is skipped, then the
characters up to the next whitespace are taken; it fails at the end of the input.  The
result is the word and the rest of the stream. -/
def read_word (s : List Char) : Option (List Char × List Char) :=
  match s.dropWhile isspace with
  | [] => none
  | c :: r =>
    some ((c :: r).takeWhile (fun x => !isspace x), (c :: r).dropWhile (fun x => !isspace x))

/-- The value of a run of decimal digits. -/
def digits_value (ds : List Char) : Int :=
  ds.foldl (fun acc d => acc * 10 + ((d.toNat : Int) - 48)) 0

/-- The extraction `in >> freq` of an `int`: leading whitespace is skipped, an optional
sign and the longest run of digits are taken; it fails when there is no digit or when the
value is not an `int`.  The result is the value and the rest of the stream. -/
def read_int (s : List Char) : Option (Int × List Char) :=
  let signed : Bool × List Char :=
    match s.dropWhile isspace with
    | '-' :: r => (true, r)
    | '+' :: r => (false, r)
    | r => (false, r)
  match signed.2.takeWhile Char.isDigit with
  | [] => none
  | d :: ds =>
    let v := if signed.1 then - digits_value (d :: ds) else digits_value (d :: ds)
    if INT_MIN ≤ v ∧ v ≤ INT_MAX then some (v, signed.2.dropWhile Char.isDigit) else none

/-- The loop `while (in >> word >> freq) { insert(word, freq); }` on the stream `s`.  Every
iteration consumes at least one character of `s`; the first argument bounds the number of
iterations and is given the length of the stream. -/
def load_loop : Nat → Trie → List Char → Trie
  | 0, t, _ => t
  | fuel + 1, t, s =>
    match read_word s with
    | none => t
    | some (word, s1) =>
      match read_int s1 with
      | none => t
      | some (freq, s2) => load_loop fuel (insert t word freq) s2

/-- The method `Trie::load_from_file`; `content` is `none` when the file cannot be
opened, in which case the trie is left as it is. -/
def load_from_file (t : Trie) (content : Option (List Char)) : Trie :=
  match content with
  | none => t
  | some s => load_loop s.length t s

/-! ## Selection logging (`Trie::log_selection`) -/

/-- The result of an `int` addition that leaves the 32-bit range.  Signed overflow is
undefined behaviour in the source; the embedding takes the two's complement wrap-around
that the targeted platform produces. -/
def wrap_int (x : Int) : Int := (x + 2147483648) % 4294967296 - 2147483648

/-- The loop of `Trie::log_selection` started at `node`, as a function returning the
updated subtree: every character is used as the index `ch - 'a'` without a guard; a
missing child ends the call without effect; the node reached at the end of the word gets
`frequency + 5` if it is marked as the end of a word.  `none` is an index outside the
child array. -/
def TrieNode.log_selection : TrieNode → List Char → Option TrieNode
  | .mk e fr c, [] => some (if e then .mk e (wrap_int (fr + 5)) c else .mk e fr c)
  | .mk e fr c, ch :: rest =>
    if h : char_index ch < 26 then
      match c ⟨char_index ch, h⟩ with
      | none => some (.mk e fr c)
      | some child =>
        match TrieNode.log_selection child rest with
        | none => none
        | some child' => some (.mk e fr (Function.update c ⟨char_index ch, h⟩ (some child')))
    else none

/-- The method `Trie::log_selection(word)`. -/
def log_selection (t : Trie) (word : List Char) : Option Trie :=
  match t.root.log_selection word with
  | none => none
  | some root' => some ⟨root'⟩

/-! ## The suggestion call (`MainLogicController::show_suggestions`) -/

/-- The constant `MAX_EDITS` of `MainLogicController.h`. -/
def MAX_EDITS : Int := 5

/-- The constant `TOP_K` of `MainLogicController.h`. -/
def TOP_K : Int := 1

/-- The method `MainLogicController::prefix_checking`: a match whose word is in
`prefix_words_set` stays, with its score raised by 200; any other match is erased. -/
def prefix_checking (prefix_words_set : List (List Char)) : List FuzzyMatch → List FuzzyMatch
  | [] => []
  | m :: rest =>
    if m.word ∈ prefix_words_set then
      { m with score := m.score + 200 } :: prefix_checking prefix_words_set rest
    else prefix_checking prefix_words_set rest

/-- The end of `show_suggestions`: `if (matches.empty()) return ""; return
matches[0].word;`. -/
def first_word_or_empty : List FuzzyMatch → List Char
  | [] => []
  | m :: _ => m.word

/-- The method `MainLogicController::show_suggestions(input)` on the controller's trie; the
empty string is the answer "no suggestion".  `none` is the fault of the calls it makes. -/
def show_suggestions (t : Trie) (input : List Char) : Option (List Char) :=
  match get_top_k_fuzzy_matches t input MAX_EDITS TOP_K with
  | none => none
  | some fuzzy_matches =>
    match get_top_k_with_prefix t input TOP_K with
    | none => none
    | some words_with_prefix =>
      some (first_word_or_empty (prefix_checking words_with_prefix fuzzy_matches))

/-! ## String helper (`StringHandler::getSuffixDifference`) -/

/-- The call `s.rfind(str, pos)` of `std::string`: the highest position `i <= pos` at which
`str` occurs in `s`; `none` is `npos`. -/
def rfind (s str : List Char) (pos : Nat) : Option Nat :=
  if str.length ≤ s.length then
    (List.range (min pos (s.length - str.length) + 1)).reverse.find?
      (fun i => decide ((s.drop i).take str.length = str))
  else none

/-- The call `s.substr(pos, n)` of `std::string`: at most `n` characters from the position
`pos` on; `none` is the exception `std::out_of_range`, thrown for `pos > |s|`. -/
def substr (s : List Char) (pos n : Nat) : Option (List Char) :=
  if pos ≤ s.length then some ((s.drop pos).take n) else none

/-- The call `s.substr(pos)`, whose count is `npos`: the characters from `pos` to the
end. -/
def substr_from (s : List Char) (pos : Nat) : Option (List Char) :=
  if pos ≤ s.length then some (s.drop pos) else none

/-- The method `StringHandler::getSuffixDifference(s1, s2)`; `none` is the exception of
`substr`. -/
def getSuffixDifference (s1 s2 : List Char) : Option (List Char) :=
  if rfind s2 s1 0 = some 0 then substr_from s2 s1.length else some []

/-! ## Tokenizer (`MainLogicController::tokenize`)

The classifications `isspace`, `isalpha`, `isalnum` and `isdigit` are those of the "C"
locale.  For a character outside ASCII the calls of the source are undefined (the `char`
is negative); the embedding classifies such a character as outside every class. -/

/-- The enumeration `TokenTYPE`. -/
inductive TokenTYPE where
  | DEFAULT
  | KEYWORD
  | STRING_LITERAL
  | NUMBER_LITERAL
  | COMMENT
  | OPERATOR
  | PUNCTUATION
  | PREPROCESSOR
deriving DecidableEq

/-- The struct `Token`. -/
structure Token where
  text : List Char
  type : TokenTYPE
  start_pos : Nat
  length : Nat
deriving DecidableEq

/-- The value of the member `keywords` after `MainLogicController::initialize_keywords`. -/
def initialize_keywords : List (List Char) :=
  ["alignas".toList, "alignof".toList, "and".toList, "and_eq".toList, "asm".toList,
    "auto".toList,
    "bool".toList, "break".toList,
    "case".toList, "catch".toList, "char".toList, "char8_t".toList, "char16_t".toList,
    "char32_t".toList, "class".toList, "concept".toList, "const".toList, "consteval".toList,
    "constexpr".toList, "const_cast".toList, "continue".toList, "co_await".toList,
    "co_returns".toList, "co_yield".toList,
    "decltype".toList, "default".toList, "delete".toList, "do".toList, "double".toList,
    "dynamic_cast".toList,
    "else".toList, "enum".toList, "explicit".toList, "export".toList, "extern".toList,
    "false".toList, "float".toList, "for".toList, "friend".toList,
    "goto".toList,
    "if".toList, "inline".toList, "int".toList,
    "long".toList,
    "mutable".toList,
    "namespace".toList, "new".toList, "noexcept".toList, "nullptr".toList,
    "operator".toList, "or".toList, "or_eq".toList,
    "private".toList, "protected".toList, "public".toList,
    "reflexpr".toList, "register".toList, "reinterpret_cast".toList, "requires".toList,
    "return".toList,
    "short".toList, "signed".toList, "sizeof".toList, "static".toList,
    "static_assert".toList, "static_cast".toList, "struct".toList,
    "switch".toList, "synchronized".toList,
    "template".toList, "this".toList, "thread_local".toList, "throw".toList, "true".toList,
    "try".toList, "typedef".toList, "typeid".toList, "typename".toList,
    "union".toList, "unsigned".toList, "using".toList,
    "virtual".toList, "void".toList, "volatile".toList,
    "wchar_t".toList, "while".toList,
    "xor".toList, "xor_eq".toList,
    "#include".toList, "#define".toList, "#ifdef".toList, "#ifndef".toList, "#endif".toList,
    "#pragma".toList]

/-- The classification `isalpha` in the "C" locale: one of `A..Z`, `a..z`. -/
def isalpha (c : Char) : Bool :=
  decide ((65 ≤ c.toNat ∧ c.toNat ≤ 90) ∨ (97 ≤ c.toNat ∧ c.toNat ≤ 122))

/-- The classification `isdigit`: one of `0..9`. -/
def isdigit (c : Char) : Bool := decide (48 ≤ c.toNat ∧ c.toNat ≤ 57)

/-- The classification `isalnum`: a letter or a digit. -/
def isalnum (c : Char) : Bool := isalpha c || isdigit c

/-- The double quote character (code 34). -/
def double_quote : Char := Char.ofNat 34

/-- The single quote character (code 39). -/
def single_quote : Char := Char.ofNat 39

/-- The backslash character (code 92). -/
def backslash : Char := Char.ofNat 92

/-- The two-character operators that `tokenize` recognises. -/
def two_char_ops : List (List Char) :=
  [['=', '='], ['!', '='], ['<', '='], ['>', '='], ['&', '&'], ['|', '|'], ['+', '+'],
    ['-', '-'], ['-', '>'], [':', ':'], ['+', '='], ['-', '='], ['*', '='], ['/', '='],
    ['%', '='], ['&', '='], ['|', '='], ['^', '='], ['<', '<'], ['>', '>']]

/-- The characters of the string searched by rule 7 of `tokenize`: the single-character
operators and the punctuation. -/
def punctuation : List Char :=
  ['+', '-', '*', '/', '%', '&', '|', '^', '~', '!', '=', '<', '>', '(', ')', Char.ofNat 123,
    Char.ofNat 125, '[', ']', ';', ':', ',', '.']

/-- The loop `while (current_pos < line_length && p(line[current_pos])) current_pos++`: the
position it reaches. -/
def scan_while (p : Char → Bool) (line : List Char) (current_pos : Nat) : Nat :=
  current_pos + ((line.drop current_pos).takeWhile p).length

/-- The loop of the multi-line comment, `while (current_pos + 1 < line_length &&
!(line[current_pos] == '*' && line[current_pos + 1] == '/')) current_pos++`, on the
characters of the line from `current_pos` on: the position it reaches. -/
def scan_comment : List Char → Nat → Nat
  | a :: b :: r, current_pos =>
    if a = '*' ∧ b = '/' then current_pos else scan_comment (b :: r) (current_pos + 1)
  | _, current_pos => current_pos

/-- The loop of the string literal, `while (current_pos < line_length && line[current_pos]
!= quote_char)`, whose body skips the character after a backslash when there is one, on the
characters of the line from `current_pos` on: the position it reaches. -/
def scan_string (quote_char : Char) : List Char → Nat → Nat
  | [], current_pos => current_pos
  | c :: r, current_pos =>
    if c = quote_char then current_pos
    else if c = backslash then
      match r with
      | [] => current_pos + 1
      | _ :: r' => scan_string quote_char r' (current_pos + 2)
    else scan_string quote_char r (current_pos + 1)

/-- The token `{ line.substr(start, current_pos - start), type, start, current_pos - start }`
pushed by the rules that scan a range, with the position reached. -/
def range_token (line : List Char) (type : TokenTYPE) (start current_pos : Nat) :
    Option (Token × Nat) :=
  match substr line start (current_pos - start) with
  | none => none
  | some text => some (⟨text, type, start, current_pos - start⟩, current_pos)

/-- Rule 4 of `tokenize` (identifiers and keywords), after the scanning loop. -/
def word_token (keywords : List (List Char)) (line : List Char) (start current_pos : Nat) :
    Option (Token × Nat) :=
  match substr line start (current_pos - start) with
  | none => none
  | some word =>
    if word ∈ keywords then
      if word ≠ [] ∧ word[0]? = some '#' then
        some (⟨word, .PREPROCESSOR, start, word.length⟩, current_pos)
      else some (⟨word, .KEYWORD, start, word.length⟩, current_pos)
    else some (⟨word, .DEFAULT, start, word.length⟩, current_pos)

/-- Rules 6, 7 and the last rule of `tokenize`: a two-character operator, a
single-character operator or punctuation, or any other character. -/
def operator_token (line : List Char) (current_pos : Nat) (c : Char) : Option (Token × Nat) :=
  let single : Token × Nat :=
    if c ∈ punctuation then (⟨[c], .PUNCTUATION, current_pos, 1⟩, current_pos + 1)
    else (⟨[c], .DEFAULT, current_pos, 1⟩, current_pos + 1)
  if current_pos + 1 < line.length then
    match substr line current_pos 2 with
    | none => none
    | some two_char_op =>
      if two_char_op ∈ two_char_ops then
        some (⟨two_char_op, .OPERATOR, current_pos, 2⟩, current_pos + 2)
      else some single
  else some single

/-- One iteration of the loop of `tokenize` at the position `current_pos`, where the
character is `c`: the token pushed and the new position.  `none` is the exception of
`substr`. -/
def next_token (keywords : List (List Char)) (line : List Char) (current_pos : Nat)
    (c : Char) : Option (Token × Nat) :=
  if isspace c then
    range_token line .DEFAULT current_pos (scan_while isspace line current_pos)
  else if c = '/' ∧ (line)[current_pos + 1]? = some '/' then
    range_token line .COMMENT current_pos
      (scan_while (fun x => x ≠ '\n' && x ≠ '\r') line current_pos)
  else if c = '/' ∧ (line)[current_pos + 1]? = some '*' then
    let start := current_pos
    let current_pos := scan_comment (line.drop (current_pos + 2)) (current_pos + 2)
    let current_pos := if current_pos + 1 < line.length then current_pos + 2 else line.length
    range_token line .COMMENT start current_pos
  else if c = double_quote ∨ c = single_quote then
    let start := current_pos
    let current_pos := scan_string c (line.drop (current_pos + 1)) (current_pos + 1)
    let current_pos := if current_pos < line.length then current_pos + 1 else line.length
    range_token line .STRING_LITERAL start current_pos
  else if isalpha c ∨ c = '_' then
    word_token keywords line current_pos
      (scan_while (fun x => isalnum x || x = '_') line current_pos)
  else if isdigit c then
    range_token line .NUMBER_LITERAL current_pos (scan_while isdigit line current_pos)
  else operator_token line current_pos c

/-- The loop `while (current_pos < line_length)` of `tokenize`.  The first argument bounds
the number of iterations; every iteration advances `current_pos`, and the entry point
supplies the length of the line. -/
def tokenize_loop (keywords : List (List Char)) (line : List Char) :
    Nat → Nat → List Token → Option (List Token)
  | 0, _, tokens => some tokens
  | fuel + 1, current_pos, tokens =>
    match (line)[current_pos]? with
    | none => some tokens
    | some c =>
      match next_token keywords line current_pos c with
      | none => none
      | some (tok, next_pos) => tokenize_loop keywords line fuel next_pos (tokens ++ [tok])

/-- The method `MainLogicController::tokenize(line)`, `keywords` being the member of that
name. -/
def tokenize (keywords : List (List Char)) (line : List Char) : Option (List Token) :=
  tokenize_loop keywords line line.length 0 []

/-- The tokens are contiguous from the position `pos` on: each one starts where the
previous one ends. -/
def contiguous_from : Nat → List Token → Prop
  | _, [] => True
  | pos, tok :: rest => tok.start_pos = pos ∧ contiguous_from (pos + tok.length) rest

/-! ## Notions used to state the properties -/

/-- The node reached from `n` along the letters of `w`, if that path exists; a character
outside `a..z` has no path. -/
def TrieNode.walk : TrieNode → List Char → Option TrieNode
  | n, [] => some n
  | n, ch :: rest =>
    if h : char_index ch < 26 then
      match n.children ⟨char_index ch, h⟩ with
      | none => none
      | some child => child.walk rest
    else none

/-- The frequency stored for `w` below `n`: the path of `w` exists and ends at a node
marked as the end of a word. -/
def TrieNode.lookup (n : TrieNode) (w : List Char) : Option Int :=
  match n.walk w with
  | none => none
  | some m => if m.is_end_of_word then some m.frequency else none

/-- The vocabulary of a trie: the (word, frequency) pairs that `collect_all_words` lists
from the root, which are the pairs `save_to_file` writes. -/
def vocabulary (t : Trie) : List (List Char × Int) := collect_all_words t.root [] []

/-- The trie obtained from a fresh one by the calls `insert(w, f)` for the pairs of `ops`,
in order. -/
def build (ops : List (List Char × Int)) : Trie :=
  ops.foldl (fun t op => insert t op.1 op.2) Trie.empty

/-- The string consists of the letters `a..z` only. -/
def lowercase (w : List Char) : Prop := ∀ ch ∈ w, islower ch = true

instance (w : List Char) : Decidable (lowercase w) := by
  unfold lowercase; infer_instance

/-- The Levenshtein distance with unit costs for the insertion, the deletion and the
substitution of one character. -/
def lev (a b : List Char) : Nat := levenshtein Levenshtein.defaultCost a b

/-- One single-character edit turns the first string into the second: the insertion, the
deletion or the substitution of one character at some position. -/
inductive EditStep : List Char → List Char → Prop
  | insertion (p q : List Char) (c : Char) : EditStep (p ++ q) (p ++ c :: q)
  | deletion (p q : List Char) (c : Char) : EditStep (p ++ c :: q) (p ++ q)
  | substitution (p q : List Char) (c d : Char) : EditStep (p ++ c :: q) (p ++ d :: q)

/-- The string `a` is transformed into `b` by a sequence of `n` single-character edits. -/
inductive Edits : Nat → List Char → List Char → Prop
  | done (a : List Char) : Edits 0 a a
  | step {n : Nat} {a b c : List Char} : Edits n a b → EditStep b c → Edits (n + 1) a c

/-- The ranking key of `get_top_k_with_prefix`: `a` comes no later than `b` when its
frequency is higher, or equal with a word that is not greater. -/
def key_le (a b : List Char × Int) : Prop := b.2 < a.2 ∨ (a.2 = b.2 ∧ a.1 ≤ b.1)

/-- The strict ranking key: higher frequency first, ties by ascending word. -/
def key_lt (a b : List Char × Int) : Prop := b.2 < a.2 ∨ (a.2 = b.2 ∧ a.1 < b.1)

instance : DecidableRel key_le := fun a b => by
  unfold key_le; infer_instance

instance : DecidableRel key_lt := fun a b => by
  unfold key_lt; infer_instance

/-- The line `<word> <frequency>` that `save_to_file` writes for one pair, newline
included. -/
def entry_line (pair : List Char × Int) : List Char :=
  pair.1 ++ ' ' :: (int_to_chars pair.2 ++ ['\n'])

/-! ## Notions used to reason about the search -/

/-- The map has an entry for `k` whose edit distance is at most `b`. -/
def Has (R : ResultMap) (k : List Char) (b : Int) : Prop :=
  ∃ v, map_find R k = some v ∧ v.edit_distance ≤ b

/-- From `R` to `R'` no key is lost, no recorded distance grows, and the keys stay
distinct. -/
def Mono (R R' : ResultMap) : Prop :=
  (∀ k b, Has R k b → Has R' k b) ∧ ((R.map Prod.fst).Nodup → (R'.map Prod.fst).Nodup)

/-- Every entry of `R'` is an entry of `R` or satisfies `N`. -/
def Sound (N : List Char → FuzzyMatch → Prop) (R R' : ResultMap) : Prop :=
  ∀ k v, map_find R' k = some v → map_find R k = some v ∨ N k v

/-- The entries a call `search_fuzzy(n, target, cur, index, er, _, eu)` may record, `tgt`
being the part of the target from `index` on: a word `cur ++ s` stored below `n` as `s`,
with its frequency, score 0, and a distance between `eu + lev tgt s` and `eu + er`. -/
def Admissible (n : TrieNode) (cur tgt : List Char) (er eu : Int) (k : List Char)
    (v : FuzzyMatch) : Prop :=
  ∃ s f, n.lookup s = some f ∧ k = cur ++ s ∧ v.word = k ∧ v.frequency = f ∧ v.score = 0 ∧
    eu + lev tgt s ≤ v.edit_distance ∧ v.edit_distance ≤ eu + er

/-- The entries a call `search_fuzzy(n, target, cur, index, er, _, eu)` must record: every
word `cur ++ s` stored below `n` as `s` with `lev tgt s <= er`, with a distance of at most
`eu + lev tgt s`. -/
def Goal (n : TrieNode) (cur tgt : List Char) (er eu : Int) (k : List Char) (b : Int) : Prop :=
  ∃ s f, n.lookup s = some f ∧ k = cur ++ s ∧ (lev tgt s : Int) ≤ er ∧ b = eu + lev tgt s

/-- The effect of a piece of the search on the result map: monotone, sound for `N`, and
complete for `G`. -/
structure Step (N : List Char → FuzzyMatch → Prop) (G : List Char → Int → Prop)
    (R R' : ResultMap) : Prop where
  mono : Mono R R'
  sound : Sound N R R'
  complete : ∀ k b, G k b → Has R' k b

/-! ## Sequences of operations -/

/-- An operation that changes the engine: `insert(word, freq)` or `log_selection(word)`. -/
inductive Op where
  | insert (word : List Char) (freq : Int)
  | log_selection (word : List Char)

/-- The state after one operation; `none` is the fault of `log_selection`. -/
def apply_op (t : Trie) : Op → Option Trie
  | .insert word freq => some (insert t word freq)
  | .log_selection word => log_selection t word

/-- The state after a sequence of operations, performed in order. -/
def run (t : Trie) : List Op → Option Trie
  | [] => some t
  | op :: ops =>
    match apply_op t op with
    | none => none
    | some t' => run t' ops

/-- The operation does not lower a frequency in the state `t`: an insertion brings a
non-negative frequency that is not below the one it overwrites; a selection is of a word
whose frequency can be raised by 5 within the `int` range. -/
def op_keeps_order (t : Trie) : Op → Prop
  | .insert word freq =>
    0 ≤ freq ∧ ∀ f0, (word.filter islower, f0) ∈ vocabulary t → f0 ≤ freq
  | .log_selection word =>
    ∀ f0, (word, f0) ∈ vocabulary t → INT_MIN ≤ f0 ∧ f0 + 5 ≤ INT_MAX

/-- Every operation of the sequence satisfies `op_keeps_order` in the state it is applied
to. -/
def run_keeps_order (t : Trie) : List Op → Prop
  | [] => True
  | op :: ops => op_keeps_order t op ∧ ∀ t', apply_op t op = some t' → run_keeps_order t' ops

/-! ## The loading of a file in the words of the specification -/

/-- The whitespace-delimited tokens of the text `s`, `cur` being the token that is being
read: a token is a maximal run of characters that are not whitespace. -/
def ws_tokens_from : List Char → List Char → List (List Char)
  | [], cur => if cur = [] then [] else [cur]
  | c :: r, cur =>
    if isspace c then
      if cur = [] then ws_tokens_from r [] else cur :: ws_tokens_from r []
    else ws_tokens_from r (cur ++ [c])

/-- The whitespace-delimited tokens of a text. -/
def ws_tokens (s : List Char) : List (List Char) := ws_tokens_from s []

/-- The optional sign of an integer token and what follows it. -/
def split_sign : List Char → Bool × List Char
  | '-' :: r => (true, r)
  | '+' :: r => (false, r)
  | r => (false, r)

/-- The value of a sign and a run of digits. -/
def signed_value (negative : Bool) (ds : List Char) : Int :=
  if negative then - digits_value ds else digits_value ds

/-- The `int` that a token denotes: the whole token is an optional sign followed by at
least one digit, and the value is in the range of `int`. -/
def int_of_token (tok : List Char) : Option Int :=
  if (split_sign tok).2 ≠ [] ∧ (∀ d ∈ (split_sign tok).2, d.isDigit = true) ∧
      INT_MIN ≤ signed_value (split_sign tok).1 (split_sign tok).2 ∧
      signed_value (split_sign tok).1 (split_sign tok).2 ≤ INT_MAX then
    some (signed_value (split_sign tok).1 (split_sign tok).2)
  else none

/-- The (word, integer-frequency) pairs of a list of tokens, in order, up to the end of the
tokens or the first pair whose second token is not an `int`. -/
def token_pairs : List (List Char) → List (List Char × Int)
  | word :: freq :: rest =>
    match int_of_token freq with
    | some f => (word, f) :: token_pairs rest
    | none => []
  | _ => []

/-- Follows the words of the specification for `load`: the whitespace-delimited (word,
integer-frequency) token pairs of the content are inserted in file order; a file that
cannot be opened leaves the trie as it is. -/
def spec_load_from_file (t : Trie) (content : Option (List Char)) : Trie :=
  match content with
  | none => t
  | some s => (token_pairs (ws_tokens s)).foldl (fun t p => insert t p.1 p.2) t

/-- The token starts with an `int` (an optional sign and a non-empty run of digits whose
value is in the range of `int`) and goes on with a character that is not a digit, as in
`12b`. -/
def int_then_more (tok : List Char) : Bool :=
  decide ((split_sign tok).2.takeWhile Char.isDigit ≠ [] ∧
    ((split_sign tok).2.takeWhile Char.isDigit).length < (split_sign tok).2.length ∧
    INT_MIN ≤ signed_value (split_sign tok).1 ((split_sign tok).2.takeWhile Char.isDigit) ∧
    signed_value (split_sign tok).1 ((split_sign tok).2.takeWhile Char.isDigit) ≤ INT_MAX)

/-- No token in a frequency position (every second token) is an `int` followed by further
characters. -/
def frequency_tokens_clean : List (List Char) → Bool
  | _ :: freq :: rest => !int_then_more freq && frequency_tokens_clean rest
  | _ => true

/-- The pair `(p, f)` is the best completion of `input`: `p` is the vocabulary word with
the highest frequency among those that have `input` as a prefix, the smallest such word
in case of equal frequencies, and `f` is its frequency. -/
def best_completion (t : Trie) (input p : List Char) (f : Int) : Prop :=
  (p, f) ∈ vocabulary t ∧ input <+: p ∧
    ∀ w g, (w, g) ∈ vocabulary t → input <+: w → key_le (p, f) (w, g)

/-! ## The recursion of `search_fuzzy` -/

/-- The loop `for (char ch = 'a'; ch <= 'z'; ++ch)` of `search_fuzzy` when its body can
exceed the allowed depth: the iterations run in order on the result map, and once an
iteration has returned `none` the loop returns `none`. -/
def for_each_letter (body : ResultMap → Fin 26 → Option ResultMap) (results : ResultMap) :
    Option ResultMap :=
  (List.finRange 26).foldl (fun acc i => acc.bind (fun results => body results i))
    (some results)

/-- The method `Trie::search_fuzzy` once more, with the depth of the recursion made
observable: the first argument is the number of nested activations that are allowed, the
call itself included, and `none` is returned as soon as an activation would exceed it.
Apart from that the body is the one of `search_fuzzy` above, statement by statement. -/
def search_fuzzy_bounded : Nat → Option TrieNode → List Char → List Char → Nat → Int →
    ResultMap → Int → Option ResultMap
  | 0, _, _, _, _, _, _, _ => none
  | depth + 1, node, target, current, index, edits_remaining, results, edits_used =>
    match node with
    | none => some results
    | some n =>
      if edits_remaining < 0 then some results
      else if index = target.length then
        let results :=
          if n.is_end_of_word = true ∧ edits_remaining ≥ 0 then
            match map_find results current with
            | none => map_assign results current ⟨current, n.frequency, edits_used, 0⟩
            | some it =>
              if it.edit_distance > edits_used then
                map_assign results current ⟨current, n.frequency, edits_used, 0⟩
              else results
          else results
        for_each_letter
          (fun results i =>
            match n.children i with
            | none => some results
            | some child =>
              search_fuzzy_bounded depth (some child) target (current ++ [letter i]) index
                (edits_remaining - 1) results (edits_used + 1))
          results
      else
        match target[index]? with
        | none => some results
        | some target_ch =>
          (for_each_letter
            (fun results i =>
              match n.children i with
              | none => some results
              | some child =>
                (if letter i = target_ch then
                  search_fuzzy_bounded depth (some child) target (current ++ [letter i])
                    (index + 1) edits_remaining results edits_used
                else
                  search_fuzzy_bounded depth (some child) target (current ++ [letter i])
                    (index + 1) (edits_remaining - 1) results (edits_used + 1)).bind
                  (fun results =>
                    search_fuzzy_bounded depth (some child) target (current ++ [letter i])
                      index (edits_remaining - 1) results (edits_used + 1)))
            results).bind
            (fun results =>
              search_fuzzy_bounded depth (some n) target current (index + 1)
                (edits_remaining - 1) results (edits_used + 1))

/-- The arguments of a call of `search_fuzzy` that change along the recursion: the node,
the index into the target and the remaining budget. -/
structure Call where
  node : Option TrieNode
  index : Nat
  edits_remaining : Int

/-- The recursive calls that the body of `search_fuzzy` makes for the call `c`, in the
order of the source: none after the pruning test; at the end of the target one call per
existing child (insertion); otherwise, per existing child, the call for the match or the
substitution and the call for the insertion, and at the end the call for the deletion. -/
def recursive_calls (target : List Char) (c : Call) : List Call :=
  match c.node with
  | none => []
  | some n =>
    if c.edits_remaining < 0 then []
    else if c.index = target.length then
      (List.finRange 26).flatMap
        (fun i =>
          match n.children i with
          | none => []
          | some child => [⟨some child, c.index, c.edits_remaining - 1⟩])
    else
      match target[c.index]? with
      | none => []
      | some target_ch =>
        (List.finRange 26).flatMap
          (fun i =>
            match n.children i with
            | none => []
            | some child =>
              [if letter i = target_ch then ⟨some child, c.index + 1, c.edits_remaining⟩
                else ⟨some child, c.index + 1, c.edits_remaining - 1⟩,
               ⟨some child, c.index, c.edits_remaining - 1⟩])
          ++ [⟨some n, c.index + 1, c.edits_remaining - 1⟩]

/-- The measure `(|target| - index) + edits_remaining` of a call. -/
def call_measure (target : List Char) (c : Call) : Int :=
  ((target.length : Int) - c.index) + c.edits_remaining

/-- The call `c'` is reached from the call `c` through `d` nested recursive calls. -/
inductive Nested (target : List Char) : Call → Nat → Call → Prop
  | here (c : Call) : Nested target c 0 c
  | call {c c1 c' : Call} {d : Nat} :
      c1 ∈ recursive_calls target c → Nested target c1 d c' → Nested target c (d + 1) c'

/-- What one iteration of the loop of `tokenize` at the position `pos` is shown to do: it
pushes a token and moves to a position `next` with `pos < next <= |line|`; the token
starts at `pos`, has the length `next - pos` and the text of that range of the line, and
its type is not `PREPROCESSOR`. -/
def step_ok (line : List Char) (pos : Nat) (r : Option (Token × Nat)) : Prop :=
  ∃ tok next, r = some (tok, next) ∧ pos < next ∧ next ≤ line.length ∧ tok.start_pos = pos ∧
    tok.length = next - pos ∧ tok.text = (line.drop pos).take (next - pos) ∧
    tok.type ≠ TokenTYPE.PREPROCESSOR

/-! # Theorems -/

/-! ## Characters and indices -/

theorem char_toNat_lt (ch : Char) : ch.toNat < 4294967296 := ch.val.val.isLt

theorem char_index_lt_iff (ch : Char) : char_index ch < 26 ↔ islower ch = true := by
  unfold char_index islower
  simp only [decide_eq_true_eq]
  have : (2:Int)^64 = 18446744073709551616 := by norm_num
  rw [this]
  have h := char_toNat_lt ch
  omega

theorem letter_char_index (ch : Char) (h : char_index ch < 26) :
    letter ⟨char_index ch, h⟩ = ch := by
  have hl := (char_index_lt_iff ch).1 h
  unfold islower at hl
  simp only [decide_eq_true_eq] at hl
  unfold letter
  have : 97 + char_index ch = ch.toNat := by
    unfold char_index
    have : (2:Int)^64 = 18446744073709551616 := by norm_num
    rw [this]
    omega
  simp only [this, Char.ofNat_toNat]

theorem char_index_letter (i : Fin 26) : char_index (letter i) = i.val := by
  revert i; decide

theorem islower_letter (i : Fin 26) : islower (letter i) = true := by
  revert i; decide

theorem letter_lt_letter {i j : Fin 26} (h : i < j) : letter i < letter j := by
  revert i j; decide

theorem letter_injective {i j : Fin 26} (h : letter i = letter j) : i = j := by
  revert i j; decide


/-! ## Paths in the trie -/

theorem TrieNode.induction {P : TrieNode → Prop}
    (h : ∀ e f c, (∀ i n, c i = some n → P n) → P (.mk e f c)) : ∀ n, P n := by
  intro n
  exact TrieNode.rec (motive_1 := P) (motive_2 := fun o => ∀ n, o = some n → P n)
    (fun e f c ih => h e f c (fun i n hn => ih i n hn))
    (fun n hn => by cases hn)
    (fun v hv n hn => by cases hn; exact hv) n

theorem walk_letter (n : TrieNode) (i : Fin 26) (s : List Char) :
    n.walk (letter i :: s) =
      match n.children i with
      | none => none
      | some child => child.walk s := by
  have h : char_index (letter i) < 26 := by rw [char_index_letter]; exact i.isLt
  have hi : (⟨char_index (letter i), h⟩ : Fin 26) = i := Fin.ext (char_index_letter i)
  simp only [TrieNode.walk, h, dite_true, hi]

theorem walk_not_lower (n : TrieNode) (ch : Char) (s : List Char) (h : islower ch = false) :
    n.walk (ch :: s) = none := by
  have h' : ¬ char_index ch < 26 := by
    rw [char_index_lt_iff, h]; simp
  simp only [TrieNode.walk, h', dite_false]

theorem lookup_nil (n : TrieNode) :
    n.lookup [] = if n.is_end_of_word then some n.frequency else none := by
  simp [TrieNode.lookup, TrieNode.walk]

theorem lookup_letter (n : TrieNode) (i : Fin 26) (s : List Char) :
    n.lookup (letter i :: s) =
      match n.children i with
      | none => none
      | some child => child.lookup s := by
  unfold TrieNode.lookup
  rw [walk_letter]
  cases n.children i <;> rfl

theorem lookup_not_lower (n : TrieNode) (ch : Char) (s : List Char) (h : islower ch = false) :
    n.lookup (ch :: s) = none := by
  simp [TrieNode.lookup, walk_not_lower n ch s h]

/-- A stored word is empty, or starts with a letter whose child stores the rest. -/
theorem lookup_cases {n : TrieNode} {s : List Char} {f : Int} (h : n.lookup s = some f) :
    (s = [] ∧ n.is_end_of_word = true ∧ n.frequency = f) ∨
    ∃ i child s', s = letter i :: s' ∧ n.children i = some child ∧ child.lookup s' = some f := by
  cases s with
  | nil =>
    left
    rw [lookup_nil] at h
    by_cases he : n.is_end_of_word = true
    · simp [he] at h; exact ⟨rfl, he, h⟩
    · simp [he] at h
  | cons ch s' =>
    right
    by_cases hl : islower ch = true
    · have hi : char_index ch < 26 := (char_index_lt_iff ch).2 hl
      have hch : letter ⟨char_index ch, hi⟩ = ch := letter_char_index ch hi
      rw [← hch, lookup_letter] at h
      cases hc : n.children ⟨char_index ch, hi⟩ with
      | none => simp [hc] at h
      | some child =>
        simp only [hc] at h
        exact ⟨⟨char_index ch, hi⟩, child, s', by rw [hch], hc, h⟩
    · have hl' : islower ch = false := by simpa using hl
      rw [lookup_not_lower n ch s' hl'] at h
      cases h

theorem lookup_lowercase {n : TrieNode} {s : List Char} {f : Int} (h : n.lookup s = some f) :
    lowercase s := by
  induction s generalizing n with
  | nil => intro ch hch; cases hch
  | cons c s ih =>
    rcases lookup_cases h with ⟨h0, _, _⟩ | ⟨i, child, s', hs, _, hl⟩
    · cases h0
    · cases hs
      intro ch hch
      rcases List.mem_cons.1 hch with rfl | hm
      · exact islower_letter i
      · exact ih hl ch hm

theorem lookup_fresh (s : List Char) : TrieNode.fresh.lookup s = none := by
  cases h : TrieNode.fresh.lookup s with
  | none => rfl
  | some f =>
    rcases lookup_cases h with ⟨_, he, _⟩ | ⟨i, child, s', _, hc, _⟩
    · cases he
    · cases hc


/-! ## The enumeration `dfs` -/

theorem foldl_acc_append {α β : Type} (g : List β → α → List β) (h : α → List β) (L : List α)
    (hg : ∀ i ∈ L, ∀ out, g out i = out ++ h i) (out : List β) :
    L.foldl g out = out ++ L.flatMap h := by
  induction L generalizing out with
  | nil => simp
  | cons a L ih =>
    simp only [List.foldl_cons, List.flatMap_cons]
    rw [ih (fun i hi => hg i (List.mem_cons_of_mem _ hi)), hg a (List.mem_cons_self _ _)]
    simp

theorem dfs_child_none (cur : List Char) (out : List (List Char × Int)) :
    dfs_child none cur out = out := by
  simp [dfs_child]

theorem dfs_child_some (n : TrieNode) (cur : List Char) (out : List (List Char × Int)) :
    dfs_child (some n) cur out = dfs n cur out := by
  simp [dfs_child]

theorem dfs_acc (n : TrieNode) : ∀ cur out, dfs n cur out = out ++ dfs n cur [] := by
  induction n using TrieNode.induction with
  | h e f c ih =>
    have hc : ∀ i cur out, dfs_child (c i) cur out = out ++ dfs_child (c i) cur [] := by
      intro i cur out
      cases hci : c i with
      | none => simp [dfs_child_none]
      | some child =>
        rw [dfs_child_some, dfs_child_some]
        exact ih i child hci cur out
    intro cur out
    simp only [dfs]
    rw [foldl_acc_append _ (fun i => dfs_child (c i) (cur ++ [letter i]) []) _
      (fun i _ out => hc i _ out)]
    rw [foldl_acc_append _ (fun i => dfs_child (c i) (cur ++ [letter i]) []) _
      (fun i _ out => hc i _ out)]
    by_cases he : e = true <;> simp [he]

/-- The list `dfs` appends: the node's own entry, then the entries of the children in
`a..z` order. -/
theorem dfs_eq (e : Bool) (f : Int) (c : Fin 26 → Option TrieNode) (cur : List Char) :
    dfs (.mk e f c) cur [] =
      (if e then [(cur, f)] else []) ++
        (List.finRange 26).flatMap (fun i => dfs_child (c i) (cur ++ [letter i]) []) := by
  have hc : ∀ i cur out, dfs_child (c i) cur out = out ++ dfs_child (c i) cur [] := by
    intro i cur out
    cases hci : c i with
    | none => simp [dfs_child_none]
    | some child =>
      rw [dfs_child_some, dfs_child_some]
      exact dfs_acc child cur out
  simp only [dfs]
  rw [foldl_acc_append _ (fun i => dfs_child (c i) (cur ++ [letter i]) []) _
    (fun i _ out => hc i _ out)]
  by_cases he : e = true <;> simp [he]

/-- The entries listed by `dfs` below `n` are the stored words, prefixed by `cur`. -/
theorem mem_dfs (n : TrieNode) : ∀ (cur w : List Char) (f : Int),
    (w, f) ∈ dfs n cur [] ↔ ∃ s, w = cur ++ s ∧ n.lookup s = some f := by
  induction n using TrieNode.induction with
  | h e fr c ih =>
    intro cur w f
    rw [dfs_eq]
    simp only [List.mem_append, List.mem_flatMap, List.mem_finRange, true_and]
    constructor
    · rintro (h | ⟨i, hi⟩)
      · by_cases he : e = true
        · simp only [he, if_true, List.mem_singleton, Prod.mk.injEq] at h
          refine ⟨[], by simp [h.1], ?_⟩
          rw [lookup_nil]; simp [TrieNode.is_end_of_word, TrieNode.frequency, he, h.2]
        · simp [he] at h
      · cases hci : c i with
        | none => rw [hci, dfs_child_none] at hi; cases hi
        | some child =>
          rw [hci, dfs_child_some] at hi
          obtain ⟨s', hw, hl⟩ := (ih i child hci _ _ _).1 hi
          refine ⟨letter i :: s', by simp [hw], ?_⟩
          rw [lookup_letter]; simp only [TrieNode.children, hci]; exact hl
    · rintro ⟨s, hw, hl⟩
      rcases lookup_cases hl with ⟨hs, he, hf⟩ | ⟨i, child, s', hs, hc, hl'⟩
      · left
        simp only [TrieNode.is_end_of_word, TrieNode.frequency] at he hf
        simp [he, hw, hs, hf]
      · right
        refine ⟨i, ?_⟩
        simp only [TrieNode.children] at hc
        rw [hc, dfs_child_some]
        exact (ih i child hc _ _ _).2 ⟨s', by simp [hw, hs], hl'⟩

theorem collect_all_words_eq_dfs (n : TrieNode) :
    ∀ cur out, collect_all_words n cur out = dfs n cur out := by
  induction n using TrieNode.induction with
  | h e f c ih =>
    intro cur out
    simp only [collect_all_words, dfs]
    apply congrArg (fun g => List.foldl g _ _)
    funext out i
    cases hci : c i with
    | none => simp [collect_all_words_child, dfs_child]
    | some child => simp [collect_all_words_child, dfs_child, ih i child hci]

/-- The vocabulary holds `(w, f)` exactly when the path of `w` ends at a node marked as a
word with frequency `f`. -/
theorem mem_vocabulary (t : Trie) (w : List Char) (f : Int) :
    (w, f) ∈ vocabulary t ↔ t.root.lookup w = some f := by
  unfold vocabulary
  rw [collect_all_words_eq_dfs, mem_dfs]
  simp


/-! ## Order of the enumeration -/

theorem list_lt_iff_lex (a b : List Char) : a < b ↔ List.Lex (· < ·) a b := Iff.rfl

theorem lt_append_cons (cur : List Char) (x : Char) (s : List Char) : cur < cur ++ x :: s := by
  rw [list_lt_iff_lex]
  induction cur with
  | nil => exact List.Lex.nil
  | cons a cur ih => exact List.Lex.cons ih

theorem append_letter_lt {i j : Fin 26} (h : i < j) (cur s1 s2 : List Char) :
    cur ++ letter i :: s1 < cur ++ letter j :: s2 := by
  rw [list_lt_iff_lex]
  exact List.Lex.append_left _ (List.Lex.rel (letter_lt_letter h)) cur

/-- The words listed by `dfs` are in strictly ascending order. -/
theorem dfs_sorted (n : TrieNode) :
    ∀ cur, (dfs n cur []).Pairwise (fun a b => a.1 < b.1) := by
  induction n using TrieNode.induction with
  | h e fr c ih =>
    intro cur
    rw [dfs_eq]
    have hchunk : ∀ i x, x ∈ dfs_child (c i) (cur ++ [letter i]) [] →
        ∃ s, x.1 = cur ++ letter i :: s := by
      intro i x hx
      cases hci : c i with
      | none => rw [hci, dfs_child_none] at hx; cases hx
      | some child =>
        rw [hci, dfs_child_some] at hx
        obtain ⟨s, hs, _⟩ := (mem_dfs child _ x.1 x.2).1 hx
        exact ⟨s, by simp [hs]⟩
    rw [List.pairwise_append]
    refine ⟨?_, ?_, ?_⟩
    · by_cases he : e = true <;> simp [he]
    · rw [List.pairwise_flatMap]
      refine ⟨?_, ?_⟩
      · intro i _
        cases hci : c i with
        | none => simp [dfs_child_none]
        | some child => rw [dfs_child_some]; exact ih i child hci _
      · refine (List.pairwise_lt_finRange 26).imp ?_
        intro i j hij x hx y hy
        obtain ⟨s1, h1⟩ := hchunk i x hx
        obtain ⟨s2, h2⟩ := hchunk j y hy
        rw [h1, h2]
        exact append_letter_lt hij cur s1 s2
    · intro x hx y hy
      by_cases he : e = true
      · simp only [he, if_true, List.mem_singleton] at hx
        obtain ⟨i, _, hy'⟩ := List.mem_flatMap.1 hy
        obtain ⟨s, hs⟩ := hchunk i y hy'
        rw [hx, hs]
        exact lt_append_cons cur _ s
      · simp [he] at hx

theorem dfs_nodup_words (n : TrieNode) (cur : List Char) :
    ((dfs n cur []).map Prod.fst).Nodup := by
  have h := dfs_sorted n cur
  rw [List.Nodup, List.pairwise_map]
  exact h.imp (fun hab => ne_of_lt hab)

/-! ## The prefix query -/

/-- On a lowercase string the descent of `get_words_with_prefix` reads every child slot in
range; it lists the words stored below the node the string leads to. -/
theorem words_from_lowercase (pre : List Char) :
    ∀ (n : TrieNode) (rest : List Char), lowercase rest →
      words_from pre n rest =
        some (match n.walk rest with
              | none => []
              | some m => dfs m pre []) := by
  intro n rest
  induction rest generalizing n with
  | nil => intro _; simp [words_from, TrieNode.walk]
  | cons ch rest ih =>
    intro hl
    have hch : char_index ch < 26 := (char_index_lt_iff ch).2 (hl ch (List.mem_cons_self _ _))
    have hrest : lowercase rest := fun x hx => hl x (List.mem_cons_of_mem _ hx)
    simp only [words_from, TrieNode.walk, hch, dite_true]
    cases hc : n.children ⟨char_index ch, hch⟩ with
    | none => simp
    | some child => simpa using ih child hrest

theorem lookup_append {n m : TrieNode} {p : List Char} (h : n.walk p = some m) (s : List Char) :
    n.lookup (p ++ s) = m.lookup s := by
  induction p generalizing n with
  | nil => simp [TrieNode.walk] at h; simp [h]
  | cons ch p ih =>
    simp only [TrieNode.walk] at h
    by_cases hch : char_index ch < 26
    · simp only [hch, dite_true] at h
      cases hc : n.children ⟨char_index ch, hch⟩ with
      | none => simp [hc] at h
      | some child =>
        simp only [hc] at h
        have := ih h
        simp only [TrieNode.lookup, List.cons_append, TrieNode.walk, hch, dite_true, hc] at this ⊢
        exact this
    · simp [hch] at h

theorem lookup_append_none {n : TrieNode} {p : List Char} (h : n.walk p = none) (s : List Char) :
    n.lookup (p ++ s) = none := by
  induction p generalizing n with
  | nil => simp [TrieNode.walk] at h
  | cons ch p ih =>
    simp only [TrieNode.walk] at h
    by_cases hch : char_index ch < 26
    · simp only [hch, dite_true] at h
      cases hc : n.children ⟨char_index ch, hch⟩ with
      | none => simp [TrieNode.lookup, TrieNode.walk, hch, hc]
      | some child =>
        simp only [hc] at h
        have := ih h
        simp only [TrieNode.lookup, List.cons_append, TrieNode.walk, hch, dite_true, hc] at this ⊢
        exact this
    · simp [TrieNode.lookup, TrieNode.walk, hch]

/-- For a lowercase prefix, `get_words_with_prefix` returns a list, and a pair is in it
exactly when it is a vocabulary entry whose word starts with the prefix. -/
theorem mem_get_words_with_prefix (t : Trie) (pre : List Char) (hl : lowercase pre) :
    ∃ all, get_words_with_prefix t pre = some all ∧
      (all.Pairwise (fun a b => a.1 < b.1)) ∧
      ∀ w f, (w, f) ∈ all ↔ ((w, f) ∈ vocabulary t ∧ pre <+: w) := by
  unfold get_words_with_prefix
  rw [words_from_lowercase pre t.root pre hl]
  refine ⟨_, rfl, ?_, ?_⟩
  · cases t.root.walk pre with
    | none => simp
    | some m => exact dfs_sorted m pre
  · intro w f
    rw [mem_vocabulary]
    cases hw : t.root.walk pre with
    | none =>
      simp only [List.not_mem_nil, false_iff, not_and]
      rintro hlk ⟨s, rfl⟩
      rw [lookup_append_none hw] at hlk
      cases hlk
    | some m =>
      simp only [mem_dfs]
      constructor
      · rintro ⟨s, rfl, hs⟩
        exact ⟨by rw [lookup_append hw]; exact hs, List.prefix_append _ _⟩
      · rintro ⟨hlk, s, rfl⟩
        exact ⟨s, rfl, by rw [lookup_append hw] at hlk; exact hlk⟩


/-! ## Insertion -/

theorem lookup_cons (n : TrieNode) (ch : Char) (s : List Char) :
    n.lookup (ch :: s) =
      if h : char_index ch < 26 then
        match n.children ⟨char_index ch, h⟩ with
        | none => none
        | some child => child.lookup s
      else none := by
  unfold TrieNode.lookup
  simp only [TrieNode.walk]
  by_cases h : char_index ch < 26
  · simp only [h, dite_true]
    cases n.children ⟨char_index ch, h⟩ <;> rfl
  · simp [h]

theorem insert_cons_not_lower (n : TrieNode) (ch : Char) (rest : List Char) (f : Int)
    (h : islower ch = false) : n.insert (ch :: rest) f = n.insert rest f := by
  cases n with
  | mk e fr c => simp [TrieNode.insert, h]

theorem insert_cons_lower (e : Bool) (fr : Int) (c : Fin 26 → Option TrieNode) (ch : Char)
    (rest : List Char) (f : Int) (h : char_index ch < 26) :
    (TrieNode.mk e fr c).insert (ch :: rest) f =
      .mk e fr (Function.update c ⟨char_index ch, h⟩
        (some (TrieNode.insert
          (match c ⟨char_index ch, h⟩ with
            | none => TrieNode.fresh
            | some n => n) rest f))) := by
  have hl : islower ch = true := (char_index_lt_iff ch).1 h
  simp [TrieNode.insert, hl, h]

/-- Characters that are not lowercase letters do not take part in an insertion. -/
theorem insert_filter (n : TrieNode) (w : List Char) (f : Int) :
    n.insert w f = n.insert (w.filter islower) f := by
  induction w generalizing n with
  | nil => rfl
  | cons ch rest ih =>
    by_cases hl : islower ch = true
    · have h : char_index ch < 26 := (char_index_lt_iff ch).2 hl
      cases n with
      | mk e fr c =>
        rw [List.filter_cons_of_pos hl, insert_cons_lower _ _ _ _ _ _ h,
          insert_cons_lower _ _ _ _ _ _ h, ih]
    · have hl' : islower ch = false := by simpa using hl
      rw [List.filter_cons_of_neg hl, insert_cons_not_lower _ _ _ _ hl', ih]

/-- After the insertion of a lowercase word `w` with frequency `f`, the word `w` is stored
with `f` and every other word is stored as before. -/
theorem lookup_insert (w : List Char) (hw : lowercase w) :
    ∀ (n : TrieNode) (f : Int) (w' : List Char),
      (n.insert w f).lookup w' = if w' = w then some f else n.lookup w' := by
  induction w with
  | nil =>
    intro n f w'
    cases n with
    | mk e fr c =>
      cases w' with
      | nil => simp [TrieNode.insert, lookup_nil, TrieNode.is_end_of_word, TrieNode.frequency]
      | cons ch s => simp [TrieNode.insert, lookup_cons, TrieNode.children]
  | cons ch rest ih =>
    intro n f w'
    have hch : char_index ch < 26 := (char_index_lt_iff ch).2 (hw ch (List.mem_cons_self _ _))
    have hrest : lowercase rest := fun x hx => hw x (List.mem_cons_of_mem _ hx)
    cases n with
    | mk e fr c =>
      rw [insert_cons_lower _ _ _ _ _ _ hch]
      cases w' with
      | nil => simp [lookup_nil, TrieNode.is_end_of_word, TrieNode.frequency]
      | cons ch' s' =>
        rw [lookup_cons, lookup_cons]
        by_cases hch' : char_index ch' < 26
        · simp only [hch', dite_true, TrieNode.children]
          by_cases hi : (⟨char_index ch', hch'⟩ : Fin 26) = ⟨char_index ch, hch⟩
          · have hcc : ch' = ch := by
              rw [← letter_char_index ch' hch', ← letter_char_index ch hch, hi]
            subst hcc
            simp only [Function.update_same, List.cons.injEq, true_and]
            rw [ih hrest]
            cases hc : c ⟨char_index ch', hch⟩ with
            | none => simp [lookup_fresh]
            | some x => simp
          · have hne : ch' ≠ ch := by
              intro hcc; apply hi; subst hcc; rfl
            simp only [Function.update_noteq hi, List.cons.injEq, hne, false_and, if_false]
        · have hne : ch' ≠ ch := by
            intro hcc; apply hch'; rw [hcc]; exact hch
          simp [hch', hne]

theorem filter_islower_lowercase (w : List Char) : lowercase (w.filter islower) := by
  intro ch hch
  exact (List.mem_filter.1 hch).2

theorem filter_islower_of_lowercase {w : List Char} (h : lowercase w) : w.filter islower = w :=
  List.filter_eq_self.2 h

/-- The method `insert` as an update of the vocabulary: the word `w` without its
non-lowercase characters gets frequency `f`, any other word is stored as before. -/
theorem mem_vocabulary_insert (t : Trie) (w : List Char) (f : Int) (w' : List Char) (f' : Int) :
    (w', f') ∈ vocabulary (insert t w f) ↔
      if w' = w.filter islower then f' = f else (w', f') ∈ vocabulary t := by
  rw [mem_vocabulary, mem_vocabulary]
  unfold insert
  simp only
  rw [insert_filter, lookup_insert _ (filter_islower_lowercase w)]
  by_cases h : w' = w.filter islower
  · simp [h, eq_comm]
  · simp [h]


theorem mem_vocabulary_foldl_insert (later : List (List Char × Int)) :
    ∀ (t : Trie) (w : List Char) (f : Int), (w, f) ∈ vocabulary t →
      (∀ op ∈ later, op.1.filter islower ≠ w) →
      (w, f) ∈ vocabulary (later.foldl (fun t op => insert t op.1 op.2) t) := by
  induction later with
  | nil => intro t w f h _; exact h
  | cons op later ih =>
    intro t w f h hne
    simp only [List.foldl_cons]
    apply ih
    · rw [mem_vocabulary_insert]
      have : w ≠ op.1.filter islower := fun e => hne op (List.mem_cons_self _ _) e.symm
      simp [this, h]
    · intro op' hop'
      exact hne op' (List.mem_cons_of_mem _ hop')

/-! ## C6: an inserted word is found by the prefix query -/

/-- C6 (as amended): for every lowercase word `w` and frequency `f`, after `insert(w, f)`
and any later inserts none of which stores `w` again, `get_words_with_prefix(w)` returns a
list that includes the pair `(w, f)`. -/
theorem C6_inserted_word_in_prefix_query (t : Trie) (w : List Char) (f : Int)
    (later : List (List Char × Int)) (hw : lowercase w)
    (hlater : ∀ op ∈ later, op.1.filter islower ≠ w) :
    ∃ all,
      get_words_with_prefix (later.foldl (fun t op => insert t op.1 op.2) (insert t w f)) w
        = some all ∧ (w, f) ∈ all := by
  obtain ⟨all, hall, _, hmem⟩ :=
    mem_get_words_with_prefix (later.foldl (fun t op => insert t op.1 op.2) (insert t w f)) w hw
  refine ⟨all, hall, (hmem w f).2 ⟨?_, List.prefix_refl w⟩⟩
  apply mem_vocabulary_foldl_insert later _ w f _ hlater
  rw [mem_vocabulary_insert]
  simp [filter_islower_of_lowercase hw]

/-- C6, an instance: `cat` inserted with frequency 3 and followed by the insertion of
`cats` is listed with frequency 3 by the prefix query for `cat`. -/
theorem C6_inserted_word_in_prefix_query_witness :
    lowercase "cat".toList ∧
    (∀ op ∈ [("cats".toList, (1 : Int))], op.1.filter islower ≠ "cat".toList) ∧
    ∃ all,
      get_words_with_prefix
        ([("cats".toList, (1 : Int))].foldl (fun t op => insert t op.1 op.2)
          (insert Trie.empty "cat".toList 3)) "cat".toList
        = some all ∧ ("cat".toList, 3) ∈ all :=
  ⟨by decide, by decide,
    C6_inserted_word_in_prefix_query Trie.empty "cat".toList 3 [("cats".toList, 1)]
      (by decide) (by decide)⟩

/-- C6 as stated fails for a word with a character outside `a..z`: after
`insert("A", 1)` the query `get_words_with_prefix("A")` indexes the child array out of
range (it returns no list), and the pair `("A", 1)` is not a vocabulary entry at all: the
insertion stored the empty word. -/
theorem C6_counterexample_uppercase :
    get_words_with_prefix (insert Trie.empty "A".toList 1) "A".toList = none ∧
    ("A".toList, (1 : Int)) ∉ vocabulary (insert Trie.empty "A".toList 1) ∧
    vocabulary (insert Trie.empty "A".toList 1) = [([], 1)] := by
  decide


/-! ## The Levenshtein distance -/

theorem lev_nil_left (s : List Char) : lev [] s = s.length := by
  unfold lev
  induction s with
  | nil => simp
  | cons y ys ih => rw [levenshtein_nil_cons, ih]; simp [Levenshtein.defaultCost]; omega

theorem lev_nil_right (t : List Char) : lev t [] = t.length := by
  unfold lev
  induction t with
  | nil => simp
  | cons x xs ih => rw [levenshtein_cons_nil, ih]; simp [Levenshtein.defaultCost]; omega

theorem lev_cons_cons (x : Char) (xs : List Char) (y : Char) (ys : List Char) :
    lev (x :: xs) (y :: ys) =
      min (lev xs (y :: ys) + 1)
        (min (lev (x :: xs) ys + 1) (lev xs ys + if x = y then 0 else 1)) := by
  unfold lev
  rw [levenshtein_cons_cons]
  simp only [Levenshtein.defaultCost]
  congr 1
  · omega
  · congr 1
    · omega
    · omega

/-- Deleting the first character of the source costs at most one edit. -/
theorem lev_cons_left_le (x : Char) (xs s : List Char) : lev (x :: xs) s ≤ lev xs s + 1 := by
  cases s with
  | nil => simp [lev_nil_right]
  | cons y ys => rw [lev_cons_cons]; exact min_le_left _ _

/-- Inserting a first character into the target costs at most one edit. -/
theorem lev_cons_right_le (t : List Char) (y : Char) (ys : List Char) :
    lev t (y :: ys) ≤ lev t ys + 1 := by
  cases t with
  | nil => simp [lev_nil_left]
  | cons x xs =>
    rw [lev_cons_cons]
    exact le_trans (min_le_right _ _) (min_le_left _ _)

theorem lev_cons_cons_le (x : Char) (xs : List Char) (y : Char) (ys : List Char) :
    lev (x :: xs) (y :: ys) ≤ lev xs ys + if x = y then 0 else 1 := by
  rw [lev_cons_cons]
  exact le_trans (min_le_right _ _) (min_le_right _ _)

/-- The distance of two non-empty strings is attained by one of the three last edits. -/
theorem lev_cons_cons_cases (x : Char) (xs : List Char) (y : Char) (ys : List Char) :
    lev (x :: xs) (y :: ys) = lev xs (y :: ys) + 1 ∨
    lev (x :: xs) (y :: ys) = lev (x :: xs) ys + 1 ∨
    lev (x :: xs) (y :: ys) = lev xs ys + if x = y then 0 else 1 := by
  rw [lev_cons_cons]
  rcases min_choice (lev xs (y :: ys) + 1)
    (min (lev (x :: xs) ys + 1) (lev xs ys + if x = y then 0 else 1)) with h | h
  · left; exact h
  · rw [h]
    rcases min_choice (lev (x :: xs) ys + 1) (lev xs ys + if x = y then 0 else 1) with h' | h'
    · right; left; exact h'
    · right; right; exact h'

/-! ## The result map -/

theorem map_find_assign (R : ResultMap) (k : List Char) (v : FuzzyMatch) (k' : List Char) :
    map_find (map_assign R k v) k' = if k' = k then some v else map_find R k' := by
  induction R with
  | nil =>
    by_cases h : k' = k
    · simp [map_assign, map_find, h]
    · have h' : ¬ k = k' := fun e => h e.symm
      simp [map_assign, map_find, h, h']
  | cons p R ih =>
    obtain ⟨k0, v0⟩ := p
    by_cases h0 : k0 = k
    · subst h0
      by_cases h : k' = k0
      · subst h; simp [map_assign, map_find]
      · have h' : ¬ k0 = k' := fun e => h e.symm
        simp [map_assign, map_find, h, h']
    · by_cases h : k0 = k'
      · subst h
        simp [map_assign, map_find, h0]
      · simp [map_assign, map_find, h0, h, ih]

theorem map_find_none_iff (R : ResultMap) (k : List Char) :
    map_find R k = none ↔ k ∉ R.map Prod.fst := by
  induction R with
  | nil => simp [map_find]
  | cons p R ih =>
    obtain ⟨k0, v0⟩ := p
    by_cases h : k0 = k
    · subst h
      simp only [map_find, if_true, List.map_cons, List.mem_cons, true_or, not_true_eq_false]
      simp
    · have h' : ¬ k = k0 := fun e => h e.symm
      simp only [map_find, h, if_false, ih, List.map_cons, List.mem_cons, h', false_or]

theorem map_assign_keys (R : ResultMap) (k : List Char) (v : FuzzyMatch) :
    (map_assign R k v).map Prod.fst =
      if k ∈ R.map Prod.fst then R.map Prod.fst else R.map Prod.fst ++ [k] := by
  induction R with
  | nil => simp [map_assign]
  | cons p R ih =>
    obtain ⟨k0, v0⟩ := p
    by_cases h : k0 = k
    · subst h
      simp only [map_assign, if_true, List.map_cons, List.mem_cons, true_or]
    · have h' : ¬ k = k0 := fun e => h e.symm
      simp only [map_assign, h, if_false, List.map_cons, ih, List.mem_cons, h', false_or]
      by_cases hm : k ∈ R.map Prod.fst
      · simp [hm]
      · simp [hm]

theorem map_assign_keys_nodup (R : ResultMap) (k : List Char) (v : FuzzyMatch)
    (h : (R.map Prod.fst).Nodup) : ((map_assign R k v).map Prod.fst).Nodup := by
  rw [map_assign_keys]
  by_cases hm : k ∈ R.map Prod.fst
  · simp only [hm, if_true]; exact h
  · simp only [hm, if_false]
    rw [List.nodup_append]
    refine ⟨h, List.nodup_singleton k, ?_⟩
    intro a ha hb
    rw [List.mem_singleton] at hb
    subst hb
    exact hm ha

theorem map_find_eq_some_iff (R : ResultMap) (h : (R.map Prod.fst).Nodup) (k : List Char)
    (v : FuzzyMatch) : map_find R k = some v ↔ (k, v) ∈ R := by
  induction R with
  | nil => simp [map_find]
  | cons p R ih =>
    obtain ⟨k0, v0⟩ := p
    simp only [List.map_cons, List.nodup_cons] at h
    by_cases hk : k0 = k
    · subst hk
      simp only [map_find, if_true, Option.some.injEq, List.mem_cons, Prod.mk.injEq, true_and]
      constructor
      · intro e; left; exact e.symm
      · rintro (e | hm)
        · exact e.symm
        · exact absurd (List.mem_map_of_mem Prod.fst hm) h.1
    · have hk' : ¬ k = k0 := fun e => hk e.symm
      simp only [map_find, hk, if_false, ih h.2, List.mem_cons, Prod.mk.injEq, hk', false_and,
        false_or]


/-! ## Composition of search steps -/

theorem Has.mono {R : ResultMap} {k : List Char} {b b' : Int} (h : Has R k b) (hb : b ≤ b') :
    Has R k b' := by
  obtain ⟨v, hv, hd⟩ := h
  exact ⟨v, hv, le_trans hd hb⟩

theorem Step.refl (N : List Char → FuzzyMatch → Prop) (R : ResultMap) :
    Step N (fun _ _ => False) R R :=
  ⟨⟨fun _ _ h => h, fun h => h⟩, fun _ _ h => Or.inl h, fun _ _ h => h.elim⟩

theorem Step.trans {N : List Char → FuzzyMatch → Prop} {G1 G2 : List Char → Int → Prop}
    {R R' R'' : ResultMap} (h1 : Step N G1 R R') (h2 : Step N G2 R' R'') :
    Step N (fun k b => G1 k b ∨ G2 k b) R R'' := by
  refine ⟨⟨fun k b h => h2.mono.1 k b (h1.mono.1 k b h), fun h => h2.mono.2 (h1.mono.2 h)⟩, ?_, ?_⟩
  · intro k v hv
    rcases h2.sound k v hv with h | h
    · exact h1.sound k v h
    · exact Or.inr h
  · intro k b h
    rcases h with h | h
    · exact h2.mono.1 k b (h1.complete k b h)
    · exact h2.complete k b h

theorem Step.weaken {N N' : List Char → FuzzyMatch → Prop} {G G' : List Char → Int → Prop}
    {R R' : ResultMap} (h : Step N G R R') (hN : ∀ k v, N k v → N' k v)
    (hG : ∀ k b, G' k b → G k b) : Step N' G' R R' := by
  refine ⟨h.mono, ?_, fun k b hg => h.complete k b (hG k b hg)⟩
  intro k v hv
  rcases h.sound k v hv with h' | h'
  · exact Or.inl h'
  · exact Or.inr (hN k v h')

/-- A loop whose body is a step for `G i` at iteration `i` is a step for all `G i`. -/
theorem Step.loop {N : List Char → FuzzyMatch → Prop} {G : Fin 26 → List Char → Int → Prop}
    (F : ResultMap → Fin 26 → ResultMap) (hF : ∀ i R, Step N (G i) R (F R i)) :
    ∀ (L : List (Fin 26)) (R : ResultMap),
      Step N (fun k b => ∃ i ∈ L, G i k b) R (L.foldl F R) := by
  intro L
  induction L with
  | nil =>
    intro R
    exact (Step.refl N R).weaken (fun _ _ h => h) (by simp)
  | cons a L ih =>
    intro R
    simp only [List.foldl_cons]
    refine ((hF a R).trans (ih (F R a))).weaken (fun _ _ h => h) ?_
    intro k b ⟨i, hi, hg⟩
    rcases List.mem_cons.1 hi with rfl | hi'
    · exact Or.inl hg
    · exact Or.inr ⟨i, hi', hg⟩

/-- The recording of a complete word at the end of the target. -/
theorem record_step (N : List Char → FuzzyMatch → Prop) (R : ResultMap) (cur : List Char)
    (freq eu : Int) (hN : N cur ⟨cur, freq, eu, 0⟩) :
    Step N (fun k b => k = cur ∧ b = eu) R
      (match map_find R cur with
        | none => map_assign R cur ⟨cur, freq, eu, 0⟩
        | some it =>
          if it.edit_distance > eu then map_assign R cur ⟨cur, freq, eu, 0⟩ else R) := by
  have hassign : Step N (fun k b => k = cur ∧ b = eu) R (map_assign R cur ⟨cur, freq, eu, 0⟩) ∨
      ∃ it, map_find R cur = some it ∧ ¬ it.edit_distance > eu := by
    by_cases h : ∃ it, map_find R cur = some it ∧ ¬ it.edit_distance > eu
    · exact Or.inr h
    · left
      refine ⟨⟨?_, map_assign_keys_nodup R cur _⟩, ?_, ?_⟩
      · rintro k b ⟨v, hv, hd⟩
        by_cases hk : k = cur
        · subst hk
          refine ⟨⟨k, freq, eu, 0⟩, by simp [map_find_assign], ?_⟩
          have : v.edit_distance > eu := by
            by_contra hc
            exact h ⟨v, hv, hc⟩
          simp only
          omega
        · exact ⟨v, by simp [map_find_assign, hk, hv], hd⟩
      · intro k v hv
        rw [map_find_assign] at hv
        by_cases hk : k = cur
        · subst hk
          simp only [if_true, Option.some.injEq] at hv
          subst hv
          exact Or.inr hN
        · simp only [hk, if_false] at hv
          exact Or.inl hv
      · rintro k b ⟨rfl, rfl⟩
        exact ⟨⟨k, freq, b, 0⟩, by simp [map_find_assign], le_refl _⟩
  cases hf : map_find R cur with
  | none =>
    simp only
    rcases hassign with h | ⟨it, hit, _⟩
    · exact h
    · rw [hf] at hit; cases hit
  | some it =>
    simp only
    by_cases hgt : it.edit_distance > eu
    · simp only [hgt, if_true]
      rcases hassign with h | ⟨it', hit, hle⟩
      · exact h
      · rw [hf] at hit; cases hit; exact absurd hgt hle
    · simp only [hgt, if_false]
      refine ⟨(Step.refl N R).mono, fun k v hv => Or.inl hv, ?_⟩
      rintro k b ⟨rfl, rfl⟩
      exact ⟨it, hf, by omega⟩


/-! ## The search `search_fuzzy` -/

theorem Admissible.of_child {n child : TrieNode} {i : Fin 26} {cur tgt tgt' : List Char}
    {er er' eu eu' : Int} (hc : n.children i = some child)
    (hlev : ∀ s', eu + (lev tgt (letter i :: s') : Int) ≤ eu' + lev tgt' s')
    (hb : eu' + er' ≤ eu + er) {k : List Char} {v : FuzzyMatch}
    (h : Admissible child (cur ++ [letter i]) tgt' er' eu' k v) :
    Admissible n cur tgt er eu k v := by
  obtain ⟨s', f, hl, hk, hw, hf, hs, h1, h2⟩ := h
  refine ⟨letter i :: s', f, ?_, by simp [hk], hw, hf, hs, ?_, ?_⟩
  · rw [lookup_letter, hc]; exact hl
  · exact le_trans (hlev s') h1
  · exact le_trans h2 hb

theorem Admissible.of_same {n : TrieNode} {cur tgt tgt' : List Char}
    {er er' eu eu' : Int}
    (hlev : ∀ s, eu + (lev tgt s : Int) ≤ eu' + lev tgt' s)
    (hb : eu' + er' ≤ eu + er) {k : List Char} {v : FuzzyMatch}
    (h : Admissible n cur tgt' er' eu' k v) :
    Admissible n cur tgt er eu k v := by
  obtain ⟨s, f, hl, hk, hw, hf, hs, h1, h2⟩ := h
  exact ⟨s, f, hl, hk, hw, hf, hs, le_trans (hlev s) h1, le_trans h2 hb⟩

theorem search_fuzzy_none (fuel : Nat) (target cur : List Char) (index : Nat) (er : Int)
    (R : ResultMap) (eu : Int) : search_fuzzy fuel none target cur index er R eu = R := by
  cases fuel <;> simp [search_fuzzy]

theorem search_fuzzy_step : ∀ (fuel : Nat) (n : TrieNode) (target cur : List Char) (index : Nat)
    (er : Int) (R : ResultMap) (eu : Int), index ≤ target.length →
    (target.length - index) + (er + 1).toNat ≤ fuel →
    Step (Admissible n cur (target.drop index) er eu) (Goal n cur (target.drop index) er eu) R
      (search_fuzzy fuel (some n) target cur index er R eu) := by
  intro fuel
  induction fuel with
  | zero =>
    intro n target cur index er R eu hidx hfuel
    simp only [search_fuzzy]
    refine (Step.refl _ R).weaken (fun _ _ h => h) ?_
    rintro k b ⟨s, f, _, _, hle, _⟩
    omega
  | succ fuel ih =>
    intro n target cur index er R eu hidx hfuel
    rw [search_fuzzy]
    simp only
    by_cases her : er < 0
    · simp only [her, if_true]
      refine (Step.refl _ R).weaken (fun _ _ h => h) ?_
      rintro k b ⟨s, f, _, _, hle, _⟩
      omega
    · simp only [her, if_false]
      have her' : 0 ≤ er := by omega
      by_cases hend : index = target.length
      · simp only [hend, if_true]
        subst hend
        rw [List.drop_length]
        -- the recording of the word that ends at this node
        have hrec : Step (Admissible n cur [] er eu)
            (fun k b => n.is_end_of_word = true ∧ k = cur ∧ b = eu) R
            (if n.is_end_of_word = true ∧ er ≥ 0 then
              match map_find R cur with
              | none => map_assign R cur ⟨cur, n.frequency, eu, 0⟩
              | some it =>
                if it.edit_distance > eu then map_assign R cur ⟨cur, n.frequency, eu, 0⟩
                else R
            else R) := by
          by_cases he : n.is_end_of_word = true
          · have hc : n.is_end_of_word = true ∧ er ≥ 0 := ⟨he, her'⟩
            simp only [hc, and_self, if_true]
            refine (record_step (Admissible n cur [] er eu) R cur n.frequency eu ?_).weaken
              (fun _ _ h => h) (fun k b h => h.2)
            refine ⟨[], n.frequency, ?_, by simp, rfl, rfl, rfl, ?_, ?_⟩
            · rw [lookup_nil]; simp [he]
            · simp [lev_nil_left]
            · simp only; omega
          · simp only [he, false_and, if_false]
            exact (Step.refl _ R).weaken (fun _ _ h => h) (fun k b h => by cases h.1)
        -- the trailing insertions
        have hbody : ∀ (i : Fin 26) (R : ResultMap),
            Step (Admissible n cur [] er eu)
              (fun k b => ∃ child, n.children i = some child ∧
                Goal child (cur ++ [letter i]) [] (er - 1) (eu + 1) k b) R
              (match n.children i with
                | none => R
                | some child =>
                  search_fuzzy fuel (some child) target (cur ++ [letter i]) target.length
                    (er - 1) R (eu + 1)) := by
          intro i R
          cases hc : n.children i with
          | none =>
            simp only
            exact (Step.refl _ R).weaken (fun _ _ h => h)
              (fun k b h => by obtain ⟨child, hch, _⟩ := h; cases hch)
          | some child =>
            simp only
            have hih := ih child target (cur ++ [letter i]) target.length (er - 1) R (eu + 1)
              (le_refl _) (by omega)
            rw [List.drop_length] at hih
            refine hih.weaken ?_ ?_
            · intro k v h
              refine Admissible.of_child hc ?_ (by omega) h
              intro s'
              simp only [lev_nil_left, List.length_cons]
              push_cast
              omega
            · rintro k b ⟨child', hch, hg⟩
              cases hch
              exact hg
        refine (hrec.trans (Step.loop _ hbody (List.finRange 26) _)).weaken (fun _ _ h => h) ?_
        rintro k b ⟨s, f, hl, hk, hle, hb⟩
        rcases lookup_cases hl with ⟨hs, he, _⟩ | ⟨i, child, s', hs, hc, hl'⟩
        · left
          subst hs
          exact ⟨he, by simpa using hk, by simpa [lev_nil_left] using hb⟩
        · right
          subst hs
          refine ⟨i, List.mem_finRange i, child, hc, s', f, hl', by simp [hk], ?_, ?_⟩
          · simp only [lev_nil_left, List.length_cons] at hle ⊢
            push_cast at hle
            omega
          · simp only [lev_nil_left, List.length_cons] at hb ⊢
            push_cast at hb
            omega
      · simp only [hend, if_false]
        have hlt : index < target.length := by omega
        rw [List.getElem?_eq_getElem hlt]
        simp only
        have hdrop : target.drop index = target[index] :: target.drop (index + 1) :=
          List.drop_eq_getElem_cons hlt
        rw [hdrop]
        generalize target[index] = x at *
        generalize htgt : target.drop (index + 1) = tgt' at *
        -- the loop over the children: match or substitution, then insertion
        have hbody : ∀ (i : Fin 26) (R : ResultMap),
            Step (Admissible n cur (x :: tgt') er eu)
              (fun k b => ∃ child, n.children i = some child ∧
                ((if letter i = x then Goal child (cur ++ [letter i]) tgt' er eu k b
                  else Goal child (cur ++ [letter i]) tgt' (er - 1) (eu + 1) k b) ∨
                 Goal child (cur ++ [letter i]) (x :: tgt') (er - 1) (eu + 1) k b)) R
              (match n.children i with
                | none => R
                | some child =>
                  search_fuzzy fuel (some child) target (cur ++ [letter i]) index (er - 1)
                    (if letter i = x then
                      search_fuzzy fuel (some child) target (cur ++ [letter i]) (index + 1) er R
                        eu
                    else
                      search_fuzzy fuel (some child) target (cur ++ [letter i]) (index + 1)
                        (er - 1) R (eu + 1))
                    (eu + 1)) := by
          intro i R
          cases hc : n.children i with
          | none =>
            simp only
            exact (Step.refl _ R).weaken (fun _ _ h => h)
              (fun k b h => by obtain ⟨child, hch, _⟩ := h; cases hch)
          | some child =>
            simp only
            -- match or substitution
            have h1 : Step (Admissible n cur (x :: tgt') er eu)
                (fun k b => if letter i = x then Goal child (cur ++ [letter i]) tgt' er eu k b
                  else Goal child (cur ++ [letter i]) tgt' (er - 1) (eu + 1) k b) R
                (if letter i = x then
                  search_fuzzy fuel (some child) target (cur ++ [letter i]) (index + 1) er R eu
                else
                  search_fuzzy fuel (some child) target (cur ++ [letter i]) (index + 1)
                    (er - 1) R (eu + 1)) := by
              by_cases hx : letter i = x
              · simp only [hx, if_true]
                have hih := ih child target (cur ++ [x]) (index + 1) er R eu (by omega) (by omega)
                rw [htgt] at hih
                refine hih.weaken ?_ (fun _ _ h => h)
                intro k v h
                rw [← hx] at h ⊢
                refine Admissible.of_child hc ?_ (by omega) h
                intro s'
                have := lev_cons_cons_le (letter i) tgt' (letter i) s'
                simp only [if_true] at this
                omega
              · simp only [hx, if_false]
                have hih := ih child target (cur ++ [letter i]) (index + 1) (er - 1) R (eu + 1)
                  (by omega) (by omega)
                rw [htgt] at hih
                refine hih.weaken ?_ (fun _ _ h => h)
                intro k v h
                refine Admissible.of_child hc ?_ (by omega) h
                intro s'
                have := lev_cons_cons_le x tgt' (letter i) s'
                have hx' : ¬ x = letter i := fun e => hx e.symm
                simp only [hx', if_false] at this
                omega
            -- insertion
            have h2 : ∀ R, Step (Admissible n cur (x :: tgt') er eu)
                (Goal child (cur ++ [letter i]) (x :: tgt') (er - 1) (eu + 1)) R
                (search_fuzzy fuel (some child) target (cur ++ [letter i]) index (er - 1) R
                  (eu + 1)) := by
              intro R
              have hih := ih child target (cur ++ [letter i]) index (er - 1) R (eu + 1)
                (by omega) (by omega)
              rw [hdrop] at hih
              refine hih.weaken ?_ (fun _ _ h => h)
              intro k v h
              refine Admissible.of_child hc ?_ (by omega) h
              intro s'
              have := lev_cons_right_le (x :: tgt') (letter i) s'
              omega
            refine (h1.trans (h2 _)).weaken (fun _ _ h => h) ?_
            rintro k b ⟨child', hch, hg⟩
            cases hch
            exact hg
        -- deletion
        have hdel : ∀ R, Step (Admissible n cur (x :: tgt') er eu)
            (Goal n cur tgt' (er - 1) (eu + 1)) R
            (search_fuzzy fuel (some n) target cur (index + 1) (er - 1) R (eu + 1)) := by
          intro R
          have hih := ih n target cur (index + 1) (er - 1) R (eu + 1) (by omega) (by omega)
          rw [htgt] at hih
          refine hih.weaken ?_ (fun _ _ h => h)
          intro k v h
          refine Admissible.of_same ?_ (by omega) h
          intro s
          have := lev_cons_left_le x tgt' s
          omega
        refine ((Step.loop _ hbody (List.finRange 26) R).trans (hdel _)).weaken
          (fun _ _ h => h) ?_
        rintro k b ⟨s, f, hl, hk, hle, hb⟩
        have hdelcase : (lev (x :: tgt') s = lev tgt' s + 1) →
            Goal n cur tgt' (er - 1) (eu + 1) k b := by
          intro h
          refine ⟨s, f, hl, hk, ?_, ?_⟩
          · rw [h] at hle; push_cast at hle; omega
          · rw [h] at hb; push_cast at hb; omega
        rcases lookup_cases hl with ⟨hs, _, _⟩ | ⟨i, child, s', hs, hc, hl'⟩
        · right
          apply hdelcase
          subst hs
          simp [lev_nil_right]
        · subst hs
          rcases lev_cons_cons_cases x tgt' (letter i) s' with h | h | h
          · right; exact hdelcase h
          · left
            refine ⟨i, List.mem_finRange i, child, hc, Or.inr ⟨s', f, hl', by simp [hk], ?_, ?_⟩⟩
            · rw [h] at hle; push_cast at hle; omega
            · rw [h] at hb; push_cast at hb; omega
          · left
            refine ⟨i, List.mem_finRange i, child, hc, Or.inl ?_⟩
            by_cases hx : letter i = x
            · simp only [hx, if_true]
              have hx' : x = letter i := hx.symm
              simp only [hx', if_true, add_zero] at h
              rw [← hx]
              refine ⟨s', f, hl', by simp [hk], ?_, ?_⟩
              · rw [hx', h] at hle; exact hle
              · rw [hx', h] at hb; exact hb
            · simp only [hx, if_false]
              have hx' : ¬ x = letter i := fun e => hx e.symm
              simp only [hx', if_false] at h
              refine ⟨s', f, hl', by simp [hk], ?_, ?_⟩
              · rw [h] at hle; push_cast at hle; omega
              · rw [h] at hb; push_cast at hb; omega


/-- The result map of the search started at the root: the keys are distinct, and the entries
are the vocabulary words within `max_edits` of the input, each with its frequency and its
Levenshtein distance to the input. -/
theorem search_fuzzy_root (t : Trie) (input : List Char) (max_edits : Int) :
    let M := search_fuzzy (input.length + (max_edits + 1).toNat) (some t.root) input [] 0
      max_edits [] 0
    (M.map Prod.fst).Nodup ∧
    ∀ k v, (k, v) ∈ M ↔
      ∃ f, t.root.lookup k = some f ∧ (lev input k : Int) ≤ max_edits ∧
        v = ⟨k, f, lev input k, 0⟩ := by
  intro M
  have hstep : Step (Admissible t.root [] input max_edits 0) (Goal t.root [] input max_edits 0)
      [] M := by
    have := search_fuzzy_step (input.length + (max_edits + 1).toNat) t.root input [] 0 max_edits
      [] 0 (Nat.zero_le _) (by omega)
    simpa using this
  have hnd : (M.map Prod.fst).Nodup := hstep.mono.2 (by simp)
  have hfwd : ∀ k v, map_find M k = some v →
      ∃ f, t.root.lookup k = some f ∧ (lev input k : Int) ≤ max_edits ∧
        v = ⟨k, f, lev input k, 0⟩ := by
    intro k v hv
    rcases hstep.sound k v hv with h | ⟨s, f, hl, hk, hw, hf, hs, h1, h2⟩
    · simp [map_find] at h
    · simp only [List.nil_append] at hk
      subst hk
      have hle : (lev input k : Int) ≤ max_edits := by omega
      obtain ⟨v', hv', hd'⟩ := hstep.complete k (0 + lev input k) ⟨k, f, hl, by simp, hle, rfl⟩
      rw [hv] at hv'
      cases hv'
      refine ⟨f, hl, hle, ?_⟩
      have hd : v.edit_distance = lev input k := by omega
      cases v
      simp only at hw hf hs hd
      simp [hw, hf, hs, hd]
  refine ⟨hnd, ?_⟩
  intro k v
  rw [← map_find_eq_some_iff M hnd]
  constructor
  · exact hfwd k v
  · rintro ⟨f, hl, hle, hv⟩
    obtain ⟨v', hv', _⟩ := hstep.complete k (0 + lev input k) ⟨k, f, hl, by simp, hle, rfl⟩
    obtain ⟨f', hl', _, hv''⟩ := hfwd k v' hv'
    rw [hl] at hl'
    cases hl'
    rw [hv', hv'', hv]

/-! ## The order `FuzzyMatch::operator<` and the sort -/

/-- The comparison `operator<` in words: `a` is exact and `b` is not, or both are in the
same class and `a` has the higher score, or the same score and the smaller word. -/
theorem lt_iff (a b : FuzzyMatch) :
    a.lt b = true ↔
      (a.edit_distance = 0 ∧ b.edit_distance ≠ 0) ∨
      ((a.edit_distance = 0 ↔ b.edit_distance = 0) ∧
        (b.score < a.score ∨ (a.score = b.score ∧ a.word < b.word))) := by
  unfold FuzzyMatch.lt
  by_cases ha : a.edit_distance = 0 <;> by_cases hb : b.edit_distance = 0 <;>
    by_cases hs : a.score = b.score <;> simp [ha, hb, hs]

theorem lt_asymm' (a b : FuzzyMatch) (h : a.lt b = true) : b.lt a = false := by
  cases hba : b.lt a with
  | false => rfl
  | true =>
    rw [lt_iff] at h hba
    rcases h with ⟨h1, h2⟩ | ⟨h1, h2⟩ <;> rcases hba with ⟨h3, h4⟩ | ⟨h3, h4⟩
    · exact absurd h3 h2
    · exact absurd (h3.2 h1) h2
    · exact absurd (h1.2 h3) h4
    · rcases h2 with h2 | ⟨h2, h2'⟩ <;> rcases h4 with h4 | ⟨h4, h4'⟩
      · omega
      · omega
      · omega
      · exact absurd h2' (lt_asymm h4')

theorem lt_total_of_word_ne (a b : FuzzyMatch) (h : a.word ≠ b.word) :
    a.lt b = true ∨ b.lt a = true := by
  rw [lt_iff, lt_iff]
  by_cases ha : a.edit_distance = 0 <;> by_cases hb : b.edit_distance = 0
  all_goals simp only [ha, hb, not_true_eq_false, not_false_eq_true, and_self, and_false,
    and_true, false_and, true_and, false_or, or_false, iff_true, iff_false, true_iff,
    false_iff, ne_eq, true_or, or_true]
  all_goals
    rcases lt_trichotomy a.score b.score with hs | hs | hs
    · right; left; exact hs
    · rcases lt_trichotomy a.word b.word with hw | hw | hw
      · left; right; exact ⟨hs, hw⟩
      · exact absurd hw h
      · right; right; exact ⟨hs.symm, hw⟩
    · left; left; exact hs

theorem not_lt_trans (a b c : FuzzyMatch) (hab : b.lt a = false) (hbc : c.lt b = false) :
    c.lt a = false := by
  cases hca : c.lt a with
  | false => rfl
  | true =>
    have hab' : ¬ b.lt a = true := by simp [hab]
    have hbc' : ¬ c.lt b = true := by simp [hbc]
    rw [lt_iff] at hca hab' hbc'
    exfalso
    by_cases ha : a.edit_distance = 0 <;> by_cases hb : b.edit_distance = 0 <;>
      by_cases hc : c.edit_distance = 0
    all_goals simp only [ha, hb, hc, not_true_eq_false, not_false_eq_true, and_self, and_false,
      and_true, false_and, true_and, false_or, or_false, iff_true, iff_false, true_iff,
      false_iff, ne_eq, true_or, or_true, not_or, not_and] at hca hab' hbc'
    all_goals
      rcases hca with hca | ⟨hca, hca'⟩
      · omega
      · have h1 := hab'.2
        have h2 := hbc'.2
        have e1 : a.score = b.score := by omega
        have e2 : b.score = c.score := by omega
        have w1 := h1 e1.symm
        have w2 := h2 e2.symm
        exact absurd (lt_of_lt_of_le hca' (le_trans (not_lt.1 w1) (not_lt.1 w2))) (lt_irrefl _)

theorem std_sort_perm (v : List FuzzyMatch) : (std_sort v).Perm v :=
  List.perm_insertionSort _ v

theorem std_sort_sorted (v : List FuzzyMatch) :
    (std_sort v).Pairwise (fun a b => FuzzyMatch.lt b a = false) := by
  haveI : IsTotal FuzzyMatch (fun a b => FuzzyMatch.lt b a = false) :=
    ⟨fun a b => by
      cases h : FuzzyMatch.lt b a with
      | false => exact Or.inl rfl
      | true => exact Or.inr (lt_asymm' b a h)⟩
  haveI : IsTrans FuzzyMatch (fun a b => FuzzyMatch.lt b a = false) :=
    ⟨fun a b c hab hbc => not_lt_trans a b c hab hbc⟩
  exact List.sorted_insertionSort (fun a b => FuzzyMatch.lt b a = false) v

/-- Sorting matches with pairwise distinct words puts them in strictly ascending order of
`operator<`. -/
theorem std_sort_pairwise_lt (v : List FuzzyMatch) (h : (v.map FuzzyMatch.word).Nodup) :
    (std_sort v).Pairwise (fun a b => a.lt b = true) := by
  have hnd : ((std_sort v).map FuzzyMatch.word).Nodup :=
    ((std_sort_perm v).map FuzzyMatch.word).nodup_iff.2 h
  rw [List.Nodup, List.pairwise_map] at hnd
  refine ((std_sort_sorted v).and hnd).imp ?_
  rintro a b ⟨hba, hne⟩
  rcases lt_total_of_word_ne a b hne with h1 | h1
  · exact h1
  · rw [hba] at h1; cases h1

/-! ## The ranked fuzzy matches -/

/-- The matches returned by `get_ranked_fuzzy_matches`: one for every vocabulary word within
`max_edits` of the input, with the stored frequency, the Levenshtein distance and the
score `frequency - alpha * distance`. -/
theorem mem_get_ranked_fuzzy_matches (t : Trie) (input : List Char) (max_edits alpha : Int)
    (m : FuzzyMatch) :
    m ∈ get_ranked_fuzzy_matches t input max_edits alpha ↔
      ∃ f, (m.word, f) ∈ vocabulary t ∧ (lev input m.word : Int) ≤ max_edits ∧
        m = ⟨m.word, f, lev input m.word, f - alpha * lev input m.word⟩ := by
  obtain ⟨_, hM⟩ := search_fuzzy_root t input max_edits
  unfold get_ranked_fuzzy_matches
  simp only
  rw [(std_sort_perm _).mem_iff, List.mem_map]
  constructor
  · rintro ⟨⟨k, v⟩, hkv, rfl⟩
    obtain ⟨f, hl, hle, hv⟩ := (hM k v).1 hkv
    subst hv
    exact ⟨f, (mem_vocabulary t k f).2 hl, hle, rfl⟩
  · rintro ⟨f, hv, hle, hm⟩
    refine ⟨(m.word, ⟨m.word, f, lev input m.word, 0⟩), ?_, ?_⟩
    · exact (hM _ _).2 ⟨f, (mem_vocabulary t _ f).1 hv, hle, rfl⟩
    · rw [hm]

theorem get_ranked_fuzzy_matches_nodup (t : Trie) (input : List Char) (max_edits alpha : Int) :
    ((get_ranked_fuzzy_matches t input max_edits alpha).map FuzzyMatch.word).Nodup ∧
    (get_ranked_fuzzy_matches t input max_edits alpha).Pairwise (fun a b => a.lt b = true) := by
  obtain ⟨hnd, hM⟩ := search_fuzzy_root t input max_edits
  unfold get_ranked_fuzzy_matches
  simp only
  have hwords : ((List.map
      (fun pair : List Char × FuzzyMatch =>
        ({ pair.2 with score := pair.2.frequency - alpha * pair.2.edit_distance } : FuzzyMatch))
      (search_fuzzy (input.length + (max_edits + 1).toNat) (some t.root) input [] 0
        max_edits [] 0)).map FuzzyMatch.word).Nodup := by
    rw [List.map_map]
    have : List.map (FuzzyMatch.word ∘ fun pair : List Char × FuzzyMatch =>
        ({ pair.2 with score := pair.2.frequency - alpha * pair.2.edit_distance } : FuzzyMatch))
        (search_fuzzy (input.length + (max_edits + 1).toNat) (some t.root) input [] 0
          max_edits [] 0) =
        List.map Prod.fst (search_fuzzy (input.length + (max_edits + 1).toNat) (some t.root)
          input [] 0 max_edits [] 0) := by
      apply List.map_congr_left
      rintro ⟨k, v⟩ hkv
      obtain ⟨f, _, _, hv⟩ := (hM k v).1 hkv
      subst hv
      rfl
    rw [this]
    exact hnd
  exact ⟨((std_sort_perm _).map FuzzyMatch.word).nodup_iff.2 hwords,
    std_sort_pairwise_lt _ hwords⟩


/-! ## More on the Levenshtein distance -/

theorem lev_self (a : List Char) : lev a a = 0 := by
  induction a with
  | nil => simp [lev_nil_left]
  | cons x xs ih =>
    have := lev_cons_cons_le x xs x xs
    simp only [if_true] at this
    omega

theorem lev_eq_zero_iff (a b : List Char) : lev a b = 0 ↔ a = b := by
  constructor
  · intro h
    induction a generalizing b with
    | nil =>
      rw [lev_nil_left] at h
      exact (List.length_eq_zero.1 h).symm
    | cons x xs ih =>
      cases b with
      | nil => rw [lev_nil_right] at h; simp at h
      | cons y ys =>
        rcases lev_cons_cons_cases x xs y ys with h' | h' | h'
        · omega
        · omega
        · rw [h] at h'
          by_cases hxy : x = y
          · simp only [hxy, if_true, add_zero] at h'
            rw [hxy, ih ys h'.symm]
          · simp only [hxy, if_false] at h'
            omega
  · rintro rfl
    exact lev_self a

/-- The distance is at least the number of characters the target is longer by. -/
theorem length_le_lev_add (a : List Char) : ∀ b : List Char, b.length ≤ lev a b + a.length := by
  induction a with
  | nil => intro b; simp [lev_nil_left]
  | cons x xs ih =>
    intro b
    induction b with
    | nil => simp
    | cons y ys ihb =>
      have h1 := ih (y :: ys)
      have h2 := ih ys
      simp only [List.length_cons] at h1 h2 ihb ⊢
      rcases lev_cons_cons_cases x xs y ys with h' | h' | h'
      · omega
      · omega
      · rw [h']
        by_cases hxy : x = y
        · simp only [hxy, if_true]; omega
        · simp only [hxy, if_false]; omega

/-- A word that extends the target by `s` is at distance `|s|` from it. -/
theorem lev_append_right (a s : List Char) : lev a (a ++ s) = s.length := by
  apply le_antisymm
  · induction a with
    | nil => simp [lev_nil_left]
    | cons x xs ih =>
      have := lev_cons_cons_le x xs x (xs ++ s)
      simp only [if_true] at this
      simp only [List.cons_append]
      omega
  · have := length_le_lev_add a (a ++ s)
    simp only [List.length_append] at this
    omega


/-! ## The Levenshtein distance as the least number of single-character edits -/

theorem edits_head {n : Nat} {a b c : List Char} (h : EditStep a b) (hc : Edits n b c) :
    Edits (n + 1) a c := by
  revert h
  induction hc with
  | done _ => intro h; exact Edits.step (Edits.done a) h
  | step _ hs ih => intro h; exact Edits.step (ih h) hs

theorem edit_step_cons (x : Char) {a b : List Char} (h : EditStep a b) :
    EditStep (x :: a) (x :: b) := by
  cases h with
  | insertion p q c => exact EditStep.insertion (x :: p) q c
  | deletion p q c => exact EditStep.deletion (x :: p) q c
  | substitution p q c d => exact EditStep.substitution (x :: p) q c d

theorem edits_cons (x : Char) {n : Nat} {a b : List Char} (h : Edits n a b) :
    Edits n (x :: a) (x :: b) := by
  induction h with
  | done _ => exact Edits.done _
  | step _ hs ih => exact Edits.step ih (edit_step_cons x hs)

/-- Some sequence of `lev a b` single-character edits transforms `a` into `b`. -/
theorem edits_lev (a : List Char) : ∀ b : List Char, Edits (lev a b) a b := by
  induction a with
  | nil =>
    intro b
    induction b with
    | nil => rw [lev_nil_left]; exact Edits.done []
    | cons y ys ih =>
      rw [lev_nil_left] at ih ⊢
      exact Edits.step ih (EditStep.insertion [] ys y)
  | cons x xs ih =>
    intro b
    induction b with
    | nil =>
      have h := ih []
      rw [lev_nil_right] at h ⊢
      exact edits_head (EditStep.deletion [] xs x) h
    | cons y ys ihb =>
      rcases lev_cons_cons_cases x xs y ys with h | h | h
      · rw [h]
        exact edits_head (EditStep.deletion [] xs x) (ih (y :: ys))
      · rw [h]
        exact Edits.step ihb (EditStep.insertion [] ys y)
      · rw [h]
        by_cases hxy : x = y
        · subst hxy
          simp only [if_true, add_zero]
          exact edits_cons x (ih ys)
        · simp only [hxy, if_false]
          exact edits_head (EditStep.substitution [] xs x y) (edits_cons y (ih ys))

theorem min3_le_min3 {a1 a2 a3 b1 b2 b3 : Nat} (h1 : a1 ≤ b1 + 1) (h2 : a2 ≤ b2 + 1)
    (h3 : a3 ≤ b3 + 1) : min a1 (min a2 a3) ≤ min b1 (min b2 b3) + 1 := by
  omega

/-- If the distance to `B'` exceeds the distance to `B` by at most one from every string,
the same holds after the same character is put in front of both. -/
theorem near_cons {B B' : List Char} (h : ∀ a, lev a B' ≤ lev a B + 1) (y : Char) :
    ∀ a, lev a (y :: B') ≤ lev a (y :: B) + 1 := by
  intro a
  induction a with
  | nil =>
    have := h []
    simp only [lev_nil_left, List.length_cons] at this ⊢
    omega
  | cons x xs ih =>
    rw [lev_cons_cons, lev_cons_cons]
    apply min3_le_min3
    · omega
    · have := h (x :: xs); omega
    · have := h xs; omega

theorem near_append {B B' : List Char} (h : ∀ a, lev a B' ≤ lev a B + 1) (p : List Char) :
    ∀ a, lev a (p ++ B') ≤ lev a (p ++ B) + 1 := by
  induction p with
  | nil => exact h
  | cons y p ih => exact near_cons ih y

theorem lev_le_cons_right (c : Char) (q : List Char) :
    ∀ a, lev a q ≤ lev a (c :: q) + 1 := by
  intro a
  induction a with
  | nil => simp only [lev_nil_left, List.length_cons]; omega
  | cons x xs ih =>
    have h1 := lev_cons_left_le x xs q
    rcases lev_cons_cons_cases x xs c q with h | h | h
    · omega
    · omega
    · rw [h]
      by_cases hxc : x = c
      · simp only [hxc, if_true] at h1 ⊢; omega
      · simp only [hxc, if_false]; omega

theorem lev_substitute_head (c d : Char) (q : List Char) :
    ∀ a, lev a (d :: q) ≤ lev a (c :: q) + 1 := by
  intro a
  induction a with
  | nil => simp only [lev_nil_left, List.length_cons]; omega
  | cons x xs ih =>
    rw [lev_cons_cons, lev_cons_cons]
    apply min3_le_min3
    · omega
    · omega
    · split_ifs <;> omega

/-- One edit of the target changes the distance by at most one. -/
theorem lev_edit_step {b b' : List Char} (h : EditStep b b') :
    ∀ a, lev a b' ≤ lev a b + 1 := by
  cases h with
  | insertion p q c => exact near_append (fun a => lev_cons_right_le a c q) p
  | deletion p q c => exact near_append (lev_le_cons_right c q) p
  | substitution p q c d => exact near_append (lev_substitute_head c d q) p

/-- No sequence of fewer than `lev a b` single-character edits transforms `a` into `b`. -/
theorem lev_le_of_edits {n : Nat} {a b : List Char} (h : Edits n a b) : lev a b ≤ n := by
  induction h with
  | done _ => rw [lev_self]
  | step _ hs ih => exact le_trans (lev_edit_step hs _) (by omega)

/-- The Levenshtein distance is the minimum number of single-character insertions,
deletions and substitutions that transform `a` into `b`. -/
theorem lev_is_least_number_of_edits (a b : List Char) :
    Edits (lev a b) a b ∧ ∀ n, Edits n a b → lev a b ≤ n :=
  ⟨edits_lev a b, fun _ h => lev_le_of_edits h⟩

/-! ## C1, C2, C7, C8, C9: the ranked fuzzy matches -/

set_option maxRecDepth 100000 in
theorem ranked_scenario_apple :
    (get_ranked_fuzzy_matches (build [("apple".toList, 10), ("apply".toList, 3)])
      "aplle".toList 1).map FuzzyMatch.word = ["apple".toList] := by
  decide

/-- C1: for every trie (in particular every trie built by `insert`), every input string and
every `maxEdits`, the words of `get_ranked_fuzzy_matches(input, maxEdits)` are exactly the
vocabulary words whose Levenshtein distance to the input is at most `maxEdits`; no word
appears twice, and each match carries a stored frequency of its word and an edit distance
of at most `maxEdits`.  With the vocabulary `apple:10, apply:3`, the input `aplle` and
`maxEdits = 1` the words returned are exactly `apple`. -/
theorem C1_fuzzy_matches_are_the_words_within_max_edits :
    (∀ (t : Trie) (input : List Char) (maxEdits : Int),
      (∀ w, w ∈ (get_ranked_fuzzy_matches t input maxEdits).map FuzzyMatch.word ↔
        ((∃ f, (w, f) ∈ vocabulary t) ∧ (lev input w : Int) ≤ maxEdits)) ∧
      ((get_ranked_fuzzy_matches t input maxEdits).map FuzzyMatch.word).Nodup ∧
      (∀ m ∈ get_ranked_fuzzy_matches t input maxEdits,
        (m.word, m.frequency) ∈ vocabulary t ∧ m.edit_distance ≤ maxEdits)) ∧
    (get_ranked_fuzzy_matches (build [("apple".toList, 10), ("apply".toList, 3)])
      "aplle".toList 1).map FuzzyMatch.word = ["apple".toList] := by
  refine ⟨?_, ranked_scenario_apple⟩
  intro t input maxEdits
  refine ⟨?_, (get_ranked_fuzzy_matches_nodup t input maxEdits 1).1, ?_⟩
  · intro w
    rw [List.mem_map]
    constructor
    · rintro ⟨m, hm, rfl⟩
      obtain ⟨f, hv, hle, _⟩ := (mem_get_ranked_fuzzy_matches t input maxEdits 1 m).1 hm
      exact ⟨⟨f, hv⟩, hle⟩
    · rintro ⟨⟨f, hv⟩, hle⟩
      exact ⟨⟨w, f, lev input w, f - 1 * lev input w⟩,
        (mem_get_ranked_fuzzy_matches t input maxEdits 1 _).2 ⟨f, hv, hle, rfl⟩, rfl⟩
  · intro m hm
    obtain ⟨f, hv, hle, hmeq⟩ := (mem_get_ranked_fuzzy_matches t input maxEdits 1 m).1 hm
    rw [hmeq]
    exact ⟨hv, hle⟩

/-- C2: the `edit_distance` of every candidate returned by
`get_ranked_fuzzy_matches(input, maxEdits)` equals the Levenshtein distance between the
input and the candidate's word, which is the minimum number of single-character
insertions, deletions and substitutions transforming the input into the word: some
sequence of that many edits does it, and no sequence of fewer edits does. -/
theorem C2_edit_distance_is_levenshtein (t : Trie) (input : List Char) (maxEdits : Int) :
    ∀ m ∈ get_ranked_fuzzy_matches t input maxEdits,
      m.edit_distance = (lev input m.word : Int) ∧
      Edits (lev input m.word) input m.word ∧
      ∀ n, Edits n input m.word → lev input m.word ≤ n := by
  intro m hm
  obtain ⟨f, _, _, hmeq⟩ := (mem_get_ranked_fuzzy_matches t input maxEdits 1 m).1 hm
  refine ⟨?_, edits_lev input m.word, fun _ h => lev_le_of_edits h⟩
  rw [hmeq]

set_option maxRecDepth 100000 in
theorem ranked_scenario_apple_mem :
    (⟨"apple".toList, 10, 1, 9⟩ : FuzzyMatch) ∈
      get_ranked_fuzzy_matches (build [("apple".toList, 10), ("apply".toList, 3)])
        "aplle".toList 1 := by
  decide

/-- C2, an instance: with the vocabulary `apple:10, apply:3` and the input `aplle`, the
candidate `apple` is returned with edit distance 1, its Levenshtein distance to `aplle`. -/
theorem C2_edit_distance_is_levenshtein_witness :
    (⟨"apple".toList, 10, 1, 9⟩ : FuzzyMatch) ∈
      get_ranked_fuzzy_matches (build [("apple".toList, 10), ("apply".toList, 3)])
        "aplle".toList 1 ∧
    ((⟨"apple".toList, 10, 1, 9⟩ : FuzzyMatch).edit_distance =
      (lev "aplle".toList (⟨"apple".toList, 10, 1, 9⟩ : FuzzyMatch).word : Int) ∧
    Edits (lev "aplle".toList (⟨"apple".toList, 10, 1, 9⟩ : FuzzyMatch).word) "aplle".toList
      (⟨"apple".toList, 10, 1, 9⟩ : FuzzyMatch).word ∧
    ∀ n, Edits n "aplle".toList (⟨"apple".toList, 10, 1, 9⟩ : FuzzyMatch).word →
      lev "aplle".toList (⟨"apple".toList, 10, 1, 9⟩ : FuzzyMatch).word ≤ n) :=
  ⟨ranked_scenario_apple_mem,
    C2_edit_distance_is_levenshtein (build [("apple".toList, 10), ("apply".toList, 3)])
      "aplle".toList 1 _ ranked_scenario_apple_mem⟩

/-- C7: with `maxEdits = 0` the search returns exactly the vocabulary words equal to the
input, with distance 0: the one-element list of the input's entry when the input is a
stored word, the empty list otherwise. -/
theorem C7_zero_edits_returns_the_input_word (t : Trie) (input : List Char) :
    (∀ m ∈ get_ranked_fuzzy_matches t input 0, m.word = input ∧ m.edit_distance = 0) ∧
    (∀ f, (input, f) ∈ vocabulary t →
      get_ranked_fuzzy_matches t input 0 = [⟨input, f, 0, f⟩]) ∧
    ((∀ f, (input, f) ∉ vocabulary t) → get_ranked_fuzzy_matches t input 0 = []) := by
  have hall : ∀ m ∈ get_ranked_fuzzy_matches t input 0,
      ∃ f, (input, f) ∈ vocabulary t ∧ m = ⟨input, f, 0, f⟩ := by
    intro m hm
    obtain ⟨f, hv, hle, hmeq⟩ := (mem_get_ranked_fuzzy_matches t input 0 1 m).1 hm
    have h0 : lev input m.word = 0 := by omega
    have hw : input = m.word := (lev_eq_zero_iff _ _).1 h0
    rw [← hw] at hv
    refine ⟨f, hv, ?_⟩
    rw [hmeq, h0, ← hw]
    simp
  refine ⟨?_, ?_, ?_⟩
  · intro m hm
    obtain ⟨f, _, hmeq⟩ := hall m hm
    rw [hmeq]
    exact ⟨rfl, rfl⟩
  · intro f hv
    have hmem : (⟨input, f, 0, f⟩ : FuzzyMatch) ∈ get_ranked_fuzzy_matches t input 0 := by
      rw [mem_get_ranked_fuzzy_matches t input 0 1]
      refine ⟨f, hv, ?_, ?_⟩
      · simp [lev_self]
      · simp [lev_self]
    have hnd := (get_ranked_fuzzy_matches_nodup t input 0 1).1
    generalize get_ranked_fuzzy_matches t input 0 = res at hall hmem hnd
    match res, hall, hmem, hnd with
    | [], _, hmem, _ => cases hmem
    | [a], _, hmem, _ =>
      rw [List.mem_singleton] at hmem
      rw [hmem]
    | a :: b :: rest, hall, _, hnd =>
      exfalso
      obtain ⟨fa, _, ha⟩ := hall a (by simp)
      obtain ⟨fb, _, hb⟩ := hall b (by simp)
      simp only [List.map_cons, List.nodup_cons, List.mem_cons] at hnd
      apply hnd.1
      left
      rw [ha, hb]
  · intro hno
    cases hres : get_ranked_fuzzy_matches t input 0 with
    | nil => rfl
    | cons a rest =>
      exfalso
      obtain ⟨f, hv, _⟩ := hall a (by rw [hres]; simp)
      exact hno f hv

/-- C8: the list returned by `get_ranked_fuzzy_matches` is sorted by the ranking order: of
any two items, the earlier one `a` and the later one `b` satisfy: `a` has edit distance 0
and `b` does not, or both are in the same exactness class and `a` has the strictly higher
score, or they are in the same class, tie on score and the word of `a` is smaller.  In
particular no candidate with a distance other than 0 precedes a candidate with
distance 0. -/
theorem C8_ranked_output_is_sorted (t : Trie) (input : List Char) (maxEdits : Int) :
    (get_ranked_fuzzy_matches t input maxEdits).Pairwise (fun a b =>
      (a.edit_distance = 0 ∧ b.edit_distance ≠ 0) ∨
      ((a.edit_distance = 0 ↔ b.edit_distance = 0) ∧ b.score < a.score) ∨
      ((a.edit_distance = 0 ↔ b.edit_distance = 0) ∧ a.score = b.score ∧ a.word < b.word)) ∧
    (get_ranked_fuzzy_matches t input maxEdits).Pairwise (fun a b =>
      ¬ (a.edit_distance ≠ 0 ∧ b.edit_distance = 0)) := by
  have h := (get_ranked_fuzzy_matches_nodup t input maxEdits 1).2
  constructor
  · refine h.imp ?_
    intro a b hab
    rw [lt_iff] at hab
    rcases hab with h1 | ⟨h1, h2 | h2⟩
    · exact Or.inl h1
    · exact Or.inr (Or.inl ⟨h1, h2⟩)
    · exact Or.inr (Or.inr ⟨h1, h2⟩)
  · refine h.imp ?_
    intro a b hab
    rw [lt_iff] at hab
    rintro ⟨ha, hb⟩
    rcases hab with h1 | ⟨h1, _⟩
    · exact ha h1.1
    · exact ha (h1.2 hb)

/-- C9 (trailing insertion): if `tgt ++ s` is a vocabulary word and the budget `E` is at
least `|s|`, then `get_ranked_fuzzy_matches(tgt, E)` contains `tgt ++ s` with edit distance
exactly `|s|`; and if `tgt` itself is a vocabulary word it is returned with distance 0. -/
theorem C9_trailing_insertion (t : Trie) (tgt s : List Char) (E f : Int)
    (hv : (tgt ++ s, f) ∈ vocabulary t) (hE : (s.length : Int) ≤ E) :
    (∃ m ∈ get_ranked_fuzzy_matches t tgt E,
      m.word = tgt ++ s ∧ m.frequency = f ∧ m.edit_distance = s.length) ∧
    (∀ f', (tgt, f') ∈ vocabulary t →
      ∃ m ∈ get_ranked_fuzzy_matches t tgt E,
        m.word = tgt ∧ m.frequency = f' ∧ m.edit_distance = 0) := by
  have hE0 : (0 : Int) ≤ E := le_trans (Int.ofNat_nonneg _) hE
  constructor
  · refine ⟨⟨tgt ++ s, f, s.length, f - 1 * s.length⟩, ?_, rfl, rfl, rfl⟩
    rw [mem_get_ranked_fuzzy_matches t tgt E 1]
    exact ⟨f, hv, by simp only [lev_append_right]; exact hE,
      by simp only [lev_append_right]⟩
  · intro f' hv'
    refine ⟨⟨tgt, f', 0, f'⟩, ?_, rfl, rfl, rfl⟩
    rw [mem_get_ranked_fuzzy_matches t tgt E 1]
    exact ⟨f', hv', by simp only [lev_self]; exact_mod_cast hE0, by simp [lev_self]⟩

/-- C9, the scenario of the specification: with the vocabulary `cat:1, cats:1`, the search
for `cat` with budget 1 returns `cats` at distance 1 and `cat` at distance 0. -/
theorem C9_trailing_insertion_witness :
    ("cat".toList ++ "s".toList, (1 : Int)) ∈
      vocabulary (build [("cat".toList, 1), ("cats".toList, 1)]) ∧
    (("s".toList.length : Int) ≤ 1) ∧
    ((∃ m ∈ get_ranked_fuzzy_matches (build [("cat".toList, 1), ("cats".toList, 1)])
        "cat".toList 1,
      m.word = "cat".toList ++ "s".toList ∧ m.frequency = 1 ∧
        m.edit_distance = "s".toList.length) ∧
    (∀ f', ("cat".toList, f') ∈ vocabulary (build [("cat".toList, 1), ("cats".toList, 1)]) →
      ∃ m ∈ get_ranked_fuzzy_matches (build [("cat".toList, 1), ("cats".toList, 1)])
          "cat".toList 1,
        m.word = "cat".toList ∧ m.frequency = f' ∧ m.edit_distance = 0)) :=
  ⟨by decide, by decide,
    C9_trailing_insertion (build [("cat".toList, 1), ("cats".toList, 1)]) "cat".toList
      "s".toList 1 1 (by decide) (by decide)⟩


/-! ## The top-k selection -/

theorem cmp_iff (a b : List Char × Int) : cmp a b = true ↔ key_lt b a := by
  unfold cmp key_lt
  simp only [Bool.or_eq_true, Bool.and_eq_true, decide_eq_true_eq, gt_iff_lt]
  constructor
  · rintro (h | ⟨h1, h2⟩)
    · exact Or.inl h
    · exact Or.inr ⟨h1.symm, h2⟩
  · rintro (h | ⟨h1, h2⟩)
    · exact Or.inl h
    · exact Or.inr ⟨h1.symm, h2⟩

theorem key_le_refl (a : List Char × Int) : key_le a a := Or.inr ⟨rfl, le_refl _⟩

theorem key_le_total (a b : List Char × Int) : key_le a b ∨ key_le b a := by
  unfold key_le
  rcases lt_trichotomy a.2 b.2 with h | h | h
  · exact Or.inr (Or.inl h)
  · rcases le_total a.1 b.1 with h' | h'
    · exact Or.inl (Or.inr ⟨h, h'⟩)
    · exact Or.inr (Or.inr ⟨h.symm, h'⟩)
  · exact Or.inl (Or.inl h)

theorem key_le_trans {a b c : List Char × Int} (hab : key_le a b) (hbc : key_le b c) :
    key_le a c := by
  unfold key_le at *
  rcases hab with h1 | ⟨h1, h1'⟩ <;> rcases hbc with h2 | ⟨h2, h2'⟩
  · left; omega
  · left; omega
  · left; omega
  · right; exact ⟨by omega, le_trans h1' h2'⟩

theorem key_le_antisymm {a b : List Char × Int} (hab : key_le a b) (hba : key_le b a) :
    a = b := by
  unfold key_le at *
  rcases hab with h1 | ⟨h1, h1'⟩ <;> rcases hba with h2 | ⟨h2, h2'⟩
  · omega
  · omega
  · omega
  · exact Prod.ext (le_antisymm h1' h2') h1

theorem key_le_of_not_key_lt {a b : List Char × Int} (h : ¬ key_lt b a) : key_le a b := by
  unfold key_lt at h
  unfold key_le
  rw [not_or, not_and] at h
  rcases lt_trichotomy a.2 b.2 with h' | h' | h'
  · exact absurd h' h.1
  · exact Or.inr ⟨h', not_lt.1 (h.2 h'.symm)⟩
  · exact Or.inl h'

theorem key_lt_of_le_of_ne {a b : List Char × Int} (h : key_le a b) (hne : a.1 ≠ b.1) :
    key_lt a b := by
  unfold key_le at h
  unfold key_lt
  rcases h with h | ⟨h, h'⟩
  · exact Or.inl h
  · exact Or.inr ⟨h, lt_of_le_of_ne h' hne⟩

/-- The scan that finds the top of the queue returns an element that ranks no later than
any other. -/
theorem foldl_best (xs : List (List Char × Int)) : ∀ x : List Char × Int,
    xs.foldl (fun best y => if cmp best y then y else best) x ∈ x :: xs ∧
    ∀ z ∈ x :: xs, key_le (xs.foldl (fun best y => if cmp best y then y else best) x) z := by
  induction xs with
  | nil =>
    intro x
    simp only [List.foldl_nil, List.mem_singleton, forall_eq, true_and]
    exact key_le_refl x
  | cons y ys ih =>
    intro x
    simp only [List.foldl_cons]
    obtain ⟨hmem, hle⟩ := ih (if cmp x y then y else x)
    have hstep : (if cmp x y = true then y else x) ∈ [x, y] ∧
        key_le (if cmp x y = true then y else x) x ∧
        key_le (if cmp x y = true then y else x) y := by
      by_cases hc : cmp x y = true
      · simp only [hc, if_true]
        have := (cmp_iff x y).1 hc
        refine ⟨by simp, ?_, key_le_refl y⟩
        unfold key_lt at this
        unfold key_le
        rcases this with h | ⟨h, h'⟩
        · exact Or.inl h
        · exact Or.inr ⟨h, le_of_lt h'⟩
      · simp only [hc, if_false]
        refine ⟨by simp, key_le_refl x, ?_⟩
        exact key_le_of_not_key_lt (fun h => hc ((cmp_iff x y).2 h))
    constructor
    · rcases List.mem_cons.1 hmem with h | h
      · rw [h]
        rcases List.mem_cons.1 hstep.1 with h' | h'
        · rw [h']; simp
        · rw [List.mem_singleton] at h'; rw [h']; simp
      · exact List.mem_cons_of_mem _ (List.mem_cons_of_mem _ h)
    · intro z hz
      rcases List.mem_cons.1 hz with rfl | hz'
      · exact key_le_trans (hle _ (List.mem_cons_self _ _)) hstep.2.1
      · rcases List.mem_cons.1 hz' with rfl | hz''
        · exact key_le_trans (hle _ (List.mem_cons_self _ _)) hstep.2.2
        · exact hle z (List.mem_cons_of_mem _ hz'')

theorem pq_top_spec {pq : List (List Char × Int)} {x : List Char × Int}
    (h : pq_top pq = some x) : x ∈ pq ∧ ∀ z ∈ pq, key_le x z := by
  cases pq with
  | nil => simp [pq_top] at h
  | cons a rest =>
    simp only [pq_top, Option.some.injEq] at h
    rw [← h]
    exact foldl_best rest a

theorem sorted_key_le (l : List (List Char × Int)) :
    (l.insertionSort key_le).Sorted key_le := by
  haveI : IsTotal (List Char × Int) key_le := ⟨key_le_total⟩
  haveI : IsTrans (List Char × Int) key_le := ⟨fun _ _ _ => key_le_trans⟩
  exact List.sorted_insertionSort key_le l

theorem pq_pop_perm {pq : List (List Char × Int)} {x : List Char × Int} (h : x ∈ pq) :
    pq.Perm (x :: pq_pop x pq) := by
  induction pq with
  | nil => cases h
  | cons y ys ih =>
    by_cases hy : y = x
    · subst hy; simp [pq_pop]
    · have hx : x ∈ ys := by
        rcases List.mem_cons.1 h with h' | h'
        · exact absurd h'.symm hy
        · exact h'
      simp only [pq_pop, hy, if_false]
      exact ((ih hx).cons y).trans (List.Perm.swap x y _)

/-- Taking the top of the queue first and sorting the rest is sorting the queue. -/
theorem insertionSort_eq_top_cons {pq : List (List Char × Int)} {x : List Char × Int}
    (h : pq_top pq = some x) :
    pq.insertionSort key_le = x :: (pq_pop x pq).insertionSort key_le := by
  haveI : IsAntisymm (List Char × Int) key_le := ⟨fun _ _ => key_le_antisymm⟩
  obtain ⟨hmem, hle⟩ := pq_top_spec h
  apply List.eq_of_perm_of_sorted (r := key_le)
  · exact (List.perm_insertionSort key_le pq).trans
      ((pq_pop_perm hmem).trans
        ((List.perm_insertionSort key_le (pq_pop x pq)).symm.cons x))
  · exact sorted_key_le pq
  · rw [List.Sorted, List.pairwise_cons]
    refine ⟨?_, sorted_key_le _⟩
    intro z hz
    have hz' : z ∈ pq_pop x pq := (List.perm_insertionSort key_le _).mem_iff.1 hz
    exact hle z ((pq_pop_perm hmem).mem_iff.2 (List.mem_cons_of_mem _ hz'))

/-- The extraction loop returns the words of the first `n` entries of the queue sorted by
the ranking key. -/
theorem top_k_loop_eq (n : Nat) : ∀ pq : List (List Char × Int),
    top_k_loop n pq = ((pq.insertionSort key_le).take n).map Prod.fst := by
  induction n with
  | zero => intro pq; simp [top_k_loop]
  | succ n ih =>
    intro pq
    cases htop : pq_top pq with
    | none =>
      cases pq with
      | nil => simp [top_k_loop, pq_top]
      | cons a rest => simp [pq_top] at htop
    | some x =>
      simp only [top_k_loop, htop]
      rw [insertionSort_eq_top_cons htop, ih]
      simp


/-! ## C4: the top-k prefix matches -/

/-- C4: for every trie, lowercase prefix `p` and `k >= 0`, `get_top_k_with_prefix(p, k)`
returns at most `k` words: the words of the first `min(k, n)` of the `n` pairs of
`get_words_with_prefix(p)` put in the order of frequency descending, ties by ascending
word; that order is strict on the pairs, so consecutive returned words are strictly
ordered under the key. -/
theorem C4_top_k_is_sorted_selection (t : Trie) (p : List Char) (k : Int)
    (hp : lowercase p) (hk : 0 ≤ k) :
    ∃ (all sorted : List (List Char × Int)) (res : List (List Char)),
      get_words_with_prefix t p = some all ∧
      get_top_k_with_prefix t p k = some res ∧
      sorted.Perm all ∧ sorted.Pairwise key_lt ∧
      res = (sorted.take (min k.toNat all.length)).map Prod.fst ∧
      (res.length : Int) ≤ k ∧ res.length = min k.toNat all.length := by
  obtain ⟨all, hall, hsorted, _⟩ := mem_get_words_with_prefix t p hp
  have hperm := List.perm_insertionSort key_le all
  have hne : (all.insertionSort key_le).Pairwise (fun a b => a.1 ≠ b.1) := by
    have h1 : (all.map Prod.fst).Nodup := by
      rw [List.Nodup, List.pairwise_map]
      exact hsorted.imp (fun h => ne_of_lt h)
    have h2 := (hperm.map Prod.fst).nodup_iff.2 h1
    rw [List.Nodup, List.pairwise_map] at h2
    exact h2
  have hlt : (all.insertionSort key_le).Pairwise key_lt :=
    ((sorted_key_le all).and hne).imp (fun h => key_lt_of_le_of_ne h.1 h.2)
  have hlen : (all.insertionSort key_le).length = all.length := hperm.length_eq
  have htake : (all.insertionSort key_le).take (min k.toNat all.length) =
      (all.insertionSort key_le).take k.toNat := by
    by_cases h : k.toNat ≤ all.length
    · rw [min_eq_left h]
    · have h' : all.length ≤ k.toNat := by omega
      rw [min_eq_right h', List.take_of_length_le (by omega), List.take_of_length_le (by omega)]
  refine ⟨all, all.insertionSort key_le, top_k_loop k.toNat all, hall, ?_, hperm, hlt, ?_, ?_, ?_⟩
  · simp [ get_top_k_with_prefix, hall]
  · rw [htake, top_k_loop_eq]
  · rw [top_k_loop_eq, List.length_map, List.length_take, hlen]
    omega
  · rw [top_k_loop_eq, List.length_map, List.length_take, hlen]

/-- C4, an instance: with the vocabulary `cat:1, cats:100`, the prefix `c` and `k = 1`. -/
theorem C4_top_k_is_sorted_selection_witness :
    lowercase "c".toList ∧ (0 : Int) ≤ 1 ∧
    ∃ (all sorted : List (List Char × Int)) (res : List (List Char)),
      get_words_with_prefix (build [("cat".toList, 1), ("cats".toList, 100)]) "c".toList
        = some all ∧
      get_top_k_with_prefix (build [("cat".toList, 1), ("cats".toList, 100)]) "c".toList 1
        = some res ∧
      sorted.Perm all ∧ sorted.Pairwise key_lt ∧
      res = (sorted.take (min (1 : Int).toNat all.length)).map Prod.fst ∧
      (res.length : Int) ≤ 1 ∧ res.length = min (1 : Int).toNat all.length :=
  ⟨by decide, by decide,
    C4_top_k_is_sorted_selection (build [("cat".toList, 1), ("cats".toList, 100)]) "c".toList 1
      (by decide) (by decide)⟩

/-! ## C3, C10: the fuzzy matches filtered by the prefix matches -/

theorem prefix_filter_words (S : List (List Char)) (l : List FuzzyMatch) :
    (prefix_filter S l).map FuzzyMatch.word = (l.map FuzzyMatch.word).filter (fun w => w ∈ S) := by
  induction l with
  | nil => simp [prefix_filter]
  | cons m rest ih =>
    by_cases h : m.word ∈ S
    · simp [prefix_filter, h, ih]
    · simp [prefix_filter, h, ih]

theorem top_k_loop_length_le (n : Nat) (pq : List (List Char × Int)) :
    (top_k_loop n pq).length ≤ n := by
  rw [top_k_loop_eq, List.length_map, List.length_take]
  exact min_le_left _ _

theorem top_k_loop_subset (n : Nat) (pq : List (List Char × Int)) :
    ∀ w ∈ top_k_loop n pq, ∃ f, (w, f) ∈ pq := by
  intro w hw
  rw [top_k_loop_eq, List.mem_map] at hw
  obtain ⟨⟨w', f⟩, hmem, rfl⟩ := hw
  exact ⟨f, (List.perm_insertionSort key_le pq).mem_iff.1 (List.mem_of_mem_take hmem)⟩

/-- For a lowercase input and `k >= 0` the call `get_top_k_fuzzy_matches` returns the ranked
matches whose word is a top-k prefix match, with the score raised by 10; the truncation to
`k` removes nothing. -/
theorem get_top_k_fuzzy_matches_eq (t : Trie) (input : List Char) (maxEdits k : Int)
    (hl : lowercase input) (hk : 0 ≤ k) :
    ∃ pw, get_top_k_with_prefix t input k = some pw ∧
      get_top_k_fuzzy_matches t input maxEdits k =
        some (prefix_filter pw (get_ranked_fuzzy_matches t input maxEdits)) := by
  obtain ⟨all, hall, _, _⟩ := mem_get_words_with_prefix t input hl
  have hpw : get_top_k_with_prefix t input k = some (top_k_loop k.toNat all) := by
    simp [ get_top_k_with_prefix, hall]
  refine ⟨_, hpw, ?_⟩
  have hnd : ((prefix_filter (top_k_loop k.toNat all)
      (get_ranked_fuzzy_matches t input maxEdits)).map FuzzyMatch.word).Nodup := by
    rw [prefix_filter_words]
    exact (get_ranked_fuzzy_matches_nodup t input maxEdits 1).1.filter _
  have hsub : (prefix_filter (top_k_loop k.toNat all)
      (get_ranked_fuzzy_matches t input maxEdits)).map FuzzyMatch.word ⊆
        top_k_loop k.toNat all := by
    intro w hw
    rw [prefix_filter_words, List.mem_filter] at hw
    simpa using hw.2
  have hlen := (List.subperm_of_subset hnd hsub).length_le
  rw [List.length_map] at hlen
  have hlen' := top_k_loop_length_le k.toNat all
  have hnot : ¬ ((prefix_filter (top_k_loop k.toNat all)
      (get_ranked_fuzzy_matches t input maxEdits)).length : Int) > k := by
    omega
  simp only [get_top_k_fuzzy_matches, hpw, hnot, if_false]

/-- C3: for every trie, lowercase input, `maxEdits` and `k >= 0`, the words returned by
`get_top_k_fuzzy_matches(input, maxEdits, k)` are exactly the words that are both among the
words of `get_ranked_fuzzy_matches(input, maxEdits)` and among the words of
`get_top_k_with_prefix(input, k)`. -/
theorem C3_top_k_fuzzy_is_intersection (t : Trie) (input : List Char) (maxEdits k : Int)
    (hl : lowercase input) (hk : 0 ≤ k) :
    ∃ res pw,
      get_top_k_fuzzy_matches t input maxEdits k = some res ∧
      get_top_k_with_prefix t input k = some pw ∧
      ∀ w, w ∈ res.map FuzzyMatch.word ↔
        (w ∈ (get_ranked_fuzzy_matches t input maxEdits).map FuzzyMatch.word ∧ w ∈ pw) := by
  obtain ⟨pw, hpw, hres⟩ := get_top_k_fuzzy_matches_eq t input maxEdits k hl hk
  refine ⟨_, pw, hres, hpw, ?_⟩
  intro w
  rw [prefix_filter_words, List.mem_filter]
  simp

set_option maxRecDepth 100000 in
theorem top_k_fuzzy_scenario_apple :
    get_top_k_fuzzy_matches (build [("apple".toList, 10), ("apply".toList, 3)])
      "aplle".toList 1 5 = some [] := by
  decide

/-- C3, the scenario of the specification: with the vocabulary `apple:10, apply:3` the call
`get_top_k_fuzzy_matches("aplle", 1, 5)` returns the empty list, which is the
intersection of the fuzzy words with the (empty) list of prefix matches. -/
theorem C3_top_k_fuzzy_is_intersection_witness :
    lowercase "aplle".toList ∧ (0 : Int) ≤ 5 ∧
    get_top_k_fuzzy_matches (build [("apple".toList, 10), ("apply".toList, 3)])
      "aplle".toList 1 5 = some [] ∧
    ∃ res pw,
      get_top_k_fuzzy_matches (build [("apple".toList, 10), ("apply".toList, 3)])
        "aplle".toList 1 5 = some res ∧
      get_top_k_with_prefix (build [("apple".toList, 10), ("apply".toList, 3)])
        "aplle".toList 5 = some pw ∧
      ∀ w, w ∈ res.map FuzzyMatch.word ↔
        (w ∈ (get_ranked_fuzzy_matches (build [("apple".toList, 10), ("apply".toList, 3)])
            "aplle".toList 1).map FuzzyMatch.word ∧ w ∈ pw) :=
  ⟨by decide, by decide, top_k_fuzzy_scenario_apple,
    C3_top_k_fuzzy_is_intersection (build [("apple".toList, 10), ("apply".toList, 3)])
      "aplle".toList 1 5 (by decide) (by decide)⟩


theorem mem_prefix_filter {S : List (List Char)} {l : List FuzzyMatch} {m : FuzzyMatch}
    (h : m ∈ prefix_filter S l) : m.word ∈ S := by
  have : m.word ∈ (prefix_filter S l).map FuzzyMatch.word := List.mem_map_of_mem _ h
  rw [prefix_filter_words, List.mem_filter] at this
  simpa using this.2

/-- C10: for every trie, lowercase input, `maxEdits` and `k`, every word returned by
`get_top_k_fuzzy_matches(input, maxEdits, k)` has the input as a literal prefix and is a
member of `get_top_k_with_prefix(input, k)`; hence, if the input is not a prefix of any
vocabulary word, no match is returned, whatever `maxEdits` is.  For `k >= 0` the call does
return a list. -/
theorem C10_fuzzy_match_kept_only_if_top_prefix_match (t : Trie) (input : List Char)
    (maxEdits k : Int) (hl : lowercase input) :
    (∀ res, get_top_k_fuzzy_matches t input maxEdits k = some res →
      ∀ m ∈ res, input <+: m.word ∧
        ∃ pw, get_top_k_with_prefix t input k = some pw ∧ m.word ∈ pw) ∧
    ((∀ w f, (w, f) ∈ vocabulary t → ¬ input <+: w) →
      ∀ res, get_top_k_fuzzy_matches t input maxEdits k = some res → res = []) ∧
    (0 ≤ k → ∃ res, get_top_k_fuzzy_matches t input maxEdits k = some res) := by
  obtain ⟨all, hall, _, hmem⟩ := mem_get_words_with_prefix t input hl
  have hpw : get_top_k_with_prefix t input k = some (top_k_loop k.toNat all) := by
    simp [ get_top_k_with_prefix, hall]
  have hsub : ∀ res, get_top_k_fuzzy_matches t input maxEdits k = some res →
      ∀ m ∈ res, m ∈ prefix_filter (top_k_loop k.toNat all)
        (get_ranked_fuzzy_matches t input maxEdits) := by
    intro res hres m hm
    simp only [get_top_k_fuzzy_matches, hpw] at hres
    by_cases hgt : ((prefix_filter (top_k_loop k.toNat all)
        (get_ranked_fuzzy_matches t input maxEdits)).length : Int) > k
    · simp only [hgt, if_true] at hres
      by_cases hneg : k < 0
      · simp [hneg] at hres
      · simp only [hneg, if_false, Option.some.injEq] at hres
        rw [← hres] at hm
        exact List.mem_of_mem_take hm
    · simp only [hgt, if_false, Option.some.injEq] at hres
      rw [← hres] at hm
      exact hm
  have hfirst : ∀ res, get_top_k_fuzzy_matches t input maxEdits k = some res →
      ∀ m ∈ res, input <+: m.word ∧
        ∃ pw, get_top_k_with_prefix t input k = some pw ∧ m.word ∈ pw := by
    intro res hres m hm
    have hw := mem_prefix_filter (hsub res hres m hm)
    obtain ⟨f, hf⟩ := top_k_loop_subset _ _ _ hw
    exact ⟨((hmem _ _).1 hf).2, _, hpw, hw⟩
  refine ⟨hfirst, ?_, ?_⟩
  · intro hno res hres
    cases res with
    | nil => rfl
    | cons m rest =>
      exfalso
      obtain ⟨hpre, pw, hpw', hw⟩ := hfirst _ hres m (List.mem_cons_self _ _)
      rw [hpw] at hpw'
      cases hpw'
      obtain ⟨f, hf⟩ := top_k_loop_subset _ _ _ hw
      exact hno _ f ((hmem _ _).1 hf).1 hpre
  · intro hk
    obtain ⟨pw, _, hres⟩ := get_top_k_fuzzy_matches_eq t input maxEdits k hl hk
    exact ⟨_, hres⟩

/-- C10, an instance: the input `aplle` with the vocabulary `apple:10, apply:3`. -/
theorem C10_fuzzy_match_kept_only_if_top_prefix_match_witness :
    lowercase "aplle".toList ∧
    ((∀ res, get_top_k_fuzzy_matches (build [("apple".toList, 10), ("apply".toList, 3)])
        "aplle".toList 1 5 = some res →
      ∀ m ∈ res, "aplle".toList <+: m.word ∧
        ∃ pw, get_top_k_with_prefix (build [("apple".toList, 10), ("apply".toList, 3)])
          "aplle".toList 5 = some pw ∧ m.word ∈ pw) ∧
    ((∀ w f, (w, f) ∈ vocabulary (build [("apple".toList, 10), ("apply".toList, 3)]) →
        ¬ "aplle".toList <+: w) →
      ∀ res, get_top_k_fuzzy_matches (build [("apple".toList, 10), ("apply".toList, 3)])
        "aplle".toList 1 5 = some res → res = []) ∧
    ((0 : Int) ≤ 5 → ∃ res,
      get_top_k_fuzzy_matches (build [("apple".toList, 10), ("apply".toList, 3)])
        "aplle".toList 1 5 = some res)) :=
  ⟨by decide,
    C10_fuzzy_match_kept_only_if_top_prefix_match
      (build [("apple".toList, 10), ("apply".toList, 3)]) "aplle".toList 1 5 (by decide)⟩


/-! ## Persistence: the text written and its parsing -/

theorem takeWhile_append_stop {p : Char → Bool} (l : List Char) (x : Char) (r : List Char)
    (hl : ∀ c ∈ l, p c = true) (hx : p x = false) : (l ++ x :: r).takeWhile p = l := by
  induction l with
  | nil => rw [List.nil_append, List.takeWhile_cons_of_neg (by simp [hx])]
  | cons a l ih =>
    rw [List.cons_append, List.takeWhile_cons_of_pos (hl a (List.mem_cons_self _ _)),
      ih (fun c hc => hl c (List.mem_cons_of_mem _ hc))]

theorem dropWhile_append_stop {p : Char → Bool} (l : List Char) (x : Char) (r : List Char)
    (hl : ∀ c ∈ l, p c = true) (hx : p x = false) : (l ++ x :: r).dropWhile p = x :: r := by
  induction l with
  | nil => rw [List.nil_append, List.dropWhile_cons_of_neg (by simp [hx])]
  | cons a l ih =>
    rw [List.cons_append, List.dropWhile_cons_of_pos (hl a (List.mem_cons_self _ _)),
      ih (fun c hc => hl c (List.mem_cons_of_mem _ hc))]

theorem digitChar_value (d : Nat) (h : d < 10) :
    ((Nat.digitChar d).toNat : Int) - 48 = d ∧ (Nat.digitChar d).isDigit = true ∧
      isspace (Nat.digitChar d) = false ∧ Nat.digitChar d ≠ '-' ∧ Nat.digitChar d ≠ '+' := by
  interval_cases d <;> decide

theorem toDigitsCore_value (fuel : Nat) : ∀ (n : Nat) (ds : List Char), n < fuel →
    (Nat.toDigitsCore 10 fuel n ds).foldl (fun acc d => acc * 10 + ((d.toNat : Int) - 48)) 0 =
      ds.foldl (fun acc d => acc * 10 + ((d.toNat : Int) - 48)) (n : Int) := by
  induction fuel with
  | zero => intro n ds h; omega
  | succ fuel ih =>
    intro n ds h
    have hd := (digitChar_value (n % 10) (Nat.mod_lt _ (by decide))).1
    simp only [Nat.toDigitsCore]
    by_cases h0 : n / 10 = 0
    · simp only [h0, if_true, List.foldl_cons, zero_mul, zero_add, hd]
      have : n % 10 = n := by omega
      rw [this]
    · simp only [h0, if_false]
      rw [ih (n / 10) _ (by omega)]
      simp only [List.foldl_cons, hd]
      congr 1
      push_cast
      omega

theorem toDigitsCore_isDigit (fuel : Nat) : ∀ (n : Nat) (ds : List Char),
    (∀ c ∈ ds, c.isDigit = true) → ∀ c ∈ Nat.toDigitsCore 10 fuel n ds, c.isDigit = true := by
  induction fuel with
  | zero => intro n ds h; simpa [Nat.toDigitsCore] using h
  | succ fuel ih =>
    intro n ds h
    have hd := (digitChar_value (n % 10) (Nat.mod_lt _ (by decide))).2.1
    have hcons : ∀ c ∈ Nat.digitChar (n % 10) :: ds, c.isDigit = true := by
      intro c hc
      rcases List.mem_cons.1 hc with rfl | hc'
      · exact hd
      · exact h c hc'
    simp only [Nat.toDigitsCore]
    by_cases h0 : n / 10 = 0
    · simp only [h0, if_true]; exact hcons
    · simp only [h0, if_false]; exact ih _ _ hcons

theorem toDigitsCore_ne_nil (fuel : Nat) : ∀ (n : Nat) (ds : List Char),
    (ds ≠ [] ∨ 0 < fuel) → Nat.toDigitsCore 10 fuel n ds ≠ [] := by
  induction fuel with
  | zero =>
    intro n ds h
    rcases h with h | h
    · simpa [Nat.toDigitsCore] using h
    · omega
  | succ fuel ih =>
    intro n ds _
    simp only [Nat.toDigitsCore]
    by_cases h0 : n / 10 = 0
    · simp [h0]
    · simp only [h0, if_false]; exact ih _ _ (Or.inl (by simp))

/-- The digits written for a natural number: a non-empty run of digits whose value is the
number. -/
theorem toDigits_spec (n : Nat) :
    Nat.toDigits 10 n ≠ [] ∧ (∀ c ∈ Nat.toDigits 10 n, c.isDigit = true) ∧
      digits_value (Nat.toDigits 10 n) = n := by
  refine ⟨toDigitsCore_ne_nil _ _ _ (Or.inr (Nat.succ_pos n)),
    toDigitsCore_isDigit _ _ _ (by simp), ?_⟩
  unfold digits_value Nat.toDigits
  rw [toDigitsCore_value _ _ _ (Nat.lt_succ_self n)]
  simp

theorem isDigit_not_special {c : Char} (h : c.isDigit = true) :
    isspace c = false ∧ c ≠ '-' ∧ c ≠ '+' := by
  have h1 : 48 ≤ c.toNat ∧ c.toNat ≤ 57 := by
    simp only [Char.isDigit, Bool.and_eq_true, decide_eq_true_eq] at h
    exact ⟨by simpa using h.1, by simpa using h.2⟩
  refine ⟨?_, ?_, ?_⟩
  · unfold isspace
    simp only [Bool.or_eq_false_iff, decide_eq_false_iff_not]
    refine ⟨⟨⟨⟨⟨?_, ?_⟩, ?_⟩, ?_⟩, ?_⟩, ?_⟩ <;>
    · intro hc; rw [hc] at h1; revert h1; decide
  · intro hc; rw [hc] at h1; revert h1; decide
  · intro hc; rw [hc] at h1; revert h1; decide

/-- Reading back a written frequency: after a blank, the text of an `int` followed by a
newline is read as that `int`, and the stream is left at the newline. -/
theorem read_int_written (f : Int) (rest : List Char) (hf : INT_MIN ≤ f ∧ f ≤ INT_MAX) :
    read_int (' ' :: (int_to_chars f ++ '\n' :: rest)) = some (f, '\n' :: rest) := by
  obtain ⟨hne, hdig, hval⟩ := toDigits_spec f.natAbs
  have htake : (Nat.toDigits 10 f.natAbs ++ '\n' :: rest).takeWhile Char.isDigit =
      Nat.toDigits 10 f.natAbs := takeWhile_append_stop _ _ _ hdig (by decide)
  have hdrop : (Nat.toDigits 10 f.natAbs ++ '\n' :: rest).dropWhile Char.isDigit =
      '\n' :: rest := dropWhile_append_stop _ _ _ hdig (by decide)
  obtain ⟨d, ds, hds⟩ := List.exists_cons_of_ne_nil hne
  have hd : d.isDigit = true := hdig d (by rw [hds]; exact List.mem_cons_self _ _)
  obtain ⟨hsp, hminus, hplus⟩ := isDigit_not_special hd
  unfold read_int int_to_chars
  by_cases hneg : f < 0
  · have hskip : (' ' :: ('-' :: Nat.toDigits 10 f.natAbs ++ '\n' :: rest)).dropWhile isspace =
        '-' :: (Nat.toDigits 10 f.natAbs ++ '\n' :: rest) := by
      rw [List.dropWhile_cons_of_pos (by decide), List.cons_append,
        List.dropWhile_cons_of_neg (by decide)]
    simp only [hneg, if_true, hskip, htake, hdrop]
    rw [hds] at hval ⊢
    simp only [hval]
    have hv : -(f.natAbs : Int) = f := by omega
    rw [hv]
    simp [hf]
  · have hskip : (' ' :: (Nat.toDigits 10 f.natAbs ++ '\n' :: rest)).dropWhile isspace =
        d :: (ds ++ '\n' :: rest) := by
      rw [hds, List.dropWhile_cons_of_pos (by decide), List.cons_append,
        List.dropWhile_cons_of_neg (by simp [hsp])]
    have hmatch : (match d :: (ds ++ '\n' :: rest) with
        | '-' :: r => (true, r)
        | '+' :: r => (false, r)
        | r => (false, r)) = (false, d :: (ds ++ '\n' :: rest)) := by
      split
      · rename_i heq; simp only [List.cons.injEq] at heq; exact absurd heq.1 hminus
      · rename_i heq; simp only [List.cons.injEq] at heq; exact absurd heq.1 hplus
      · rfl
    simp only [hneg, if_false, hskip, hmatch]
    have e : d :: (ds ++ '\n' :: rest) = Nat.toDigits 10 f.natAbs ++ '\n' :: rest := by
      rw [hds]; rfl
    rw [e, htake, hdrop]
    rw [hds] at hval ⊢
    simp only [hval]
    have hv : (f.natAbs : Int) = f := by omega
    rw [hv]
    simp [hf]


theorem save_to_file_eq (t : Trie) : save_to_file t = (vocabulary t).flatMap entry_line := by
  unfold save_to_file vocabulary
  rw [foldl_acc_append _ entry_line]
  · simp
  · intro pair _ out
    simp [entry_line]

theorem isspace_of_islower {c : Char} (h : islower c = true) : isspace c = false := by
  have h1 : 97 ≤ c.toNat ∧ c.toNat ≤ 122 := by simpa [islower] using h
  unfold isspace
  simp only [Bool.or_eq_false_iff, decide_eq_false_iff_not]
  refine ⟨⟨⟨⟨⟨?_, ?_⟩, ?_⟩, ?_⟩, ?_⟩, ?_⟩ <;>
  · intro hc; rw [hc] at h1; revert h1; decide

theorem dropWhile_all {p : Char → Bool} (l r : List Char) (hl : ∀ c ∈ l, p c = true) :
    (l ++ r).dropWhile p = r.dropWhile p := by
  induction l with
  | nil => rfl
  | cons a l ih =>
    rw [List.cons_append, List.dropWhile_cons_of_pos (hl a (List.mem_cons_self _ _)),
      ih (fun c hc => hl c (List.mem_cons_of_mem _ hc))]

/-- Reading back a written word: after any whitespace, a non-empty word without
whitespace that is followed by a blank is read as it is, and the stream is left at the
blank. -/
theorem read_word_written (pre w rest : List Char) (hpre : ∀ c ∈ pre, isspace c = true)
    (hne : w ≠ []) (hw : ∀ c ∈ w, isspace c = false) :
    read_word (pre ++ (w ++ ' ' :: rest)) = some (w, ' ' :: rest) := by
  obtain ⟨c, r, rfl⟩ := List.exists_cons_of_ne_nil hne
  have hc : isspace c = false := hw c (List.mem_cons_self _ _)
  have hskip : (pre ++ (c :: r ++ ' ' :: rest)).dropWhile isspace = c :: (r ++ ' ' :: rest) := by
    rw [dropWhile_all _ _ hpre, List.cons_append, List.dropWhile_cons_of_neg (by simp [hc])]
  have hw' : ∀ x ∈ c :: r, (fun x => !isspace x) x = true := by
    intro x hx; simp [hw x hx]
  have htake : (c :: r ++ ' ' :: rest).takeWhile (fun x => !isspace x) = c :: r :=
    takeWhile_append_stop (p := fun x => !isspace x) _ _ _ hw' (by decide)
  have hdrop : (c :: r ++ ' ' :: rest).dropWhile (fun x => !isspace x) = ' ' :: rest :=
    dropWhile_append_stop (p := fun x => !isspace x) _ _ _ hw' (by decide)
  unfold read_word
  rw [hskip]
  simp only
  rw [← List.cons_append, htake, hdrop]

theorem read_word_whitespace (pre : List Char) (hpre : ∀ c ∈ pre, isspace c = true) :
    read_word pre = none := by
  have : pre.dropWhile isspace = [] := by
    have := dropWhile_all (p := isspace) pre [] hpre
    simpa using this
  unfold read_word
  rw [this]

/-- The loading loop on a text written by `save_to_file` performs the insertions of the
written pairs, in order. -/
theorem load_loop_written (es : List (List Char × Int)) :
    ∀ (fuel : Nat) (t : Trie) (pre : List Char), (∀ c ∈ pre, isspace c = true) →
      (∀ e ∈ es, e.1 ≠ [] ∧ lowercase e.1 ∧ INT_MIN ≤ e.2 ∧ e.2 ≤ INT_MAX) →
      es.length ≤ fuel →
      load_loop fuel t (pre ++ es.flatMap entry_line) =
        es.foldl (fun t e => insert t e.1 e.2) t := by
  induction es with
  | nil =>
    intro fuel t pre hpre _ _
    cases fuel with
    | zero => rfl
    | succ fuel =>
      simp only [List.flatMap_nil, List.append_nil, List.foldl_nil, load_loop]
      rw [read_word_whitespace pre hpre]
  | cons e es ih =>
    intro fuel t pre hpre hes hfuel
    cases fuel with
    | zero => simp at hfuel
    | succ fuel =>
      obtain ⟨hne, hlow, hrange⟩ := hes e (List.mem_cons_self _ _)
      have htext : pre ++ (e :: es).flatMap entry_line =
          pre ++ (e.1 ++ ' ' :: (int_to_chars e.2 ++ '\n' :: es.flatMap entry_line)) := by
        simp [entry_line]
      have hw : read_word (pre ++ (e :: es).flatMap entry_line) =
          some (e.1, ' ' :: (int_to_chars e.2 ++ '\n' :: es.flatMap entry_line)) := by
        rw [htext]
        exact read_word_written pre e.1 _ hpre hne (fun c hc => isspace_of_islower (hlow c hc))
      simp only [load_loop, hw, read_int_written e.2 _ hrange, List.foldl_cons]
      have := ih fuel (insert t e.1 e.2) ['\n'] (by decide)
        (fun e' he' => hes e' (List.mem_cons_of_mem _ he')) (by simpa using hfuel)
      simpa using this

theorem vocabulary_empty : vocabulary Trie.empty = [] := by
  apply List.eq_nil_iff_forall_not_mem.2
  rintro ⟨w, f⟩ h
  rw [mem_vocabulary] at h
  simp only [Trie.empty] at h
  rw [lookup_fresh] at h
  cases h

theorem vocabulary_nodup_words (t : Trie) : ((vocabulary t).map Prod.fst).Nodup := by
  unfold vocabulary
  rw [collect_all_words_eq_dfs]
  exact dfs_nodup_words t.root []

theorem vocabulary_lowercase (t : Trie) {w : List Char} {f : Int} (h : (w, f) ∈ vocabulary t) :
    lowercase w :=
  lookup_lowercase ((mem_vocabulary t w f).1 h)

/-- The vocabulary after the insertion of pairs with distinct lowercase words: the pairs
inserted, and the former entries for the other words. -/
theorem mem_vocabulary_foldl (es : List (List Char × Int)) :
    ∀ (t : Trie), (es.map Prod.fst).Nodup → (∀ e ∈ es, lowercase e.1) →
      ∀ w f, (w, f) ∈ vocabulary (es.foldl (fun t e => insert t e.1 e.2) t) ↔
        ((w, f) ∈ es ∨ (w ∉ es.map Prod.fst ∧ (w, f) ∈ vocabulary t)) := by
  induction es with
  | nil => intro t _ _ w f; simp
  | cons e es ih =>
    intro t hnd hlow w f
    simp only [List.map_cons, List.nodup_cons] at hnd
    simp only [List.foldl_cons]
    rw [ih (insert t e.1 e.2) hnd.2 (fun e' he' => hlow e' (List.mem_cons_of_mem _ he')),
      mem_vocabulary_insert, filter_islower_of_lowercase (hlow e (List.mem_cons_self _ _))]
    by_cases hw : w = e.1
    · subst hw
      simp only [if_true, List.mem_cons, List.map_cons, true_or, not_true_eq_false, false_and,
        or_false]
      constructor
      · rintro (h | ⟨_, h⟩)
        · exact Or.inr h
        · left; rw [h]
      · rintro (h | h)
        · right
          refine ⟨hnd.1, ?_⟩
          rw [← h]
        · exact absurd (List.mem_map_of_mem Prod.fst h) hnd.1
    · have hne : (w, f) ≠ e := fun h => hw (by rw [← h])
      simp only [hw, if_false, List.mem_cons, List.map_cons, hne, false_or, not_or,
        not_false_eq_true, true_and]

/-- Round trip of the persistence for a vocabulary without the empty word and with
frequencies in the range of `int`: loading the text written by `save_to_file` into a
fresh trie gives a trie with the same (word, frequency) pairs. -/
theorem save_load_round_trip (t : Trie) (hne : ∀ f, ([], f) ∉ vocabulary t)
    (hr : ∀ w f, (w, f) ∈ vocabulary t → INT_MIN ≤ f ∧ f ≤ INT_MAX) :
    ∀ w f, (w, f) ∈ vocabulary (load_from_file Trie.empty (some (save_to_file t))) ↔
      (w, f) ∈ vocabulary t := by
  have hes : ∀ e ∈ vocabulary t, e.1 ≠ [] ∧ lowercase e.1 ∧ INT_MIN ≤ e.2 ∧ e.2 ≤ INT_MAX := by
    rintro ⟨w, f⟩ he
    refine ⟨?_, vocabulary_lowercase t he, hr w f he⟩
    intro h
    simp only at h
    subst h
    exact hne f he
  have hlen : ∀ es : List (List Char × Int), es.length ≤ (es.flatMap entry_line).length := by
    intro es
    induction es with
    | nil => simp
    | cons e es ih =>
      simp only [List.flatMap_cons, List.length_cons, List.length_append, entry_line]
      omega
  have hload : load_from_file Trie.empty (some (save_to_file t)) =
      (vocabulary t).foldl (fun t e => insert t e.1 e.2) Trie.empty := by
    unfold load_from_file
    simp only
    rw [save_to_file_eq]
    have := load_loop_written (vocabulary t) ((vocabulary t).flatMap entry_line).length
      Trie.empty [] (by simp) hes (hlen _)
    simpa using this
  intro w f
  rw [hload, mem_vocabulary_foldl _ _ (vocabulary_nodup_words t)
    (fun e he => (hes e he).2.1), vocabulary_empty]
  simp


/-! ## C5: the round trip of the persistence -/

/-- C5, the failing input: after `insert("42", 1)` and `insert("a", 2)` on a fresh trie the
vocabulary holds the empty word (no character of `42` is a lowercase letter) and `a`;
`save_to_file` writes the lines ` 1` and `a 2`; `load_from_file` reads `1` as a word,
fails to read `a` as a frequency and stops, so the fresh trie stays empty: the round trip
does not reproduce the vocabulary. -/
theorem C5_round_trip_fails_with_empty_word :
    vocabulary (build [("42".toList, 1), ("a".toList, 2)]) = [([], 1), ("a".toList, 2)] ∧
    save_to_file (build [("42".toList, 1), ("a".toList, 2)]) = " 1\na 2\n".toList ∧
    vocabulary (load_from_file Trie.empty
      (some (save_to_file (build [("42".toList, 1), ("a".toList, 2)])))) = [] := by
  decide


/-! ## Selection logging -/

theorem log_selection_nil (e : Bool) (fr : Int) (c : Fin 26 → Option TrieNode) :
    (TrieNode.mk e fr c).log_selection [] =
      some (if e then .mk e (wrap_int (fr + 5)) c else .mk e fr c) := by
  simp [TrieNode.log_selection]

theorem log_selection_cons (e : Bool) (fr : Int) (c : Fin 26 → Option TrieNode) (ch : Char)
    (rest : List Char) (h : char_index ch < 26) :
    (TrieNode.mk e fr c).log_selection (ch :: rest) =
      match c ⟨char_index ch, h⟩ with
      | none => some (.mk e fr c)
      | some child =>
        match TrieNode.log_selection child rest with
        | none => none
        | some child' => some (.mk e fr (Function.update c ⟨char_index ch, h⟩ (some child'))) := by
  simp [TrieNode.log_selection, h]

theorem log_selection_cons_fault (n : TrieNode) (ch : Char) (rest : List Char)
    (h : ¬ char_index ch < 26) : n.log_selection (ch :: rest) = none := by
  cases n with
  | mk e fr c => simp [TrieNode.log_selection, h]

/-- On a lowercase word `log_selection` reads every child slot in range: it returns. -/
theorem log_selection_lowercase (w : List Char) (hw : lowercase w) :
    ∀ n : TrieNode, ∃ n', n.log_selection w = some n' := by
  induction w with
  | nil =>
    intro n
    cases n with
    | mk e fr c => exact ⟨_, log_selection_nil e fr c⟩
  | cons ch rest ih =>
    intro n
    have hch : char_index ch < 26 := (char_index_lt_iff ch).2 (hw ch (List.mem_cons_self _ _))
    have hrest : lowercase rest := fun x hx => hw x (List.mem_cons_of_mem _ hx)
    cases n with
    | mk e fr c =>
      rw [log_selection_cons e fr c ch rest hch]
      cases hc : c ⟨char_index ch, hch⟩ with
      | none => exact ⟨_, rfl⟩
      | some child =>
        obtain ⟨child', hchild⟩ := ih hrest child
        simp only [hchild]
        exact ⟨_, rfl⟩

/-- The effect of a returning `log_selection(w)` on the stored words: the frequency of `w`,
if `w` is stored, is raised by 5 (within the `int` arithmetic); every other word is stored
as before. -/
theorem lookup_log_selection (w : List Char) :
    ∀ (n n' : TrieNode), n.log_selection w = some n' → ∀ w' : List Char,
      n'.lookup w' =
        if w' = w then (n.lookup w).map (fun f => wrap_int (f + 5)) else n.lookup w' := by
  induction w with
  | nil =>
    intro n n' h w'
    cases n with
    | mk e fr c =>
      rw [log_selection_nil] at h
      simp only [Option.some.injEq] at h
      subst h
      cases w' with
      | nil =>
        by_cases he : e = true <;>
          simp [lookup_nil, TrieNode.is_end_of_word, TrieNode.frequency, he]
      | cons ch s =>
        by_cases he : e = true <;> simp [lookup_cons, TrieNode.children, he]
  | cons ch rest ih =>
    intro n n' h w'
    by_cases hch : char_index ch < 26
    · cases n with
      | mk e fr c =>
        rw [log_selection_cons e fr c ch rest hch] at h
        cases hc : c ⟨char_index ch, hch⟩ with
        | none =>
          simp only [hc, Option.some.injEq] at h
          subst h
          by_cases hw' : w' = ch :: rest
          · subst hw'
            simp [lookup_cons, hch, TrieNode.children, hc]
          · simp [hw']
        | some child =>
          simp only [hc] at h
          cases hchild : child.log_selection rest with
          | none => simp [hchild] at h
          | some child' =>
            simp only [hchild, Option.some.injEq] at h
            subst h
            have hih := ih child child' hchild
            cases w' with
            | nil => simp [lookup_nil, TrieNode.is_end_of_word, TrieNode.frequency]
            | cons ch' s' =>
              rw [lookup_cons, lookup_cons, lookup_cons]
              by_cases hch' : char_index ch' < 26
              · simp only [hch', hch, dite_true, TrieNode.children]
                by_cases hi : (⟨char_index ch', hch'⟩ : Fin 26) = ⟨char_index ch, hch⟩
                · have hcc : ch' = ch := by
                    rw [← letter_char_index ch' hch', ← letter_char_index ch hch, hi]
                  subst hcc
                  simp only [Function.update_same, List.cons.injEq, true_and, hc]
                  exact hih s'
                · have hne : ch' ≠ ch := by
                    intro hcc; apply hi; subst hcc; rfl
                  simp only [Function.update_noteq hi, List.cons.injEq, hne, false_and,
                    if_false]
              · have hne : ch' ≠ ch := by
                  intro hcc; apply hch'; rw [hcc]; exact hch
                simp [hch', hne]
    · rw [log_selection_cons_fault n ch rest hch] at h
      cases h

/-- A returning `log_selection(w)` for a word that is not stored leaves the trie as it
is. -/
theorem log_selection_absent (w : List Char) :
    ∀ (n n' : TrieNode), n.log_selection w = some n' → n.lookup w = none → n' = n := by
  induction w with
  | nil =>
    intro n n' h hl
    cases n with
    | mk e fr c =>
      rw [log_selection_nil] at h
      rw [lookup_nil] at hl
      simp only [TrieNode.is_end_of_word, TrieNode.frequency] at hl
      by_cases he : e = true
      · simp [he] at hl
      · have he' : e = false := by simpa using he
        subst he'
        simp only [Bool.false_eq_true, if_false, Option.some.injEq] at h
        exact h.symm
  | cons ch rest ih =>
    intro n n' h hl
    by_cases hch : char_index ch < 26
    · cases n with
      | mk e fr c =>
        rw [log_selection_cons e fr c ch rest hch] at h
        rw [lookup_cons] at hl
        simp only [hch, dite_true, TrieNode.children] at hl
        cases hc : c ⟨char_index ch, hch⟩ with
        | none =>
          simp only [hc, Option.some.injEq] at h
          exact h.symm
        | some child =>
          simp only [hc] at h hl
          cases hchild : child.log_selection rest with
          | none => simp [hchild] at h
          | some child' =>
            simp only [hchild, Option.some.injEq] at h
            have := ih child child' hchild hl
            subst this
            rw [← h, ← hc, Function.update_eq_self]
    · rw [log_selection_cons_fault n ch rest hch] at h
      cases h

/-- The method `log_selection` as an update of the vocabulary, when it returns. -/
theorem mem_vocabulary_log_selection (t t' : Trie) (w : List Char)
    (h : log_selection t w = some t') (w' : List Char) (f' : Int) :
    (w', f') ∈ vocabulary t' ↔
      if w' = w then ∃ f, (w, f) ∈ vocabulary t ∧ f' = wrap_int (f + 5)
      else (w', f') ∈ vocabulary t := by
  unfold log_selection at h
  cases hr : t.root.log_selection w with
  | none => simp [hr] at h
  | some root' =>
    simp only [hr, Option.some.injEq] at h
    subst h
    rw [mem_vocabulary]
    simp only
    rw [lookup_log_selection w t.root root' hr w']
    by_cases hw : w' = w
    · subst hw
      simp only [if_true, mem_vocabulary]
      cases t.root.lookup w' with
      | none => simp
      | some f => simp [eq_comm]
    · simp only [hw, if_false, mem_vocabulary]

theorem wrap_int_of_range {x : Int} (h1 : INT_MIN ≤ x) (h2 : x ≤ INT_MAX) : wrap_int x = x := by
  unfold wrap_int
  unfold INT_MIN at h1
  unfold INT_MAX at h2
  omega


theorem vocabulary_frequency_unique (t : Trie) {w : List Char} {f f' : Int}
    (h : (w, f) ∈ vocabulary t) (h' : (w, f') ∈ vocabulary t) : f = f' := by
  rw [mem_vocabulary] at h h'
  rw [h] at h'
  exact Option.some.inj h'

/-- C12: `insert` skips every character that is not a lowercase letter: `insert(w, f)`
gives the same trie as `insert(w', f)` for `w'` the string `w` without its non-lowercase
characters; the index `ch - 'a'` computed for a character that passes the guard lies in
`0..25`; and every word of the vocabulary of any trie consists of letters `a..z` only.
For instance `insert("aPp1e", 7)` on a fresh trie stores `ape`. -/
theorem C12_insert_skips_non_lowercase :
    (∀ (t : Trie) (w : List Char) (f : Int), insert t w f = insert t (w.filter islower) f) ∧
    (∀ ch : Char, islower ch = true → char_index ch < 26) ∧
    (∀ (t : Trie) (w : List Char) (f : Int), (w, f) ∈ vocabulary t → lowercase w) ∧
    vocabulary (insert Trie.empty "aPp1e".toList 7) = [("ape".toList, 7)] := by
  refine ⟨?_, fun ch h => (char_index_lt_iff ch).2 h, fun t w f h => vocabulary_lowercase t h,
    by decide⟩
  intro t w f
  unfold insert
  rw [insert_filter]

/-! ## C13, C14: selection logging -/

/-- C13 (as amended): for every trie and every lowercase word `w` present in the vocabulary
with a frequency `f` such that `f + 5` is an `int`, `log_selection(w)` returns and leaves
`w` with frequency exactly `f + 5` and every other word's presence and frequency
unchanged. -/
theorem C13_log_selection_adds_five (t : Trie) (w : List Char) (f : Int)
    (hw : lowercase w) (hv : (w, f) ∈ vocabulary t) (hmin : INT_MIN ≤ f)
    (hmax : f + 5 ≤ INT_MAX) :
    ∃ t', log_selection t w = some t' ∧
      (∀ f', (w, f') ∈ vocabulary t' ↔ f' = f + 5) ∧
      (∀ w' f', w' ≠ w → ((w', f') ∈ vocabulary t' ↔ (w', f') ∈ vocabulary t)) := by
  obtain ⟨root', hroot⟩ := log_selection_lowercase w hw t.root
  have hsel : log_selection t w = some ⟨root'⟩ := by
    simp [log_selection, hroot]
  refine ⟨⟨root'⟩, hsel, ?_, ?_⟩
  · intro f'
    rw [mem_vocabulary_log_selection t _ w hsel]
    simp only [if_true]
    have hwrap : wrap_int (f + 5) = f + 5 := wrap_int_of_range (by omega) hmax
    constructor
    · rintro ⟨f0, hf0, rfl⟩
      rw [vocabulary_frequency_unique t hf0 hv, hwrap]
    · rintro rfl
      exact ⟨f, hv, hwrap.symm⟩
  · intro w' f' hne
    rw [mem_vocabulary_log_selection t _ w hsel]
    simp [hne]

/-- C13, the scenario of the specification: with `cat:1, cats:3`, `log_selection("cat")`
raises the frequency of `cat` to 6 and leaves `cats` as it is. -/
theorem C13_log_selection_adds_five_witness :
    lowercase "cat".toList ∧
    ("cat".toList, (1 : Int)) ∈ vocabulary (build [("cat".toList, 1), ("cats".toList, 3)]) ∧
    INT_MIN ≤ (1 : Int) ∧ (1 : Int) + 5 ≤ INT_MAX ∧
    ∃ t', log_selection (build [("cat".toList, 1), ("cats".toList, 3)]) "cat".toList = some t' ∧
      (∀ f', ("cat".toList, f') ∈ vocabulary t' ↔ f' = 1 + 5) ∧
      (∀ w' f', w' ≠ "cat".toList →
        ((w', f') ∈ vocabulary t' ↔
          (w', f') ∈ vocabulary (build [("cat".toList, 1), ("cats".toList, 3)]))) :=
  ⟨by decide, by decide, by decide, by decide,
    C13_log_selection_adds_five (build [("cat".toList, 1), ("cats".toList, 3)]) "cat".toList 1
      (by decide) (by decide) (by decide) (by decide)⟩

/-- C13 as stated fails when `f + 5` is not an `int`: for the word `a` stored with the
frequency 2147483647, the addition overflows and `log_selection("a")` leaves `a` with the
frequency -2147483644, not 2147483652. -/
theorem C13_counterexample_overflow :
    vocabulary (build [("a".toList, 2147483647)]) = [("a".toList, 2147483647)] ∧
    (log_selection (build [("a".toList, 2147483647)]) "a".toList).map vocabulary =
      some [("a".toList, -2147483644)] := by
  decide

/-- C14: for every trie and every lowercase word `w` that is not a vocabulary word (its
path is missing, or ends at a node that is not marked), `log_selection(w)` returns and is
a no-op: the trie, hence its list of (word, frequency) pairs and the vocabulary size, is
unchanged. -/
theorem C14_log_selection_of_absent_word_is_noop (t : Trie) (w : List Char)
    (hw : lowercase w) (ha : ∀ f, (w, f) ∉ vocabulary t) :
    ∃ t', log_selection t w = some t' ∧ t' = t ∧ vocabulary t' = vocabulary t ∧
      (vocabulary t').length = (vocabulary t).length := by
  obtain ⟨root', hroot⟩ := log_selection_lowercase w hw t.root
  have hnone : t.root.lookup w = none := by
    cases hl : t.root.lookup w with
    | none => rfl
    | some f => exact absurd ((mem_vocabulary t w f).2 hl) (ha f)
  have heq : root' = t.root := log_selection_absent w t.root root' hroot hnone
  subst heq
  exact ⟨t, by simp [log_selection, hroot], rfl, rfl, rfl⟩

/-- C14, two instances with the vocabulary `cat:1, cats:3`: the path of `dog` is missing,
and the path of `ca` ends at a node that is not marked. -/
theorem C14_log_selection_of_absent_word_is_noop_witness :
    (lowercase "dog".toList ∧
      (∀ f, ("dog".toList, f) ∉ vocabulary (build [("cat".toList, 1), ("cats".toList, 3)])) ∧
      ∃ t', log_selection (build [("cat".toList, 1), ("cats".toList, 3)]) "dog".toList
          = some t' ∧
        t' = build [("cat".toList, 1), ("cats".toList, 3)] ∧
        vocabulary t' = vocabulary (build [("cat".toList, 1), ("cats".toList, 3)]) ∧
        (vocabulary t').length =
          (vocabulary (build [("cat".toList, 1), ("cats".toList, 3)])).length) ∧
    (lowercase "ca".toList ∧
      (∀ f, ("ca".toList, f) ∉ vocabulary (build [("cat".toList, 1), ("cats".toList, 3)])) ∧
      ∃ t', log_selection (build [("cat".toList, 1), ("cats".toList, 3)]) "ca".toList
          = some t' ∧
        t' = build [("cat".toList, 1), ("cats".toList, 3)] ∧
        vocabulary t' = vocabulary (build [("cat".toList, 1), ("cats".toList, 3)]) ∧
        (vocabulary t').length =
          (vocabulary (build [("cat".toList, 1), ("cats".toList, 3)])).length) := by
  have h1 : ∀ f, ("dog".toList, f) ∉
      vocabulary (build [("cat".toList, 1), ("cats".toList, 3)]) := by
    intro f hf
    have : "dog".toList ∈
        (vocabulary (build [("cat".toList, 1), ("cats".toList, 3)])).map Prod.fst :=
      List.mem_map_of_mem Prod.fst hf
    revert this
    decide
  have h2 : ∀ f, ("ca".toList, f) ∉
      vocabulary (build [("cat".toList, 1), ("cats".toList, 3)]) := by
    intro f hf
    have : "ca".toList ∈
        (vocabulary (build [("cat".toList, 1), ("cats".toList, 3)])).map Prod.fst :=
      List.mem_map_of_mem Prod.fst hf
    revert this
    decide
  exact ⟨⟨by decide, h1,
      C14_log_selection_of_absent_word_is_noop (build [("cat".toList, 1), ("cats".toList, 3)])
        "dog".toList (by decide) h1⟩,
    ⟨by decide, h2,
      C14_log_selection_of_absent_word_is_noop (build [("cat".toList, 1), ("cats".toList, 3)])
        "ca".toList (by decide) h2⟩⟩


/-! ## C15: how the frequencies evolve -/

theorem apply_op_keeps_order (t t' : Trie) (op : Op) (h : apply_op t op = some t')
    (hop : op_keeps_order t op) :
    (∀ w f, (w, f) ∈ vocabulary t → ∃ f', (w, f') ∈ vocabulary t' ∧ f ≤ f') ∧
    ((∀ w f, (w, f) ∈ vocabulary t → 0 ≤ f) → ∀ w f, (w, f) ∈ vocabulary t' → 0 ≤ f) := by
  cases op with
  | insert word freq =>
    simp only [apply_op, Option.some.injEq] at h
    subst h
    obtain ⟨h0, hle⟩ := hop
    constructor
    · intro w f hv
      by_cases hw : w = word.filter islower
      · subst hw
        exact ⟨freq, by rw [mem_vocabulary_insert]; simp, hle f hv⟩
      · exact ⟨f, by rw [mem_vocabulary_insert]; simp [hw, hv], le_refl f⟩
    · intro hnn w f hv
      rw [mem_vocabulary_insert] at hv
      by_cases hw : w = word.filter islower
      · simp only [hw, if_true] at hv
        rw [hv]; exact h0
      · simp only [hw, if_false] at hv
        exact hnn w f hv
  | log_selection word =>
    simp only [apply_op] at h
    simp only [op_keeps_order] at hop
    constructor
    · intro w f hv
      by_cases hw : w = word
      · subst hw
        obtain ⟨h1, h2⟩ := hop f hv
        refine ⟨f + 5, ?_, by omega⟩
        rw [mem_vocabulary_log_selection t t' w h]
        simp only [if_true]
        exact ⟨f, hv, (wrap_int_of_range (by omega) h2).symm⟩
      · refine ⟨f, ?_, le_refl f⟩
        rw [mem_vocabulary_log_selection t t' word h]
        simp [hw, hv]
    · intro hnn w f hv
      rw [mem_vocabulary_log_selection t t' word h] at hv
      by_cases hw : w = word
      · simp only [hw, if_true] at hv
        obtain ⟨f0, hf0, rfl⟩ := hv
        obtain ⟨h1, h2⟩ := hop f0 hf0
        rw [wrap_int_of_range (by omega) h2]
        have := hnn word f0 hf0
        omega
      · simp only [hw, if_false] at hv
        exact hnn w f hv

/-- C15 (as amended): along a sequence of `insert` and `log_selection` operations in which
every insertion brings a non-negative frequency that is not below the one it overwrites,
and every selection is of a word whose frequency plus 5 is an `int`, every stored word
stays stored with a frequency that is not lower than before, and the frequencies stay
non-negative if they were. -/
theorem C15_frequencies_do_not_decrease (ops : List Op) :
    ∀ (t t' : Trie), run t ops = some t' → run_keeps_order t ops →
      (∀ w f, (w, f) ∈ vocabulary t → ∃ f', (w, f') ∈ vocabulary t' ∧ f ≤ f') ∧
      ((∀ w f, (w, f) ∈ vocabulary t → 0 ≤ f) → ∀ w f, (w, f) ∈ vocabulary t' → 0 ≤ f) := by
  induction ops with
  | nil =>
    intro t t' h _
    simp only [run, Option.some.injEq] at h
    subst h
    exact ⟨fun w f hv => ⟨f, hv, le_refl f⟩, fun hnn => hnn⟩
  | cons op ops ih =>
    intro t t' h hk
    simp only [run] at h
    cases h1 : apply_op t op with
    | none => simp [h1] at h
    | some t1 =>
      simp only [h1] at h
      obtain ⟨hop, hrest⟩ := hk
      obtain ⟨hm1, hn1⟩ := apply_op_keeps_order t t1 op h1 hop
      obtain ⟨hm2, hn2⟩ := ih t1 t' h (hrest t1 h1)
      constructor
      · intro w f hv
        obtain ⟨f1, hv1, hle1⟩ := hm1 w f hv
        obtain ⟨f2, hv2, hle2⟩ := hm2 w f1 hv1
        exact ⟨f2, hv2, le_trans hle1 hle2⟩
      · intro hnn
        exact hn2 (hn1 hnn)

theorem run_scenario_cat :
    ∃ t', run Trie.empty [Op.insert "cat".toList 1, Op.log_selection "cat".toList,
      Op.insert "cat".toList 9] = some t' := by
  obtain ⟨root', hroot⟩ := log_selection_lowercase "cat".toList (by decide)
    (insert Trie.empty "cat".toList 1).root
  exact ⟨insert ⟨root'⟩ "cat".toList 9, by simp only [run, apply_op, log_selection, hroot]⟩

theorem run_keeps_order_scenario_cat :
    run_keeps_order Trie.empty [Op.insert "cat".toList 1, Op.log_selection "cat".toList,
      Op.insert "cat".toList 9] := by
  refine ⟨⟨by decide, ?_⟩, ?_⟩
  · intro f0 h
    rw [vocabulary_empty] at h
    cases h
  · intro t1 h1
    simp only [apply_op, Option.some.injEq] at h1
    subst h1
    have hv1 : vocabulary (insert Trie.empty "cat".toList 1) = [("cat".toList, 1)] := by decide
    refine ⟨?_, ?_⟩
    · intro f0 h
      rw [hv1] at h
      simp only [List.mem_singleton, Prod.mk.injEq] at h
      rw [h.2]
      decide
    · intro t2 h2
      simp only [apply_op] at h2
      have hv2 : ∀ w f, (w, f) ∈ vocabulary t2 → f = 6 := by
        intro w f hv
        rw [mem_vocabulary_log_selection _ t2 _ h2] at hv
        by_cases hw : w = "cat".toList
        · simp only [hw, if_true, hv1, List.mem_singleton, Prod.mk.injEq, true_and] at hv
          obtain ⟨f0, rfl, rfl⟩ := hv
          decide
        · simp only [hw, if_false, hv1, List.mem_singleton, Prod.mk.injEq, false_and] at hv
      refine ⟨⟨by decide, ?_⟩, fun _ _ => trivial⟩
      intro f0 h
      rw [hv2 _ f0 h]
      decide

/-- C15, an instance: on a fresh engine, `insert("cat", 1)`, `log_selection("cat")`,
`insert("cat", 9)`. -/
theorem C15_frequencies_do_not_decrease_witness :
    ∃ t', run Trie.empty [Op.insert "cat".toList 1, Op.log_selection "cat".toList,
        Op.insert "cat".toList 9] = some t' ∧
      run_keeps_order Trie.empty [Op.insert "cat".toList 1, Op.log_selection "cat".toList,
        Op.insert "cat".toList 9] ∧
      ((∀ w f, (w, f) ∈ vocabulary Trie.empty → ∃ f', (w, f') ∈ vocabulary t' ∧ f ≤ f') ∧
        ((∀ w f, (w, f) ∈ vocabulary Trie.empty → 0 ≤ f) →
          ∀ w f, (w, f) ∈ vocabulary t' → 0 ≤ f)) := by
  obtain ⟨t', ht'⟩ := run_scenario_cat
  exact ⟨t', ht', run_keeps_order_scenario_cat,
    C15_frequencies_do_not_decrease _ Trie.empty t' ht' run_keeps_order_scenario_cat⟩

/-- C15 as stated fails: `insert` overwrites, so re-inserting `a` with the frequency 3
after the frequency 5 lowers it, and inserting with the frequency -1 stores a negative
frequency. -/
theorem C15_counterexample_reinsertion :
    (run Trie.empty [Op.insert "a".toList 5]).map vocabulary = some [("a".toList, 5)] ∧
    (run Trie.empty [Op.insert "a".toList 5, Op.insert "a".toList 3]).map vocabulary =
      some [("a".toList, 3)] ∧
    (run Trie.empty [Op.insert "a".toList (-1)]).map vocabulary = some [("a".toList, -1)] := by
  decide


/-! ## C16: the prefix query -/

/-- C16: for every trie and lowercase prefix `p`, `get_words_with_prefix(p)` returns a list
that holds exactly the vocabulary entries whose word starts with `p`, each with its stored
frequency, in strictly ascending lexicographic order of word, hence each once. -/
theorem C16_prefix_query_lists_matching_words_in_order (t : Trie) (p : List Char)
    (hp : lowercase p) :
    ∃ all, get_words_with_prefix t p = some all ∧
      (∀ w f, (w, f) ∈ all ↔ (t.root.lookup w = some f ∧ p <+: w)) ∧
      (∀ w f, (w, f) ∈ all ↔ ((w, f) ∈ vocabulary t ∧ p <+: w)) ∧
      all.Pairwise (fun a b => a.1 < b.1) ∧
      (all.map Prod.fst).Nodup := by
  obtain ⟨all, hall, hsorted, hmem⟩ := mem_get_words_with_prefix t p hp
  refine ⟨all, hall, ?_, hmem, hsorted, ?_⟩
  · intro w f
    rw [hmem, mem_vocabulary]
  · rw [List.Nodup, List.pairwise_map]
    exact hsorted.imp (fun h => ne_of_lt h)

set_option maxRecDepth 100000 in
theorem prefix_query_scenario :
    get_words_with_prefix
      (build [("b".toList, 2), ("apply".toList, 3), ("ape".toList, 1), ("apple".toList, 10)])
      "app".toList = some [("apple".toList, 10), ("apply".toList, 3)] := by
  decide

/-- C16, an instance: with the vocabulary `b:2, apply:3, ape:1, apple:10` the query for
`app` returns `apple:10, apply:3`. -/
theorem C16_prefix_query_lists_matching_words_in_order_witness :
    lowercase "app".toList ∧
    get_words_with_prefix
      (build [("b".toList, 2), ("apply".toList, 3), ("ape".toList, 1), ("apple".toList, 10)])
      "app".toList = some [("apple".toList, 10), ("apply".toList, 3)] ∧
    ∃ all, get_words_with_prefix
        (build [("b".toList, 2), ("apply".toList, 3), ("ape".toList, 1), ("apple".toList, 10)])
        "app".toList = some all ∧
      (∀ w f, (w, f) ∈ all ↔
        ((build [("b".toList, 2), ("apply".toList, 3), ("ape".toList, 1),
            ("apple".toList, 10)]).root.lookup w = some f ∧ "app".toList <+: w)) ∧
      (∀ w f, (w, f) ∈ all ↔
        ((w, f) ∈ vocabulary (build [("b".toList, 2), ("apply".toList, 3),
            ("ape".toList, 1), ("apple".toList, 10)]) ∧ "app".toList <+: w)) ∧
      all.Pairwise (fun a b => a.1 < b.1) ∧
      (all.map Prod.fst).Nodup :=
  ⟨by decide, prefix_query_scenario,
    C16_prefix_query_lists_matching_words_in_order
      (build [("b".toList, 2), ("apply".toList, 3), ("ape".toList, 1), ("apple".toList, 10)])
      "app".toList (by decide)⟩

/-! ## C17: the text written by `save_to_file` -/

/-- The text written for an `int` is its decimal representation: a `-` for a negative
value, then a non-empty run of digits whose value is the absolute value. -/
theorem int_to_chars_decimal (n : Int) :
    ∃ digits, int_to_chars n = (if n < 0 then ['-'] else []) ++ digits ∧ digits ≠ [] ∧
      (∀ d ∈ digits, d.isDigit = true) ∧ digits_value digits = n.natAbs := by
  obtain ⟨hne, hdig, hval⟩ := toDigits_spec n.natAbs
  refine ⟨Nat.toDigits 10 n.natAbs, ?_, hne, hdig, hval⟩
  unfold int_to_chars
  by_cases h : n < 0 <;> simp [h]

set_option maxRecDepth 100000 in
theorem save_scenario :
    save_to_file (build [("b".toList, 0), ("apply".toList, -3), ("apple".toList, 10)]) =
      "apple 10\napply -3\nb 0\n".toList := by
  decide

/-- C17: for every trie, the text produced by `save_to_file` is the concatenation, over the
vocabulary entries in ascending lexicographic order of word, of the line
`<word> <frequency>` terminated by a newline, with the frequency in base 10, and nothing
else.  For instance the vocabulary `b:0, apply:-3, apple:10` is written as the three lines
`apple 10`, `apply -3`, `b 0`. -/
theorem C17_save_writes_sorted_lines :
    (∀ t : Trie, ∃ entries : List (List Char × Int),
      save_to_file t =
        entries.flatMap (fun e => e.1 ++ [' '] ++ int_to_chars e.2 ++ ['\n']) ∧
      (∀ w f, (w, f) ∈ entries ↔ t.root.lookup w = some f) ∧
      entries = vocabulary t ∧
      entries.Pairwise (fun a b => a.1 < b.1)) ∧
    (∀ n : Int, ∃ digits, int_to_chars n = (if n < 0 then ['-'] else []) ++ digits ∧
      digits ≠ [] ∧ (∀ d ∈ digits, d.isDigit = true) ∧ digits_value digits = n.natAbs) ∧
    save_to_file (build [("b".toList, 0), ("apply".toList, -3), ("apple".toList, 10)]) =
      "apple 10\napply -3\nb 0\n".toList := by
  refine ⟨?_, int_to_chars_decimal, save_scenario⟩
  intro t
  refine ⟨vocabulary t, ?_, fun w f => mem_vocabulary t w f, rfl, ?_⟩
  · rw [save_to_file_eq]
    congr 1
    funext e
    simp [entry_line]
  · unfold vocabulary
    rw [collect_all_words_eq_dfs]
    exact dfs_sorted t.root []

/-! ## C19: the score -/

/-- C19: every record returned by `get_ranked_fuzzy_matches(input, maxEdits, alpha)` has
`score = frequency - alpha * edit_distance`; with the default `alpha = 1` the score is
`frequency - edit_distance`. -/
theorem C19_score_formula (t : Trie) (input : List Char) (maxEdits : Int) :
    (∀ alpha : Int, ∀ m ∈ get_ranked_fuzzy_matches t input maxEdits alpha,
      m.score = m.frequency - alpha * m.edit_distance) ∧
    (∀ m ∈ get_ranked_fuzzy_matches t input maxEdits,
      m.score = m.frequency - m.edit_distance) := by
  constructor
  · intro alpha m hm
    obtain ⟨f, _, _, hmeq⟩ := (mem_get_ranked_fuzzy_matches t input maxEdits alpha m).1 hm
    rw [hmeq]
  · intro m hm
    obtain ⟨f, _, _, hmeq⟩ := (mem_get_ranked_fuzzy_matches t input maxEdits 1 m).1 hm
    rw [hmeq]
    simp


/-! ## C18: loading a file -/

theorem dropWhile_head_not {p : Char → Bool} (l : List Char) {c : Char} {r : List Char}
    (h : l.dropWhile p = c :: r) : p c = false := by
  induction l with
  | nil => simp at h
  | cons a l ih =>
    by_cases ha : p a = true
    · rw [List.dropWhile_cons_of_pos ha] at h
      exact ih h
    · rw [List.dropWhile_cons_of_neg ha] at h
      simp only [List.cons.injEq] at h
      rw [← h.1]
      simpa using ha

theorem dropWhile_nil_or_stop (p : Char → Bool) (l : List Char) :
    l.dropWhile p = [] ∨ ∃ c r, l.dropWhile p = c :: r ∧ p c = false := by
  cases h : l.dropWhile p with
  | nil => exact Or.inl rfl
  | cons c r => exact Or.inr ⟨c, r, rfl, dropWhile_head_not l h⟩

theorem takeWhile_all (p : Char → Bool) (l : List Char) : ∀ c ∈ l.takeWhile p, p c = true :=
  fun _ hc => List.mem_takeWhile_imp hc

/-- A prefix whose characters all satisfy `p`, followed by nothing or by a character that
does not, is what `takeWhile p` takes and `dropWhile p` leaves. -/
theorem takeWhile_dropWhile_append {p : Char → Bool} (l r : List Char)
    (hl : ∀ c ∈ l, p c = true) (hr : r = [] ∨ ∃ c r', r = c :: r' ∧ p c = false) :
    (l ++ r).takeWhile p = l ∧ (l ++ r).dropWhile p = r := by
  rcases hr with rfl | ⟨c, r', rfl, hc⟩
  · rw [List.append_nil]
    exact ⟨List.takeWhile_eq_self_iff.2 hl, List.dropWhile_eq_nil_iff.2 hl⟩
  · exact ⟨takeWhile_append_stop l c r' hl hc, dropWhile_append_stop l c r' hl hc⟩

/-- What a successful extraction of a word says about the stream. -/
theorem read_word_some {s w rest : List Char} (h : read_word s = some (w, rest)) :
    ∃ pre, s = pre ++ (w ++ rest) ∧ (∀ c ∈ pre, isspace c = true) ∧ w ≠ [] ∧
      (∀ c ∈ w, isspace c = false) ∧
      (rest = [] ∨ ∃ c r, rest = c :: r ∧ isspace c = true) := by
  unfold read_word at h
  cases hd : s.dropWhile isspace with
  | nil => simp [hd] at h
  | cons c r =>
    simp only [hd, Option.some.injEq, Prod.mk.injEq] at h
    obtain ⟨hw, hrest⟩ := h
    have hc : isspace c = false := dropWhile_head_not s hd
    refine ⟨s.takeWhile isspace, ?_, takeWhile_all isspace s, ?_, ?_, ?_⟩
    · rw [← hw, ← hrest, List.takeWhile_append_dropWhile, ← hd,
        List.takeWhile_append_dropWhile]
    · rw [← hw, List.takeWhile_cons_of_pos (by simp [hc])]
      simp
    · intro x hx
      rw [← hw] at hx
      have := takeWhile_all (fun x => !isspace x) (c :: r) x hx
      simpa using this
    · rw [← hrest]
      rcases dropWhile_nil_or_stop (fun x => !isspace x) (c :: r) with h0 | ⟨c', r', h1, h2⟩
      · exact Or.inl h0
      · exact Or.inr ⟨c', r', h1, by simpa using h2⟩

theorem read_word_none {s : List Char} (h : read_word s = none) :
    ∀ c ∈ s, isspace c = true := by
  unfold read_word at h
  cases hd : s.dropWhile isspace with
  | nil => exact List.dropWhile_eq_nil_iff.1 hd
  | cons c r => simp [hd] at h

theorem ws_tokens_from_cons_space (c : Char) (r cur : List Char) (hc : isspace c = true) :
    ws_tokens_from (c :: r) cur =
      if cur = [] then ws_tokens_from r [] else cur :: ws_tokens_from r [] := by
  rw [ws_tokens_from]
  simp only [hc, if_true]

theorem ws_tokens_from_cons_other (c : Char) (r cur : List Char) (hc : isspace c = false) :
    ws_tokens_from (c :: r) cur = ws_tokens_from r (cur ++ [c]) := by
  rw [ws_tokens_from]
  simp only [hc, Bool.false_eq_true, if_false]

theorem ws_tokens_from_space (pre s : List Char) (hpre : ∀ c ∈ pre, isspace c = true) :
    ws_tokens_from (pre ++ s) [] = ws_tokens_from s [] := by
  induction pre with
  | nil => rfl
  | cons a pre ih =>
    rw [List.cons_append, ws_tokens_from_cons_space a _ _ (hpre a (List.mem_cons_self _ _))]
    simp only [if_true]
    exact ih (fun c hc => hpre c (List.mem_cons_of_mem _ hc))

theorem ws_tokens_from_word (w : List Char) (hw : ∀ c ∈ w, isspace c = false) :
    ∀ (rest cur : List Char), ws_tokens_from (w ++ rest) cur = ws_tokens_from rest (cur ++ w) := by
  induction w with
  | nil => intro rest cur; simp
  | cons a w ih =>
    intro rest cur
    rw [List.cons_append, ws_tokens_from_cons_other a _ _ (hw a (List.mem_cons_self _ _)),
      ih (fun c hc => hw c (List.mem_cons_of_mem _ hc))]
    simp

theorem ws_tokens_from_end (rest cur : List Char) (hcur : cur ≠ [])
    (hrest : rest = [] ∨ ∃ c r, rest = c :: r ∧ isspace c = true) :
    ws_tokens_from rest cur = cur :: ws_tokens_from rest [] := by
  rcases hrest with rfl | ⟨c, r, rfl, hc⟩
  · simp [ws_tokens_from, hcur]
  · rw [ws_tokens_from_cons_space c r cur hc, ws_tokens_from_cons_space c r [] hc]
    simp [hcur]

/-- A word that is read is the first token, and the tokens of the rest of the stream are
the other tokens. -/
theorem ws_tokens_of_read_word {s w rest : List Char} (h : read_word s = some (w, rest)) :
    ws_tokens s = w :: ws_tokens rest := by
  obtain ⟨pre, hs, hpre, hne, hw, hrest⟩ := read_word_some h
  unfold ws_tokens
  rw [hs, ws_tokens_from_space pre _ hpre, ws_tokens_from_word w hw, List.nil_append,
    ws_tokens_from_end rest w hne hrest]

theorem ws_tokens_of_space {s : List Char} (h : ∀ c ∈ s, isspace c = true) :
    ws_tokens s = [] := by
  unfold ws_tokens
  have := ws_tokens_from_space s [] h
  rw [List.append_nil] at this
  rw [this]
  rfl

theorem ws_tokens_from_length (s : List Char) :
    ∀ cur, (ws_tokens_from s cur).length ≤ s.length + 1 ∧
      (cur = [] → (ws_tokens_from s cur).length ≤ s.length) := by
  induction s with
  | nil =>
    intro cur
    by_cases h : cur = [] <;> simp [ws_tokens_from, h]
  | cons c r ih =>
    intro cur
    have h0 := (ih []).2 rfl
    have h1 := (ih (cur ++ [c])).1
    by_cases hc : isspace c = true
    · rw [ws_tokens_from_cons_space c r cur hc]
      by_cases h : cur = []
      · simp only [h, if_true, List.length_cons]
        exact ⟨by omega, fun _ => by omega⟩
      · refine ⟨?_, fun h' => (h h').elim⟩
        simp only [h, if_false, List.length_cons]
        omega
    · have hc' : isspace c = false := by simpa using hc
      rw [ws_tokens_from_cons_other c r cur hc']
      simp only [List.length_cons]
      exact ⟨by omega, fun _ => by omega⟩

theorem ws_tokens_length (s : List Char) : (ws_tokens s).length ≤ s.length :=
  (ws_tokens_from_length s []).2 rfl


theorem read_int_eq (s : List Char) :
    read_int s =
      match (split_sign (s.dropWhile isspace)).2.takeWhile Char.isDigit with
      | [] => none
      | d :: ds =>
        if INT_MIN ≤ signed_value (split_sign (s.dropWhile isspace)).1 (d :: ds) ∧
            signed_value (split_sign (s.dropWhile isspace)).1 (d :: ds) ≤ INT_MAX then
          some (signed_value (split_sign (s.dropWhile isspace)).1 (d :: ds),
            (split_sign (s.dropWhile isspace)).2.dropWhile Char.isDigit)
        else none := rfl

theorem split_sign_append (tok rest : List Char) (h : tok ≠ []) :
    split_sign (tok ++ rest) = ((split_sign tok).1, (split_sign tok).2 ++ rest) := by
  cases tok with
  | nil => exact absurd rfl h
  | cons c r =>
    by_cases h1 : c = '-'
    · subst h1; rfl
    · by_cases h2 : c = '+'
      · subst h2; rfl
      · have e1 : ∀ l, split_sign (c :: l) = (false, c :: l) := by
          intro l
          unfold split_sign
          split
          · rename_i heq; simp only [List.cons.injEq] at heq; exact absurd heq.1 h1
          · rename_i heq; simp only [List.cons.injEq] at heq; exact absurd heq.1 h2
          · rfl
        rw [List.cons_append, e1, e1]
        rfl

theorem takeWhile_dropWhile_append_stop {p : Char → Bool} (l r : List Char)
    (hr : r = [] ∨ ∃ c r', r = c :: r' ∧ p c = false) :
    (l ++ r).takeWhile p = l.takeWhile p ∧ (l ++ r).dropWhile p = l.dropWhile p ++ r := by
  induction l with
  | nil =>
    rcases hr with rfl | ⟨c, r', rfl, hc⟩
    · simp
    · simp [List.takeWhile_cons, List.dropWhile_cons, hc]
  | cons a l ih =>
    by_cases ha : p a = true
    · simp only [List.cons_append, List.takeWhile_cons_of_pos ha,
        List.dropWhile_cons_of_pos ha, ih.1, ih.2, and_self]
    · simp only [List.cons_append, List.takeWhile_cons_of_neg ha,
        List.dropWhile_cons_of_neg ha, and_self]

theorem isspace_not_digit {c : Char} (h : isspace c = true) : c.isDigit = false := by
  cases hd : c.isDigit with
  | false => rfl
  | true => rw [(isDigit_not_special hd).1] at h; exact absurd h (by decide)

theorem takeWhile_length_lt {p : Char → Bool} (l : List Char) (h : ¬ ∀ c ∈ l, p c = true) :
    (l.takeWhile p).length < l.length := by
  rcases Nat.lt_or_ge (l.takeWhile p).length l.length with h1 | h1
  · exact h1
  · have e : l.takeWhile p = l :=
      (List.takeWhile_prefix p).eq_of_length
        (Nat.le_antisymm (List.takeWhile_prefix p).length_le h1)
    exact absurd (List.takeWhile_eq_self_iff.1 e) h

/-- The extraction of an `int` where the next token is `tok`: unless the token is an `int`
followed by further characters, the extraction succeeds exactly when the whole token is an
`int`, and it consumes the token. -/
theorem read_int_token (pre tok rest : List Char) (hpre : ∀ c ∈ pre, isspace c = true)
    (hne : tok ≠ []) (htok : ∀ c ∈ tok, isspace c = false)
    (hrest : rest = [] ∨ ∃ c r, rest = c :: r ∧ isspace c = true)
    (hclean : int_then_more tok = false) :
    read_int (pre ++ (tok ++ rest)) = (int_of_token tok).map (fun f => (f, rest)) := by
  have hskip : (pre ++ (tok ++ rest)).dropWhile isspace = tok ++ rest := by
    obtain ⟨c, r, rfl⟩ := List.exists_cons_of_ne_nil hne
    exact dropWhile_append_stop pre c (r ++ rest) hpre (htok c (List.mem_cons_self _ _))
  have hstop : rest = [] ∨ ∃ c r, rest = c :: r ∧ c.isDigit = false := by
    rcases hrest with h | ⟨c, r, h, hc⟩
    · exact Or.inl h
    · exact Or.inr ⟨c, r, h, isspace_not_digit hc⟩
  obtain ⟨htake, hdrop⟩ := takeWhile_dropWhile_append_stop (split_sign tok).2 rest hstop
  rw [read_int_eq, hskip, split_sign_append tok rest hne]
  simp only [htake, hdrop]
  unfold int_of_token
  unfold int_then_more at hclean
  generalize (split_sign tok).1 = sg at hclean ⊢
  generalize (split_sign tok).2 = ds at hclean ⊢
  by_cases hall : ∀ d ∈ ds, d.isDigit = true
  · have e1 : ds.takeWhile Char.isDigit = ds := List.takeWhile_eq_self_iff.2 hall
    have e2 : ds.dropWhile Char.isDigit = [] := List.dropWhile_eq_nil_iff.2 hall
    rw [e1, e2]
    cases ds with
    | nil => simp
    | cons d ds' =>
      by_cases hr : INT_MIN ≤ signed_value sg (d :: ds') ∧ signed_value sg (d :: ds') ≤ INT_MAX
      · have hc : (d :: ds' ≠ [] ∧ (∀ x ∈ d :: ds', x.isDigit = true) ∧
            INT_MIN ≤ signed_value sg (d :: ds') ∧ signed_value sg (d :: ds') ≤ INT_MAX) :=
          ⟨by simp, hall, hr⟩
        simp only [if_pos hr, if_pos hc, Option.map_some', List.nil_append]
      · have hc : ¬ (d :: ds' ≠ [] ∧ (∀ x ∈ d :: ds', x.isDigit = true) ∧
            INT_MIN ≤ signed_value sg (d :: ds') ∧ signed_value sg (d :: ds') ≤ INT_MAX) :=
          fun h => hr h.2.2
        simp only [if_neg hr, if_neg hc, Option.map_none']
  · have hlt := takeWhile_length_lt ds hall
    have hc : ¬ (ds ≠ [] ∧ (∀ x ∈ ds, x.isDigit = true) ∧
        INT_MIN ≤ signed_value sg ds ∧ signed_value sg ds ≤ INT_MAX) := fun h => hall h.2.1
    rw [if_neg hc, Option.map_none']
    cases hp : ds.takeWhile Char.isDigit with
    | nil => rfl
    | cons d ds' =>
      rw [hp] at hclean hlt
      have hr : ¬ (INT_MIN ≤ signed_value sg (d :: ds') ∧
          signed_value sg (d :: ds') ≤ INT_MAX) := by
        intro hr
        have : decide (d :: ds' ≠ [] ∧ (d :: ds').length < ds.length ∧
            INT_MIN ≤ signed_value sg (d :: ds') ∧
            signed_value sg (d :: ds') ≤ INT_MAX) = true :=
          decide_eq_true ⟨by simp, hlt, hr⟩
        rw [this] at hclean
        exact absurd hclean (by decide)
      simp only [if_neg hr]

theorem read_int_whitespace {s : List Char} (h : ∀ c ∈ s, isspace c = true) :
    read_int s = none := by
  rw [read_int_eq, List.dropWhile_eq_nil_iff.2 h]
  rfl

/-- The loop of `load_from_file` inserts the (word, frequency) token pairs of the stream, in
order, when no token in a frequency position is an `int` followed by further characters. -/
theorem load_loop_token_pairs (fuel : Nat) : ∀ (t : Trie) (s : List Char),
    (ws_tokens s).length ≤ fuel → frequency_tokens_clean (ws_tokens s) = true →
    load_loop fuel t s = (token_pairs (ws_tokens s)).foldl (fun t p => insert t p.1 p.2) t := by
  induction fuel with
  | zero =>
    intro t s hlen _
    have e : ws_tokens s = [] := List.length_eq_zero.1 (Nat.le_zero.1 hlen)
    rw [e]
    rfl
  | succ fuel ih =>
    intro t s hlen hclean
    cases hw : read_word s with
    | none =>
      rw [ws_tokens_of_space (read_word_none hw)]
      simp only [load_loop, hw]
      rfl
    | some p =>
      obtain ⟨word, s1⟩ := p
      have e1 := ws_tokens_of_read_word hw
      cases hn : read_word s1 with
      | none =>
        have hsp := read_word_none hn
        rw [e1, ws_tokens_of_space hsp]
        simp only [load_loop, hw, read_int_whitespace hsp]
        rfl
      | some q =>
        obtain ⟨tok, s2⟩ := q
        have e2 := ws_tokens_of_read_word hn
        obtain ⟨pre, hs1, hpre, hne, htok, hrest⟩ := read_word_some hn
        rw [e1, e2] at hlen hclean ⊢
        simp only [frequency_tokens_clean, Bool.and_eq_true, Bool.not_eq_true'] at hclean
        have hint := read_int_token pre tok s2 hpre hne htok hrest hclean.1
        rw [← hs1] at hint
        simp only [load_loop, hw, hint, token_pairs]
        cases hf : int_of_token tok with
        | none => rfl
        | some f =>
          simp only [Option.map_some', List.foldl_cons]
          exact ih _ _ (by simp only [List.length_cons] at hlen; omega) hclean.2


set_option maxRecDepth 100000 in
theorem load_scenario_clean :
    frequency_tokens_clean (ws_tokens "a 1\nb -2\t c +3 d 007 a 9 e".toList) = true ∧
    token_pairs (ws_tokens "a 1\nb -2\t c +3 d 007 a 9 e".toList) =
      [("a".toList, 1), ("b".toList, -2), ("c".toList, 3), ("d".toList, 7),
        ("a".toList, 9)] ∧
    vocabulary (load_from_file Trie.empty (some "a 1\nb -2\t c +3 d 007 a 9 e".toList)) =
      [("a".toList, 9), ("b".toList, -2), ("c".toList, 3), ("d".toList, 7)] := by
  decide

set_option maxRecDepth 100000 in
theorem load_scenario_glued :
    ws_tokens "a 12b 3".toList = ["a".toList, "12b".toList, "3".toList] ∧
    int_of_token "12b".toList = none ∧
    token_pairs (ws_tokens "a 12b 3".toList) = [] ∧
    vocabulary (spec_load_from_file Trie.empty (some "a 12b 3".toList)) = [] ∧
    vocabulary (load_from_file Trie.empty (some "a 12b 3".toList)) =
      [("a".toList, 12), ("b".toList, 3)] := by
  decide

/-- C18, amended: for every readable content in which no token in a frequency position is
an `int` followed by further characters, `load_from_file` has the effect of the
specification's loading: `insert(word, frequency)` is called for each whitespace-delimited
(word, integer-frequency) token pair in file order, up to the end of the input or the first
pair whose second token is not an `int`; a file that cannot be opened leaves the trie as it
is. -/
theorem C18_load_inserts_token_pairs (t : Trie) (s : List Char)
    (hclean : frequency_tokens_clean (ws_tokens s) = true) :
    load_from_file t (some s) = spec_load_from_file t (some s) ∧
    load_from_file t (some s) =
      (token_pairs (ws_tokens s)).foldl (fun t p => insert t p.1 p.2) t ∧
    load_from_file t none = t :=
  ⟨load_loop_token_pairs s.length t s (ws_tokens_length s) hclean,
    load_loop_token_pairs s.length t s (ws_tokens_length s) hclean, rfl⟩

/-- C18, an instance: a content with two lines, a tab, signs, leading zeros, a repeated word
and a trailing word without frequency is loaded as its token pairs. -/
theorem C18_load_inserts_token_pairs_witness :
    frequency_tokens_clean (ws_tokens "a 1\nb -2\t c +3 d 007 a 9 e".toList) = true ∧
    load_from_file Trie.empty (some "a 1\nb -2\t c +3 d 007 a 9 e".toList) =
      spec_load_from_file Trie.empty (some "a 1\nb -2\t c +3 d 007 a 9 e".toList) ∧
    load_from_file Trie.empty (some "a 1\nb -2\t c +3 d 007 a 9 e".toList) =
      (token_pairs (ws_tokens "a 1\nb -2\t c +3 d 007 a 9 e".toList)).foldl
        (fun t p => insert t p.1 p.2) Trie.empty ∧
    load_from_file Trie.empty none = Trie.empty :=
  ⟨load_scenario_clean.1,
    C18_load_inserts_token_pairs Trie.empty "a 1\nb -2\t c +3 d 007 a 9 e".toList
      load_scenario_clean.1⟩

/-- C18 as stated fails for the content `a 12b 3`: its whitespace-delimited tokens are `a`,
`12b` and `3`, and `12b` is not an integer, so there is no (word, integer-frequency) token
pair to insert; `load_from_file` stops reading the frequency at `b`, inserts `a` with 12,
then reads `b` as the next word and inserts it with 3. -/
theorem C18_counterexample_glued_token :
    ws_tokens "a 12b 3".toList = ["a".toList, "12b".toList, "3".toList] ∧
    int_of_token "12b".toList = none ∧
    token_pairs (ws_tokens "a 12b 3".toList) = [] ∧
    vocabulary (spec_load_from_file Trie.empty (some "a 12b 3".toList)) = [] ∧
    vocabulary (load_from_file Trie.empty (some "a 12b 3".toList)) =
      [("a".toList, 12), ("b".toList, 3)] :=
  load_scenario_glued


/-! ## C20: the suggestion call -/

theorem get_top_k_fuzzy_matches_sub (t : Trie) (input : List Char) (maxEdits k : Int)
    (pw : List (List Char)) (res : List FuzzyMatch)
    (hpw : get_top_k_with_prefix t input k = some pw)
    (hres : get_top_k_fuzzy_matches t input maxEdits k = some res) :
    ∀ m ∈ res, m ∈ prefix_filter pw (get_ranked_fuzzy_matches t input maxEdits) := by
  intro m hm
  simp only [get_top_k_fuzzy_matches, hpw] at hres
  by_cases hgt : ((prefix_filter pw (get_ranked_fuzzy_matches t input maxEdits)).length : Int) > k
  · simp only [hgt, if_true] at hres
    by_cases hneg : k < 0
    · simp [hneg] at hres
    · simp only [hneg, if_false, Option.some.injEq] at hres
      rw [← hres] at hm
      exact List.mem_of_mem_take hm
  · simp only [hgt, if_false, Option.some.injEq] at hres
    rw [← hres] at hm
    exact hm

theorem get_top_k_fuzzy_matches_none (t : Trie) (input : List Char) (maxEdits k : Int)
    (hpw : get_top_k_with_prefix t input k = none) :
    get_top_k_fuzzy_matches t input maxEdits k = none := by
  simp only [get_top_k_fuzzy_matches, hpw]

theorem prefix_checking_all (S : List (List Char)) (l : List FuzzyMatch)
    (h : ∀ m ∈ l, m.word ∈ S) :
    prefix_checking S l = l.map (fun m => { m with score := m.score + 200 }) := by
  induction l with
  | nil => rfl
  | cons m rest ih =>
    have hm : m.word ∈ S := h m (List.mem_cons_self _ _)
    simp only [prefix_checking, hm, if_true, List.map_cons]
    rw [ih (fun x hx => h x (List.mem_cons_of_mem _ hx))]

theorem mem_prefix_filter_word {S : List (List Char)} {l : List FuzzyMatch} {m : FuzzyMatch}
    (h : m ∈ prefix_filter S l) : m.word ∈ l.map FuzzyMatch.word := by
  have : m.word ∈ (prefix_filter S l).map FuzzyMatch.word := List.mem_map_of_mem _ h
  rw [prefix_filter_words, List.mem_filter] at this
  exact this.1

/-- The suggestion is the word of the first element of the filtered fuzzy matches, or the
empty string when there is none; when the empty word is not in the vocabulary, the empty
string is returned exactly when the list is empty. -/
theorem show_suggestions_eq (t : Trie) (input : List Char) :
    show_suggestions t input =
      (get_top_k_fuzzy_matches t input MAX_EDITS TOP_K).map first_word_or_empty ∧
    ((∀ f, ([], f) ∉ vocabulary t) →
      ∀ res, get_top_k_fuzzy_matches t input MAX_EDITS TOP_K = some res →
        (show_suggestions t input = some [] ↔ res = [])) := by
  cases hpw : get_top_k_with_prefix t input TOP_K with
  | none =>
    have hnone := get_top_k_fuzzy_matches_none t input MAX_EDITS TOP_K hpw
    constructor
    · simp only [show_suggestions, hnone, Option.map_none']
    · intro _ res hres
      rw [hnone] at hres
      cases hres
  | some pw =>
    cases hres : get_top_k_fuzzy_matches t input MAX_EDITS TOP_K with
    | none =>
      constructor
      · simp only [show_suggestions, hres, Option.map_none']
      · intro _ res hres'
        cases hres'
    | some res =>
      have hsub := get_top_k_fuzzy_matches_sub t input MAX_EDITS TOP_K pw res hpw hres
      have hall : ∀ m ∈ res, m.word ∈ pw := fun m hm => mem_prefix_filter (hsub m hm)
      have hshow : show_suggestions t input = some (first_word_or_empty res) := by
        simp only [show_suggestions, hres, hpw]
        rw [prefix_checking_all pw res hall]
        cases res with
        | nil => rfl
        | cons m rest => rfl
      constructor
      · rw [hshow]; rfl
      · intro hne res' hres'
        cases hres'
        rw [hshow]
        cases res with
        | nil => simp [first_word_or_empty]
        | cons m rest =>
          simp only [first_word_or_empty, Option.some.injEq, List.cons_ne_nil, iff_false]
          intro hw
          have hmw := mem_prefix_filter_word (hsub m (List.mem_cons_self _ _))
          rw [List.mem_map] at hmw
          obtain ⟨m', hm', hmm'⟩ := hmw
          obtain ⟨f, hv, _, _⟩ := (mem_get_ranked_fuzzy_matches t input MAX_EDITS 1 m').1 hm'
          rw [hmm', hw] at hv
          exact hne f hv

/-- C20, the failing input: the vocabulary holds the empty word (stored by
`insert("42", 1)`) and the input is the empty string.  The filtered list of fuzzy matches
is not empty, its first element is the empty word, and `show_suggestions` returns the
empty string, the answer for "no suggestion". -/
theorem C20_empty_suggestion_with_nonempty_list :
    vocabulary (build [("42".toList, 1)]) = [([], 1)] ∧
    get_top_k_fuzzy_matches (build [("42".toList, 1)]) [] MAX_EDITS TOP_K =
      some [⟨[], 1, 0, 11⟩] ∧
    get_top_k_with_prefix (build [("42".toList, 1)]) [] TOP_K = some [[]] ∧
    prefix_checking [[]] [⟨[], 1, 0, 11⟩] = [⟨[], 1, 0, 211⟩] ∧
    show_suggestions (build [("42".toList, 1)]) [] = some [] := by
  decide


/-! ## C21: a file that cannot be opened -/

/-- C21: if the storage file cannot be opened, `load_from_file` returns with the trie as it
was (no `insert` is performed); a fresh engine still has an empty vocabulary afterwards. -/
theorem C21_load_of_unopened_file_is_noop :
    (∀ t : Trie, load_from_file t none = t) ∧
    (∀ t : Trie, vocabulary (load_from_file t none) = vocabulary t) ∧
    vocabulary (load_from_file Trie.empty none) = [] :=
  ⟨fun _ => rfl, fun _ => rfl, vocabulary_empty⟩

/-! ## C22: a prefix without a path -/

theorem top_k_loop_nil (n : Nat) : top_k_loop n [] = [] := by
  cases n <;> rfl

theorem get_top_k_with_prefix_of_nil (t : Trie) (p : List Char) (k : Int)
    (h : get_words_with_prefix t p = some []) : get_top_k_with_prefix t p k = some [] := by
  simp only [ get_top_k_with_prefix, h, top_k_loop_nil]

theorem get_words_with_prefix_of_walk_none (t : Trie) (p : List Char) (hp : lowercase p)
    (h : t.root.walk p = none) : get_words_with_prefix t p = some [] := by
  unfold get_words_with_prefix
  rw [words_from_lowercase p t.root p hp, h]

theorem get_words_with_prefix_of_no_word (t : Trie) (p : List Char) (hp : lowercase p)
    (h : ∀ w f, (w, f) ∈ vocabulary t → ¬ p <+: w) : get_words_with_prefix t p = some [] := by
  obtain ⟨all, hall, _, hmem⟩ := mem_get_words_with_prefix t p hp
  rw [hall]
  cases all with
  | nil => rfl
  | cons e es =>
    have := (hmem e.1 e.2).1 (List.mem_cons_self _ _)
    exact absurd this.2 (h _ _ this.1)

/-- C22: for every trie and lowercase prefix `p`, if the descent fails at some character, or
more generally if no vocabulary word starts with `p`, then `get_words_with_prefix(p)`
returns the empty list and `get_top_k_with_prefix(p, k)` returns the empty list for every
`k`; no fault is raised.  A failed descent means that no vocabulary word starts with
`p`. -/
theorem C22_broken_path_gives_empty_result (t : Trie) (p : List Char) (hp : lowercase p) :
    (t.root.walk p = none →
      get_words_with_prefix t p = some [] ∧ ∀ k, get_top_k_with_prefix t p k = some []) ∧
    ((∀ w f, (w, f) ∈ vocabulary t → ¬ p <+: w) →
      get_words_with_prefix t p = some [] ∧ ∀ k, get_top_k_with_prefix t p k = some []) ∧
    (t.root.walk p = none → ∀ w f, (w, f) ∈ vocabulary t → ¬ p <+: w) := by
  refine ⟨fun h => ?_, fun h => ?_, ?_⟩
  · have h0 := get_words_with_prefix_of_walk_none t p hp h
    exact ⟨h0, fun k => get_top_k_with_prefix_of_nil t p k h0⟩
  · have h0 := get_words_with_prefix_of_no_word t p hp h
    exact ⟨h0, fun k => get_top_k_with_prefix_of_nil t p k h0⟩
  · rintro h w f hv ⟨s, rfl⟩
    rw [mem_vocabulary, lookup_append_none h] at hv
    exact absurd hv (by simp)

set_option maxRecDepth 100000 in
theorem broken_path_scenario :
    (build [("cat".toList, 1), ("cats".toList, 3)]).root.walk "cab".toList = none ∧
    get_words_with_prefix (build [("cat".toList, 1), ("cats".toList, 3)]) "cab".toList =
      some [] ∧
    get_top_k_with_prefix (build [("cat".toList, 1), ("cats".toList, 3)]) "cab".toList 3 =
      some [] := by
  refine ⟨Option.isNone_iff_eq_none.1 ?_, ?_⟩ <;> decide

/-- C22, an instance: with the vocabulary `cat:1, cats:3` the descent for `cab` fails at
`b`, and both queries return the empty list. -/
theorem C22_broken_path_gives_empty_result_witness :
    lowercase "cab".toList ∧
    (build [("cat".toList, 1), ("cats".toList, 3)]).root.walk "cab".toList = none ∧
    get_words_with_prefix (build [("cat".toList, 1), ("cats".toList, 3)]) "cab".toList =
      some [] ∧
    (∀ k, get_top_k_with_prefix (build [("cat".toList, 1), ("cats".toList, 3)])
      "cab".toList k = some []) :=
  ⟨by decide, broken_path_scenario.1,
    ((C22_broken_path_gives_empty_result (build [("cat".toList, 1), ("cats".toList, 3)])
      "cab".toList (by decide)).1 broken_path_scenario.1).1,
    ((C22_broken_path_gives_empty_result (build [("cat".toList, 1), ("cats".toList, 3)])
      "cab".toList (by decide)).1 broken_path_scenario.1).2⟩

/-! ## C23: the indices of the lookups that do not filter -/

theorem get_words_with_prefix_lowercase (t : Trie) (w : List Char) (hw : lowercase w) :
    ∃ all, get_words_with_prefix t w = some all :=
  ⟨_, words_from_lowercase w t.root w hw⟩

theorem log_selection_returns (t : Trie) (w : List Char) (hw : lowercase w) :
    ∃ t', log_selection t w = some t' := by
  obtain ⟨root', hroot⟩ := log_selection_lowercase w hw t.root
  exact ⟨⟨root'⟩, by simp only [log_selection, hroot]⟩

set_option maxRecDepth 100000 in
theorem unfiltered_lookup_scenario :
    islower 'A' = false ∧ ¬ char_index 'A' < 26 ∧
    log_selection (build [("a".toList, 1)]) "A".toList = none ∧
    get_words_with_prefix (build [("a".toList, 1)]) "A".toList = none ∧
    vocabulary (insert (build [("a".toList, 1)]) "A".toList 2) =
      [([], 2), ("a".toList, 1)] := by
  refine ⟨by decide, by decide, Option.isNone_iff_eq_none.1 ?_, ?_⟩ <;> decide

/-- C23: for every trie and every string `w` made only of the letters `a..z`, every index
`ch - 'a'` computed for a character of `w` lies in `0..25`, and `log_selection(w)` and
`get_words_with_prefix(w)` return without indexing the child array out of range.  The
precondition is needed: the character `A` has an index outside `0..25`, and both calls
index out of range for the string `A`, which `insert` would have filtered. -/
theorem C23_lowercase_lookups_index_in_range (t : Trie) (w : List Char) (hw : lowercase w) :
    (∀ ch ∈ w, char_index ch < 26) ∧
    (∃ t', log_selection t w = some t') ∧
    (∃ all, get_words_with_prefix t w = some all) ∧
    (¬ char_index 'A' < 26 ∧
      log_selection (build [("a".toList, 1)]) "A".toList = none ∧
      get_words_with_prefix (build [("a".toList, 1)]) "A".toList = none) :=
  ⟨fun ch hch => (char_index_lt_iff ch).2 (hw ch hch), log_selection_returns t w hw,
    get_words_with_prefix_lowercase t w hw, unfiltered_lookup_scenario.2.1,
    unfiltered_lookup_scenario.2.2.1, unfiltered_lookup_scenario.2.2.2.1⟩

/-- C23, an instance: the lookups of `cab` with the vocabulary `cat:1, cats:3`. -/
theorem C23_lowercase_lookups_index_in_range_witness :
    lowercase "cab".toList ∧
    (∀ ch ∈ "cab".toList, char_index ch < 26) ∧
    (∃ t', log_selection (build [("cat".toList, 1), ("cats".toList, 3)]) "cab".toList =
      some t') ∧
    (∃ all, get_words_with_prefix (build [("cat".toList, 1), ("cats".toList, 3)])
      "cab".toList = some all) ∧
    (¬ char_index 'A' < 26 ∧
      log_selection (build [("a".toList, 1)]) "A".toList = none ∧
      get_words_with_prefix (build [("a".toList, 1)]) "A".toList = none) :=
  ⟨by decide,
    C23_lowercase_lookups_index_in_range (build [("cat".toList, 1), ("cats".toList, 3)])
      "cab".toList (by decide)⟩

/-! ## C25: the exact match can be filtered out -/

set_option maxRecDepth 100000 in
theorem exact_match_scenario :
    vocabulary (build [("cat".toList, 1), ("cats".toList, 100)]) =
      [("cat".toList, 1), ("cats".toList, 100)] ∧
    get_ranked_fuzzy_matches (build [("cat".toList, 1), ("cats".toList, 100)]) "cat".toList 1 =
      [⟨"cat".toList, 1, 0, 1⟩, ⟨"cats".toList, 100, 1, 99⟩] ∧
    get_top_k_with_prefix (build [("cat".toList, 1), ("cats".toList, 100)]) "cat".toList 1 =
      some ["cats".toList] ∧
    get_top_k_fuzzy_matches (build [("cat".toList, 1), ("cats".toList, 100)]) "cat".toList 1 1 =
      some [⟨"cats".toList, 100, 1, 109⟩] := by
  decide

/-- C25: with the vocabulary `cat:1, cats:100`, the ranked fuzzy matches of `cat` within
one edit are `cat` (distance 0, first) and `cats`; the top-1 prefix match by frequency is
`cats`; so `get_top_k_fuzzy_matches("cat", 1, 1)` returns only `cats` and omits the exact
match `cat`, although `cat` is a vocabulary word and `k >= 1`. -/
theorem C25_exact_match_can_be_omitted :
    ∃ (t : Trie) (input : List Char) (maxEdits k : Int) (f : Int),
      (input, f) ∈ vocabulary t ∧ 1 ≤ k ∧
      (∃ m ∈ get_ranked_fuzzy_matches t input maxEdits, m.word = input ∧ m.edit_distance = 0) ∧
      get_top_k_with_prefix t input k = some ["cats".toList] ∧
      get_top_k_fuzzy_matches t input maxEdits k = some [⟨"cats".toList, 100, 1, 109⟩] ∧
      ∀ res, get_top_k_fuzzy_matches t input maxEdits k = some res →
        ∀ m ∈ res, m.word ≠ input := by
  refine ⟨build [("cat".toList, 1), ("cats".toList, 100)], "cat".toList, 1, 1, 1, ?_, by decide,
    ?_, exact_match_scenario.2.2.1, exact_match_scenario.2.2.2, ?_⟩
  · rw [exact_match_scenario.1]; decide
  · rw [exact_match_scenario.2.1]; decide
  · intro res hres
    rw [exact_match_scenario.2.2.2] at hres
    cases hres
    decide

/-! ## C26: insertion as a map update -/

set_option maxRecDepth 100000 in
theorem insert_update_scenario :
    vocabulary (build [("ca".toList, 1), ("cats".toList, 2)]) =
      [("ca".toList, 1), ("cats".toList, 2)] ∧
    vocabulary (insert (build [("ca".toList, 1), ("cats".toList, 2)]) "cat".toList 5) =
      [("ca".toList, 1), ("cat".toList, 5), ("cats".toList, 2)] ∧
    vocabulary (insert (build [("ca".toList, 1), ("cats".toList, 2)]) "Ca".toList 7) =
      [("a".toList, 7), ("ca".toList, 1), ("cats".toList, 2)] := by
  decide

/-- C26: `insert` is a map update on the vocabulary: after `insert(w, f)` a pair
`(w', f')` is in the vocabulary iff `w'` is the stored word of `w` (`w` without its
characters outside `a..z`) and `f' = f`, or `w'` is another word and the pair was in the
vocabulary before.  Every other word keeps its presence and frequency; in particular a
word that is a prefix or an extension of the stored word does not become and does not stop
being a vocabulary word.  For instance inserting `cat` into `ca:1, cats:2` gives
`ca:1, cat:5, cats:2`. -/
theorem C26_insert_is_map_update :
    (∀ (t : Trie) (w : List Char) (f : Int) (w' : List Char) (f' : Int),
      (w', f') ∈ vocabulary (insert t w f) ↔
        if w' = w.filter islower then f' = f else (w', f') ∈ vocabulary t) ∧
    (∀ (t : Trie) (w : List Char) (f : Int), (w.filter islower, f) ∈ vocabulary (insert t w f)) ∧
    (∀ (t : Trie) (w : List Char) (f : Int) (w' : List Char) (f' : Int),
      w' ≠ w.filter islower →
        ((w', f') ∈ vocabulary (insert t w f) ↔ (w', f') ∈ vocabulary t)) ∧
    (∀ (t : Trie) (w : List Char) (f : Int) (w' : List Char),
      w' ≠ w.filter islower → (w' <+: w.filter islower ∨ w.filter islower <+: w') →
        ((∃ f', (w', f') ∈ vocabulary (insert t w f)) ↔ ∃ f', (w', f') ∈ vocabulary t)) ∧
    vocabulary (insert (build [("ca".toList, 1), ("cats".toList, 2)]) "cat".toList 5) =
      [("ca".toList, 1), ("cat".toList, 5), ("cats".toList, 2)] := by
  refine ⟨mem_vocabulary_insert, ?_, ?_, ?_, insert_update_scenario.2.1⟩
  · intro t w f
    rw [mem_vocabulary_insert]
    simp
  · intro t w f w' f' hne
    rw [mem_vocabulary_insert]
    simp [hne]
  · intro t w f w' hne _
    simp only [mem_vocabulary_insert, hne, if_false]


/-! ## C24: the suggestion with the shipped constants -/

theorem first_word_or_empty_eq (l : List FuzzyMatch) :
    first_word_or_empty l = (l.map FuzzyMatch.word).headD [] := by
  cases l <;> rfl

theorem filter_mem_singleton_headD (ws : List (List Char)) (p : List Char) :
    (ws.filter (fun w => decide (w ∈ [p]))).headD [] = if p ∈ ws then p else [] := by
  induction ws with
  | nil => simp
  | cons w ws ih =>
    by_cases hw : w = p
    · subst hw
      simp
    · have hw' : ¬ p = w := fun h => hw h.symm
      have e1 : (w :: ws).filter (fun w => decide (w ∈ [p])) =
          ws.filter (fun w => decide (w ∈ [p])) :=
        List.filter_cons_of_neg (by simpa using hw)
      rw [e1, ih]
      simp only [List.mem_cons, hw', false_or]

/-- The top-1 prefix match is the best completion. -/
theorem get_top_k_with_prefix_best (t : Trie) (input : List Char) (hl : lowercase input)
    (p : List Char) (f : Int) (hbest : best_completion t input p f) :
    get_top_k_with_prefix t input TOP_K = some [p] := by
  obtain ⟨all, hall, _, hmem⟩ := mem_get_words_with_prefix t input hl
  obtain ⟨hv, hpre, hmax⟩ := hbest
  have hp : (p, f) ∈ all := (hmem p f).2 ⟨hv, hpre⟩
  have hk : TOP_K.toNat = 1 := rfl
  simp only [ get_top_k_with_prefix, hall, hk, top_k_loop]
  cases htop : pq_top all with
  | none =>
    cases all with
    | nil => cases hp
    | cons a l => simp [pq_top] at htop
  | some x =>
    obtain ⟨hx, hxle⟩ := pq_top_spec htop
    have hxv := (hmem x.1 x.2).1 hx
    have : x = (p, f) := key_le_antisymm (hxle _ hp) (hmax x.1 x.2 hxv.1 hxv.2)
    rw [this]

theorem get_top_k_with_prefix_no_word (t : Trie) (input : List Char) (hl : lowercase input)
    (h : ∀ w f, (w, f) ∈ vocabulary t → ¬ input <+: w) (k : Int) :
    get_top_k_with_prefix t input k = some [] :=
  get_top_k_with_prefix_of_nil t input k (get_words_with_prefix_of_no_word t input hl h)

theorem exists_best_completion (t : Trie) (input : List Char) (hl : lowercase input)
    (h : ∃ w f, (w, f) ∈ vocabulary t ∧ input <+: w) : ∃ p f, best_completion t input p f := by
  obtain ⟨all, _, _, hmem⟩ := mem_get_words_with_prefix t input hl
  obtain ⟨w, f, hv, hpre⟩ := h
  have hw : (w, f) ∈ all := (hmem w f).2 ⟨hv, hpre⟩
  cases htop : pq_top all with
  | none =>
    cases all with
    | nil => cases hw
    | cons a l => simp [pq_top] at htop
  | some x =>
    obtain ⟨hx, hxle⟩ := pq_top_spec htop
    have hxv := (hmem x.1 x.2).1 hx
    exact ⟨x.1, x.2, hxv.1, hxv.2, fun w' g hv' hpre' => hxle _ ((hmem w' g).2 ⟨hv', hpre'⟩)⟩

theorem show_suggestions_of_prefix_words (t : Trie) (input : List Char) (hl : lowercase input)
    (pw : List (List Char)) (hpw : get_top_k_with_prefix t input TOP_K = some pw) :
    show_suggestions t input =
      some ((((get_ranked_fuzzy_matches t input MAX_EDITS).map FuzzyMatch.word).filter
        (fun w => decide (w ∈ pw))).headD []) := by
  obtain ⟨pw', hpw', hres⟩ := get_top_k_fuzzy_matches_eq t input MAX_EDITS TOP_K hl (by decide)
  rw [hpw] at hpw'
  cases hpw'
  rw [(show_suggestions_eq t input).1, hres, Option.map_some', first_word_or_empty_eq,
    prefix_filter_words]

/-- C24: with the shipped constants `TOP_K = 1` and `MAX_EDITS = 5`, for every trie and
lowercase input: if `p` is the best completion of the input (the vocabulary word with the
highest frequency among those having the input as a prefix, ties broken by the smallest
word), `show_suggestions(input)` returns `p` when `|p| - |input| <= 5` and the empty string
otherwise; if no vocabulary word has the input as a prefix it returns the empty string.  A
best completion exists as soon as some vocabulary word has the input as a prefix. -/
theorem C24_suggestion_is_best_completion_within_five (t : Trie) (input : List Char)
    (hl : lowercase input) :
    (∀ p f, best_completion t input p f →
      show_suggestions t input =
        some (if (p.length : Int) - input.length ≤ 5 then p else [])) ∧
    ((∀ w f, (w, f) ∈ vocabulary t → ¬ input <+: w) → show_suggestions t input = some []) ∧
    ((∃ w f, (w, f) ∈ vocabulary t ∧ input <+: w) → ∃ p f, best_completion t input p f) := by
  refine ⟨?_, ?_, exists_best_completion t input hl⟩
  · intro p f hbest
    rw [show_suggestions_of_prefix_words t input hl [p]
      (get_top_k_with_prefix_best t input hl p f hbest), filter_mem_singleton_headD]
    obtain ⟨hv, ⟨s, hs⟩, _⟩ := hbest
    have hlev : (lev input p : Int) = (p.length : Int) - input.length := by
      rw [← hs, lev_append_right]
      simp
    have hiff : p ∈ (get_ranked_fuzzy_matches t input MAX_EDITS).map FuzzyMatch.word ↔
        (p.length : Int) - input.length ≤ 5 := by
      rw [List.mem_map]
      constructor
      · rintro ⟨m, hm, hmw⟩
        obtain ⟨_, _, hle, _⟩ := (mem_get_ranked_fuzzy_matches t input MAX_EDITS 1 m).1 hm
        rw [hmw, hlev] at hle
        exact hle
      · intro hle
        refine ⟨⟨p, f, lev input p, f - 1 * lev input p⟩, ?_, rfl⟩
        rw [mem_get_ranked_fuzzy_matches]
        exact ⟨f, hv, by rw [hlev]; exact hle, rfl⟩
    by_cases hle : (p.length : Int) - input.length ≤ 5
    · rw [if_pos (hiff.2 hle), if_pos hle]
    · rw [if_neg (fun h => hle (hiff.1 h)), if_neg hle]
  · intro h
    rw [show_suggestions_of_prefix_words t input hl []
      (get_top_k_with_prefix_no_word t input hl h TOP_K)]
    simp

theorem suggestion_scenario_mem (w : List Char) (g : Int) :
    (w, g) ∈ vocabulary (build [("int".toList, 1), ("international".toList, 100)]) ↔
      (w = "international".toList ∧ g = 100) ∨ (w = "int".toList ∧ g = 1) := by
  show (w, g) ∈ vocabulary
    (insert (insert Trie.empty "int".toList 1) "international".toList 100) ↔ _
  rw [mem_vocabulary_insert, filter_islower_of_lowercase (by decide), mem_vocabulary_insert,
    filter_islower_of_lowercase (by decide), vocabulary_empty]
  by_cases h1 : w = "international".toList
  · subst h1
    have hne : ¬ "international".toList = "int".toList := by decide
    simp only [if_true, true_and, hne, false_and, or_false]
  · by_cases h2 : w = "int".toList
    · subst h2
      have hne : ¬ "int".toList = "international".toList := by decide
      simp only [hne, if_false, if_true, false_and, true_and, false_or]
    · simp only [h1, if_false, h2, List.not_mem_nil, false_and, or_self]

theorem suggestion_scenario_best :
    best_completion (build [("int".toList, 1), ("international".toList, 100)]) "in".toList
      "international".toList 100 := by
  refine ⟨(suggestion_scenario_mem _ _).2 (Or.inl ⟨rfl, rfl⟩), ⟨"ternational".toList, rfl⟩, ?_⟩
  intro w g hv _
  rcases (suggestion_scenario_mem w g).1 hv with ⟨rfl, rfl⟩ | ⟨rfl, rfl⟩
  · exact key_le_refl _
  · exact Or.inl (by decide)

/-- C24, the instance of the claim: with the vocabulary `int:1, international:100` and the
input `in`, the best completion is `international`, which is 11 characters longer than
the input, so there is no suggestion, although `int` is a vocabulary word with the prefix
`in` at one edit from the input. -/
theorem C24_suggestion_is_best_completion_within_five_witness :
    lowercase "in".toList ∧
    best_completion (build [("int".toList, 1), ("international".toList, 100)]) "in".toList
      "international".toList 100 ∧
    ("int".toList, 1) ∈ vocabulary (build [("int".toList, 1), ("international".toList, 100)]) ∧
    "in".toList <+: "int".toList ∧ lev "in".toList "int".toList = 1 ∧
    show_suggestions (build [("int".toList, 1), ("international".toList, 100)]) "in".toList =
      some [] :=
  ⟨by decide, suggestion_scenario_best,
    (suggestion_scenario_mem _ _).2 (Or.inr ⟨rfl, rfl⟩), ⟨"t".toList, rfl⟩,
    lev_append_right "in".toList "t".toList,
    ((C24_suggestion_is_best_completion_within_five
      (build [("int".toList, 1), ("international".toList, 100)]) "in".toList
      (by decide)).1 _ _ suggestion_scenario_best).trans (by rw [if_neg (by decide)])⟩


/-! ## C27: `operator<` is a strict total order on records with distinct words -/

theorem lt_irrefl' (a : FuzzyMatch) : a.lt a = false := by
  cases h : a.lt a with
  | false => rfl
  | true => rw [lt_asymm' a a h] at h; exact absurd h (by decide)

theorem lt_trans' (a b c : FuzzyMatch) (hab : a.lt b = true) (hbc : b.lt c = true) :
    a.lt c = true := by
  rw [lt_iff] at hab hbc ⊢
  rcases hab with ⟨ha, hb⟩ | ⟨hab0, hab1⟩
  · rcases hbc with ⟨hb', _⟩ | ⟨hbc0, _⟩
    · exact absurd hb' hb
    · exact Or.inl ⟨ha, fun hc => hb (hbc0.2 hc)⟩
  · rcases hbc with ⟨hb', hc⟩ | ⟨hbc0, hbc1⟩
    · exact Or.inl ⟨hab0.2 hb', hc⟩
    · refine Or.inr ⟨hab0.trans hbc0, ?_⟩
      rcases hab1 with h1 | ⟨h1, hw1⟩
      · rcases hbc1 with h2 | ⟨h2, _⟩
        · exact Or.inl (by omega)
        · exact Or.inl (by omega)
      · rcases hbc1 with h2 | ⟨h2, hw2⟩
        · exact Or.inl (by omega)
        · exact Or.inr ⟨by omega, lt_trans hw1 hw2⟩

/-- Two lists with the same elements that are both strictly ascending for `operator<` are
equal. -/
theorem eq_of_perm_of_pairwise_lt {l l' : List FuzzyMatch} (hp : l.Perm l')
    (hl : l.Pairwise (fun a b => a.lt b = true)) (hl' : l'.Pairwise (fun a b => a.lt b = true)) :
    l = l' := by
  induction l generalizing l' with
  | nil => exact (List.Perm.nil_eq hp)
  | cons a l ih =>
    cases l' with
    | nil => exact absurd hp.symm (List.nil_perm.not.2 (by simp))
    | cons b l' =>
      rw [List.pairwise_cons] at hl hl'
      have hab : a = b := by
        have ha : a ∈ b :: l' := hp.subset (List.mem_cons_self _ _)
        have hb : b ∈ a :: l := hp.symm.subset (List.mem_cons_self _ _)
        rcases List.mem_cons.1 ha with h | h
        · exact h
        · rcases List.mem_cons.1 hb with h' | h'
          · exact h'.symm
          · have h1 := hl.1 b h'
            have h2 := hl'.1 a h
            rw [lt_asymm' a b h1] at h2
            exact absurd h2 (by decide)
      subst hab
      rw [ih (List.Perm.cons_inv hp) hl.2 hl'.2]

/-- The sorted output is determined by the set of candidates: two arrangements of the same
records with pairwise distinct words are sorted to the same list. -/
theorem std_sort_eq_of_perm (v v' : List FuzzyMatch) (hnd : (v.map FuzzyMatch.word).Nodup)
    (hp : v'.Perm v) : std_sort v' = std_sort v := by
  have hnd' : (v'.map FuzzyMatch.word).Nodup := (hp.map FuzzyMatch.word).nodup_iff.2 hnd
  exact eq_of_perm_of_pairwise_lt (((std_sort_perm v').trans hp).trans (std_sort_perm v).symm)
    (std_sort_pairwise_lt v' hnd') (std_sort_pairwise_lt v hnd)

theorem result_vec_nodup (t : Trie) (input : List Char) (max_edits alpha : Int) :
    (((search_fuzzy (input.length + (max_edits + 1).toNat) (some t.root) input [] 0
      max_edits [] 0).map
        (fun pair =>
          ({ pair.2 with score := pair.2.frequency - alpha * pair.2.edit_distance } :
            FuzzyMatch))).map FuzzyMatch.word).Nodup := by
  obtain ⟨hnd, hmem⟩ := search_fuzzy_root t input max_edits
  rw [List.map_map]
  have hfun : ∀ p ∈ search_fuzzy (input.length + (max_edits + 1).toNat) (some t.root) input []
      0 max_edits [] 0,
      (FuzzyMatch.word ∘ (fun pair : List Char × FuzzyMatch =>
        ({ pair.2 with score := pair.2.frequency - alpha * pair.2.edit_distance } :
          FuzzyMatch))) p = Prod.fst p := by
    intro p hp
    obtain ⟨f, _, _, hv⟩ := (hmem p.1 p.2).1 hp
    simp only [Function.comp, hv]
  rw [List.map_congr_left hfun]
  exact hnd

/-- C27: `FuzzyMatch::operator<` is irreflexive and transitive, and for two records with
different words exactly one of `a < b` and `b < a` holds: it is a strict total order on
records with pairwise distinct words.  Hence two arrangements of the same candidate
records (distinct words) are sorted to the same list, and the output of
`get_ranked_fuzzy_matches` is the same whatever the iteration order of the result map. -/
theorem C27_operator_lt_is_strict_total_order :
    (∀ a : FuzzyMatch, a.lt a = false) ∧
    (∀ a b c : FuzzyMatch, a.lt b = true → b.lt c = true → a.lt c = true) ∧
    (∀ a b : FuzzyMatch, a.word ≠ b.word →
      (a.lt b = true ∧ b.lt a = false) ∨ (b.lt a = true ∧ a.lt b = false)) ∧
    (∀ v v' : List FuzzyMatch, (v.map FuzzyMatch.word).Nodup → v'.Perm v →
      std_sort v' = std_sort v) ∧
    (∀ (t : Trie) (input : List Char) (max_edits alpha : Int) (v : List FuzzyMatch),
      v.Perm ((search_fuzzy (input.length + (max_edits + 1).toNat) (some t.root) input [] 0
        max_edits [] 0).map
          (fun pair =>
            ({ pair.2 with score := pair.2.frequency - alpha * pair.2.edit_distance } :
              FuzzyMatch))) →
      std_sort v = get_ranked_fuzzy_matches t input max_edits alpha) := by
  refine ⟨lt_irrefl', lt_trans', ?_, std_sort_eq_of_perm, ?_⟩
  · intro a b h
    rcases lt_total_of_word_ne a b h with h1 | h1
    · exact Or.inl ⟨h1, lt_asymm' a b h1⟩
    · exact Or.inr ⟨h1, lt_asymm' b a h1⟩
  · intro t input max_edits alpha v hv
    exact std_sort_eq_of_perm _ v (result_vec_nodup t input max_edits alpha) hv


/-! ## C28: the recursion of `search_fuzzy` is bounded -/

theorem search_fuzzy_fuel (target : List Char) : ∀ (fuel fuel' : Nat) (node : Option TrieNode)
    (cur : List Char) (index : Nat) (er : Int) (R : ResultMap) (eu : Int),
    (target.length - index) + (er + 1).toNat ≤ fuel →
    (target.length - index) + (er + 1).toNat ≤ fuel' →
    search_fuzzy fuel node target cur index er R eu =
      search_fuzzy fuel' node target cur index er R eu := by
  have hzero : ∀ (fuel : Nat) (node : Option TrieNode) (cur : List Char) (index : Nat)
      (er : Int) (R : ResultMap) (eu : Int), er < 0 →
      search_fuzzy fuel node target cur index er R eu = R := by
    intro fuel node cur index er R eu her
    cases fuel with
    | zero => simp only [search_fuzzy]
    | succ fuel =>
      cases node with
      | none => simp only [search_fuzzy]
      | some n => simp only [search_fuzzy, her, if_true]
  intro fuel
  induction fuel with
  | zero =>
    intro fuel' node cur index er R eu h _
    rw [hzero 0 _ _ _ _ _ _ (by omega), hzero fuel' _ _ _ _ _ _ (by omega)]
  | succ fuel ih =>
    intro fuel' node cur index er R eu h h'
    by_cases her : er < 0
    · rw [hzero _ _ _ _ _ _ _ her, hzero _ _ _ _ _ _ _ her]
    · cases fuel' with
      | zero => omega
      | succ fuel' =>
        cases node with
        | none => simp only [search_fuzzy]
        | some n =>
          simp only [search_fuzzy, her, if_false]
          by_cases hend : index = target.length
          · simp only [hend, if_true]
            congr 1
            funext results i
            cases n.children i with
            | none => rfl
            | some child => exact ih fuel' _ _ _ _ _ _ (by omega) (by omega)
          · simp only [hend, if_false]
            cases hx : target[index]? with
            | none => rfl
            | some x =>
              have hlt : index < target.length := by
                by_contra hge
                rw [List.getElem?_eq_none (by omega)] at hx
                cases hx
              simp only
              rw [ih fuel' (some n) cur (index + 1) (er - 1) _ (eu + 1) (by omega) (by omega)]
              congr 2
              funext results i
              cases n.children i with
              | none => rfl
              | some child =>
                simp only
                rw [ih fuel' (some child) _ index (er - 1) _ (eu + 1) (by omega) (by omega)]
                congr 1
                split
                · exact ih fuel' _ _ _ _ _ _ (by omega) (by omega)
                · exact ih fuel' _ _ _ _ _ _ (by omega) (by omega)

theorem search_fuzzy_pruned (target : List Char) (fuel : Nat) (node : Option TrieNode)
    (cur : List Char) (index : Nat) (er : Int) (R : ResultMap) (eu : Int)
    (h : node = none ∨ er < 0) : search_fuzzy fuel node target cur index er R eu = R := by
  cases fuel with
  | zero => simp only [search_fuzzy]
  | succ fuel =>
    cases node with
    | none => simp only [search_fuzzy]
    | some n =>
      rcases h with h | h
      · cases h
      · simp only [search_fuzzy, h, if_true]

theorem recursive_calls_pruned (target : List Char) (c : Call)
    (h : c.node = none ∨ c.edits_remaining < 0) : recursive_calls target c = [] := by
  unfold recursive_calls
  cases hn : c.node with
  | none => rfl
  | some n =>
    rcases h with h | h
    · rw [hn] at h; cases h
    · simp only [h, if_true]

theorem mem_recursive_calls (target : List Char) (c c' : Call)
    (h : c' ∈ recursive_calls target c) :
    call_measure target c' < call_measure target c ∧ c.node ≠ none ∧ 0 ≤ c.edits_remaining ∧
      c'.node ≠ none ∧ c.edits_remaining - 1 ≤ c'.edits_remaining ∧
      (c.index ≤ target.length → c'.index ≤ target.length) := by
  unfold recursive_calls at h
  cases hn : c.node with
  | none => rw [hn] at h; cases h
  | some n =>
    rw [hn] at h
    simp only at h
    by_cases her : c.edits_remaining < 0
    · simp only [her, if_true] at h; cases h
    · simp only [her, if_false] at h
      by_cases hend : c.index = target.length
      · simp only [hend, if_true, List.mem_flatMap] at h
        obtain ⟨i, _, hi⟩ := h
        cases hc : n.children i with
        | none => rw [hc] at hi; cases hi
        | some child =>
          rw [hc] at hi
          simp only [List.mem_singleton] at hi
          subst hi
          simp only [call_measure, hend]
          refine ⟨by omega, by simp, by omega, by simp, by omega, fun _ => le_refl _⟩
      · simp only [hend, if_false] at h
        cases hx : target[c.index]? with
        | none => rw [hx] at h; cases h
        | some x =>
          have hlt : c.index < target.length := by
            by_contra hge
            rw [List.getElem?_eq_none (by omega)] at hx
            cases hx
          rw [hx] at h
          simp only [List.mem_append, List.mem_flatMap, List.mem_singleton] at h
          rcases h with ⟨i, _, hi⟩ | h
          · cases hc : n.children i with
            | none => rw [hc] at hi; cases hi
            | some child =>
              rw [hc] at hi
              simp only [List.mem_cons, List.mem_singleton, List.not_mem_nil, or_false] at hi
              rcases hi with hi | hi
              · by_cases hl : letter i = x
                · rw [if_pos hl] at hi
                  subst hi
                  simp only [call_measure]
                  refine ⟨by push_cast; omega, by simp, by omega, by simp, by omega,
                    fun _ => hlt⟩
                · rw [if_neg hl] at hi
                  subst hi
                  simp only [call_measure]
                  refine ⟨by push_cast; omega, by simp, by omega, by simp, by omega,
                    fun _ => hlt⟩
              · subst hi
                simp only [call_measure]
                refine ⟨by omega, by simp, by omega, by simp, by omega, fun h => h⟩
          · subst h
            simp only [call_measure]
            refine ⟨by push_cast; omega, by simp, by omega, by simp, by omega, fun _ => hlt⟩

theorem nested_bound (target : List Char) {c c' : Call} {d : Nat} (h : Nested target c d c')
    (hidx : c.index ≤ target.length) :
    (d : Int) + call_measure target c' ≤ call_measure target c ∧ c'.index ≤ target.length ∧
      (1 ≤ d → -1 ≤ c'.edits_remaining) := by
  induction h with
  | here c => exact ⟨by simp, hidx, fun h => by omega⟩
  | call hmem hn ih =>
    obtain ⟨hm, _, he, _, he', hi⟩ := mem_recursive_calls target _ _ hmem
    obtain ⟨ih1, ih2, ih3⟩ := ih (hi hidx)
    refine ⟨by push_cast; omega, ih2, fun _ => ?_⟩
    cases hn with
    | here _ => omega
    | call _ _ => exact ih3 (by omega)

theorem foldl_bind_none {α β : Type} (g : β → α → Option β) (l : List α) :
    l.foldl (fun acc i => acc.bind (fun r => g r i)) none = none := by
  induction l with
  | nil => rfl
  | cons a l ih => simpa using ih

theorem foldl_bind_some {α β : Type} (g : β → α → Option β) (f : β → α → β) (l : List α)
    (h : ∀ r i, g r i = some (f r i)) :
    ∀ R, l.foldl (fun acc i => acc.bind (fun r => g r i)) (some R) = some (l.foldl f R) := by
  induction l with
  | nil => intro R; rfl
  | cons a l ih =>
    intro R
    simp only [List.foldl_cons, Option.some_bind]
    rw [h R a]
    exact ih _

theorem foldl_bind_steps {α β : Type} (g : β → α → Option β) (l : List α) :
    ∀ R R', l.foldl (fun acc i => acc.bind (fun r => g r i)) (some R) = some R' →
      ∀ i ∈ l, ∃ Ri Ri', g Ri i = some Ri' := by
  induction l with
  | nil => intro R R' _ i hi; cases hi
  | cons a l ih =>
    intro R R' h i hi
    simp only [List.foldl_cons, Option.some_bind] at h
    cases hg : g R a with
    | none =>
      rw [hg, foldl_bind_none] at h
      cases h
    | some R1 =>
      rw [hg] at h
      rcases List.mem_cons.1 hi with rfl | hi'
      · exact ⟨R, R1, hg⟩
      · exact ih R1 R' h i hi'

theorem for_each_letter_some (body : ResultMap → Fin 26 → Option ResultMap)
    (f : ResultMap → Fin 26 → ResultMap) (h : ∀ r i, body r i = some (f r i)) (R : ResultMap) :
    for_each_letter body R = some ((List.finRange 26).foldl f R) :=
  foldl_bind_some body f _ h R

theorem for_each_letter_steps (body : ResultMap → Fin 26 → Option ResultMap) (R R' : ResultMap)
    (h : for_each_letter body R = some R') (i : Fin 26) : ∃ Ri Ri', body Ri i = some Ri' :=
  foldl_bind_steps body _ R R' h i (List.mem_finRange i)

/-- With a depth of at least `(|target| - index) + (edits_remaining + 1) + 1` the search
returns, and its result is the one of `search_fuzzy`. -/
theorem search_fuzzy_bounded_eq (target : List Char) : ∀ (depth : Nat) (node : Option TrieNode)
    (cur : List Char) (index : Nat) (er : Int) (R : ResultMap) (eu : Int),
    (target.length - index) + (er + 1).toNat + 1 ≤ depth →
    search_fuzzy_bounded depth node target cur index er R eu =
      some (search_fuzzy depth node target cur index er R eu) := by
  intro depth
  induction depth with
  | zero => intro node cur index er R eu h; omega
  | succ depth ih =>
    intro node cur index er R eu h
    cases node with
    | none => simp only [search_fuzzy_bounded, search_fuzzy]
    | some n =>
      by_cases her : er < 0
      · simp only [search_fuzzy_bounded, search_fuzzy, her, if_true]
      · simp only [search_fuzzy_bounded, search_fuzzy, her, if_false]
        by_cases hend : index = target.length
        · simp only [hend, if_true]
          refine for_each_letter_some _ _ ?_ _
          intro r i
          cases n.children i with
          | none => rfl
          | some child => exact ih _ _ _ _ _ _ (by omega)
        · simp only [hend, if_false]
          cases hx : target[index]? with
          | none => rfl
          | some x =>
            have hlt : index < target.length := by
              by_contra hge
              rw [List.getElem?_eq_none (by omega)] at hx
              cases hx
            simp only
            rw [Option.bind_eq_some]
            refine ⟨_, for_each_letter_some _ _ ?_ _, ih _ _ _ _ _ _ (by omega)⟩
            intro r i
            cases n.children i with
            | none => rfl
            | some child =>
              simp only
              rw [Option.bind_eq_some]
              refine ⟨_, ?_, ih _ _ _ _ _ _ (by omega)⟩
              split
              · exact ih _ _ _ _ _ _ (by omega)
              · exact ih _ _ _ _ _ _ (by omega)

/-- The calls listed by `recursive_calls` are calls that `search_fuzzy` makes: when the
search of the call `c` returns within the depth `depth + 1`, every listed call was run
within the depth `depth` and returned. -/
theorem recursive_calls_made (target : List Char) (depth : Nat) (c : Call) (cur : List Char)
    (R : ResultMap) (eu : Int) (Z : ResultMap)
    (h : search_fuzzy_bounded (depth + 1) c.node target cur c.index c.edits_remaining R eu =
      some Z) :
    ∀ c1 ∈ recursive_calls target c, ∃ cur1 R1 eu1 Z1,
      search_fuzzy_bounded depth c1.node target cur1 c1.index c1.edits_remaining R1 eu1 =
        some Z1 := by
  obtain ⟨node, index, er⟩ := c
  intro c1 hc1
  unfold recursive_calls at hc1
  cases node with
  | none => cases hc1
  | some n =>
    simp only at hc1 h
    by_cases her : er < 0
    · simp only [her, if_true] at hc1
      cases hc1
    · simp only [her, if_false] at hc1
      simp only [search_fuzzy_bounded, her, if_false] at h
      by_cases hend : index = target.length
      · simp only [hend, if_true, List.mem_flatMap] at hc1
        simp only [hend, if_true] at h
        obtain ⟨i, _, hi⟩ := hc1
        obtain ⟨Ri, Ri', hs⟩ := for_each_letter_steps _ _ _ h i
        cases hc : n.children i with
        | none => rw [hc] at hi; cases hi
        | some child =>
          rw [hc] at hi
          simp only [List.mem_singleton] at hi
          simp only [hc] at hs
          subst hi
          exact ⟨_, _, _, _, hs⟩
      · simp only [hend, if_false] at hc1 h
        cases hx : target[index]? with
        | none => rw [hx] at hc1; cases hc1
        | some x =>
          rw [hx] at hc1
          simp only [hx] at h
          obtain ⟨R1, h1, h2⟩ := Option.bind_eq_some.1 h
          simp only [List.mem_append, List.mem_flatMap, List.mem_singleton] at hc1
          rcases hc1 with ⟨i, _, hi⟩ | hdel
          · obtain ⟨Ri, Ri', hs⟩ := for_each_letter_steps _ _ _ h1 i
            cases hc : n.children i with
            | none => rw [hc] at hi; cases hi
            | some child =>
              rw [hc] at hi
              simp only [List.mem_cons, List.mem_singleton, List.not_mem_nil, or_false] at hi
              simp only [hc] at hs
              obtain ⟨R2, hab, hins⟩ := Option.bind_eq_some.1 hs
              rcases hi with hi | hi
              · by_cases hl : letter i = x
                · simp only [hl, if_true] at hi hab
                  subst hi
                  exact ⟨_, _, _, _, hab⟩
                · simp only [hl, if_false] at hi hab
                  subst hi
                  exact ⟨_, _, _, _, hab⟩
              · subst hi
                exact ⟨_, _, _, _, hins⟩
          · subst hdel
            exact ⟨_, _, _, _, h2⟩

/-- A call reached through `k` nested recursive calls from a call whose search returns
within the depth `depth` satisfies `k < depth`. -/
theorem nested_lt_depth (target : List Char) {c c' : Call} {k : Nat}
    (hn : Nested target c k c') :
    ∀ (depth : Nat) (cur : List Char) (R : ResultMap) (eu : Int) (Z : ResultMap),
      search_fuzzy_bounded depth c.node target cur c.index c.edits_remaining R eu = some Z →
      k < depth := by
  induction hn with
  | here c =>
    intro depth cur R eu Z h
    cases depth with
    | zero => simp [search_fuzzy_bounded] at h
    | succ d => omega
  | call hmem _ ih =>
    intro depth cur R eu Z h
    cases depth with
    | zero => simp [search_fuzzy_bounded] at h
    | succ d =>
      obtain ⟨cur1, R1, eu1, Z1, h1⟩ := recursive_calls_made target d _ cur R eu Z h _ hmem
      have := ih d cur1 R1 eu1 Z1 h1
      omega

set_option maxRecDepth 100000 in
theorem search_fuzzy_bounded_scenario :
    search_fuzzy_bounded 2 (some (build [("a".toList, 1), ("ab".toList, 2)]).root) [] [] 0 1
      [] 0 = none ∧
    search_fuzzy_bounded 3 (some (build [("a".toList, 1), ("ab".toList, 2)]).root) [] [] 0 1
      [] 0 = some [("a".toList, ⟨"a".toList, 1, 1, 0⟩)] := by
  decide

/-- C28: `search_fuzzy` terminates, with a recursion depth bounded by the length of the
input plus the edit budget.  `search_fuzzy_bounded` is the method with the number of
nested activations limited, `none` reporting that the limit was exceeded.  For every
trie node, target, index `<= |target|` and budget: with a limit of at least
`(|target| - index) + (edits_remaining + 1) + 1` activations the search returns, and its
result is the one of `search_fuzzy`; a call with an absent node or a negative budget
returns the map as it is within one activation, so it makes no call.  The calls listed by
`recursive_calls` are made by the body (when the search returns within `depth + 1`, each
of them was run within `depth` and returned), each has a strictly smaller measure
`(|target| - index) + edits_remaining`, and a call reached through `k` nested calls
satisfies `k <= (|target| - index) + (edits_remaining + 1)`.  The limit matters: on the
vocabulary `a, ab` with an empty target and a budget of 1 the search exceeds 2
activations and returns within 3. -/
theorem C28_search_fuzzy_terminates (target : List Char) :
    (∀ (depth : Nat) (node : Option TrieNode) (cur : List Char) (index : Nat) (er : Int)
      (R : ResultMap) (eu : Int), index ≤ target.length →
      (target.length - index) + (er + 1).toNat + 1 ≤ depth →
        search_fuzzy_bounded depth node target cur index er R eu =
          some (search_fuzzy ((target.length - index) + (er + 1).toNat) node target cur index
            er R eu)) ∧
    (∀ (node : Option TrieNode) (cur : List Char) (index : Nat) (er : Int) (R : ResultMap)
      (eu : Int), node = none ∨ er < 0 →
        search_fuzzy_bounded 1 node target cur index er R eu = some R) ∧
    (∀ (depth : Nat) (c : Call) (cur : List Char) (R : ResultMap) (eu : Int) (Z : ResultMap),
      search_fuzzy_bounded (depth + 1) c.node target cur c.index c.edits_remaining R eu =
        some Z →
      ∀ c1 ∈ recursive_calls target c,
        call_measure target c1 < call_measure target c ∧
        (c.index ≤ target.length → c1.index ≤ target.length) ∧
        ∃ cur1 R1 eu1 Z1,
          search_fuzzy_bounded depth c1.node target cur1 c1.index c1.edits_remaining R1 eu1 =
            some Z1) ∧
    (∀ c : Call, c.node = none ∨ c.edits_remaining < 0 → recursive_calls target c = []) ∧
    (∀ (c c' : Call) (k : Nat), Nested target c k c' →
      (∀ (depth : Nat) (cur : List Char) (R : ResultMap) (eu : Int) (Z : ResultMap),
        search_fuzzy_bounded depth c.node target cur c.index c.edits_remaining R eu = some Z →
          k < depth) ∧
      k ≤ (target.length - c.index) + (c.edits_remaining + 1).toNat ∧
      (c.index ≤ target.length →
        (k : Int) + call_measure target c' ≤ call_measure target c)) ∧
    (search_fuzzy_bounded 2 (some (build [("a".toList, 1), ("ab".toList, 2)]).root) [] [] 0 1
        [] 0 = none ∧
      search_fuzzy_bounded 3 (some (build [("a".toList, 1), ("ab".toList, 2)]).root) [] [] 0 1
        [] 0 = some [("a".toList, ⟨"a".toList, 1, 1, 0⟩)]) := by
  refine ⟨?_, ?_, ?_, recursive_calls_pruned target, ?_, search_fuzzy_bounded_scenario⟩
  · intro depth node cur index er R eu _ h
    rw [search_fuzzy_bounded_eq target depth node cur index er R eu h,
      search_fuzzy_fuel target depth ((target.length - index) + (er + 1).toNat) node cur index
        er R eu (by omega) (le_refl _)]
  · intro node cur index er R eu h
    cases node with
    | none => simp only [search_fuzzy_bounded]
    | some n =>
      rcases h with h | h
      · cases h
      · simp only [search_fuzzy_bounded, h, if_true]
  · intro depth c cur R eu Z h c1 hc1
    obtain ⟨h1, _, _, _, _, h6⟩ := mem_recursive_calls target c c1 hc1
    exact ⟨h1, h6, recursive_calls_made target depth c cur R eu Z h c1 hc1⟩
  · intro c c' k hn
    refine ⟨nested_lt_depth target hn, ?_, fun hidx => (nested_bound target hn hidx).1⟩
    have hret := search_fuzzy_bounded_eq target
      ((target.length - c.index) + (c.edits_remaining + 1).toNat + 1) c.node [] c.index
      c.edits_remaining [] 0 (le_refl _)
    have := nested_lt_depth target hn _ _ _ _ _ hret
    omega


/-! ## C29: the suffix that completes a word -/

/-- The test `s2.rfind(s1, 0) == 0` holds exactly when `s1` is a prefix of `s2`. -/
theorem rfind_zero_iff (s1 s2 : List Char) : rfind s2 s1 0 = some 0 ↔ s1 <+: s2 := by
  unfold rfind
  by_cases hlen : s1.length ≤ s2.length
  · have hrange : (List.range (min 0 (s2.length - s1.length) + 1)).reverse = [0] := by
      rw [Nat.zero_min]; rfl
    rw [if_pos hlen, hrange]
    by_cases htake : s2.take s1.length = s1
    · simp only [List.find?_cons, List.drop_zero, htake, decide_True, true_iff]
      exact List.prefix_iff_eq_take.2 htake.symm
    · simp only [List.find?_cons, List.drop_zero, htake, decide_False, List.find?_nil]
      constructor
      · intro h; exact absurd h (by simp)
      · intro hpre; exact absurd (List.prefix_iff_eq_take.1 hpre).symm htake
  · rw [if_neg hlen]
    constructor
    · intro h; exact absurd h (by simp)
    · intro hpre; exact absurd hpre.length_le hlen

/-- C29: for all strings `s1` and `s2`, `getSuffixDifference(s1, s2)` returns without an
exception; when `s1` is a prefix of `s2` it returns the part `r` of `s2` after `s1`, so that
`s1 ++ r = s2`; when `s1` is not a prefix of `s2` it returns the empty string.  For instance
the suffix for `ca` and `cats` is `ts`, and for `cab` and `cats` it is empty. -/
theorem C29_suffix_difference_completes_the_word :
    (∀ s1 s2 : List Char, s1 <+: s2 →
      ∃ r, getSuffixDifference s1 s2 = some r ∧ s1 ++ r = s2 ∧ r = s2.drop s1.length) ∧
    (∀ s1 s2 : List Char, ¬ s1 <+: s2 → getSuffixDifference s1 s2 = some []) ∧
    getSuffixDifference "ca".toList "cats".toList = some "ts".toList ∧
    getSuffixDifference "cab".toList "cats".toList = some [] ∧
    getSuffixDifference "cats".toList "ca".toList = some [] ∧
    getSuffixDifference [] "ca".toList = some "ca".toList := by
  refine ⟨?_, ?_, by decide, by decide, by decide, by decide⟩
  · intro s1 s2 hpre
    refine ⟨s2.drop s1.length, ?_, ?_, rfl⟩
    · unfold getSuffixDifference substr_from
      rw [if_pos ((rfind_zero_iff s1 s2).2 hpre), if_pos hpre.length_le]
    · obtain ⟨r, rfl⟩ := hpre
      simp
  · intro s1 s2 hpre
    unfold getSuffixDifference
    rw [if_neg (fun h => hpre ((rfind_zero_iff s1 s2).1 h))]


/-! ## The tokenizer -/

theorem substr_some {s : List Char} {pos : Nat} (n : Nat) (h : pos ≤ s.length) :
    substr s pos n = some ((s.drop pos).take n) := by
  unfold substr
  rw [if_pos h]

theorem drop_of_getElem? {l : List Char} {pos : Nat} {c : Char} (h : l[pos]? = some c) :
    pos < l.length ∧ l.drop pos = c :: l.drop (pos + 1) := by
  obtain ⟨hlt, hc⟩ := List.getElem?_eq_some.1 h
  exact ⟨hlt, by rw [List.drop_eq_getElem_cons hlt, hc]⟩

theorem scan_while_spec (p : Char → Bool) (l : List Char) (pos : Nat) (c : Char)
    (h : l[pos]? = some c) (hp : p c = true) :
    pos < scan_while p l pos ∧ scan_while p l pos ≤ l.length := by
  obtain ⟨hlt, hdrop⟩ := drop_of_getElem? h
  unfold scan_while
  have h1 : ((l.drop pos).takeWhile p).length ≤ (l.drop pos).length :=
    (List.takeWhile_prefix p).length_le
  rw [List.length_drop] at h1
  have h2 : 1 ≤ ((l.drop pos).takeWhile p).length := by
    rw [hdrop, List.takeWhile_cons_of_pos hp]
    simp
  omega

theorem scan_comment_ge (s : List Char) : ∀ pos, pos ≤ scan_comment s pos := by
  induction s with
  | nil => intro pos; simp [scan_comment]
  | cons a s ih =>
    intro pos
    cases s with
    | nil => simp [scan_comment]
    | cons b r =>
      rw [scan_comment]
      split
      · exact le_refl _
      · exact le_trans (Nat.le_succ pos) (ih (pos + 1))

theorem scan_string_ge (q : Char) (n : Nat) :
    ∀ (s : List Char), s.length ≤ n → ∀ pos, pos ≤ scan_string q s pos := by
  induction n with
  | zero =>
    intro s hs pos
    have : s = [] := List.length_eq_zero.1 (Nat.le_zero.1 hs)
    subst this
    simp [scan_string]
  | succ n ih =>
    intro s hs pos
    cases s with
    | nil => simp [scan_string]
    | cons c r =>
      have hr := ih r (by simp only [List.length_cons] at hs; omega) (pos + 1)
      cases r with
      | nil =>
        simp only [scan_string]
        split
        · exact le_refl _
        · split <;> omega
      | cons d r' =>
        have hr' := ih r' (by simp only [List.length_cons] at hs; omega) (pos + 2)
        simp only [scan_string]
        split
        · exact le_refl _
        · split <;> omega

theorem range_token_ok (l : List Char) (type : TokenTYPE) (pos next : Nat)
    (htype : type ≠ TokenTYPE.PREPROCESSOR) (h1 : pos < next) (h2 : next ≤ l.length) :
    step_ok l pos (range_token l type pos next) := by
  unfold range_token
  rw [substr_some _ (by omega)]
  exact ⟨_, next, rfl, h1, h2, rfl, rfl, rfl, htype⟩

theorem word_token_ok (keywords : List (List Char)) (l : List Char) (pos next : Nat) (c : Char)
    (hc : l[pos]? = some c) (hne : c ≠ '#') (h1 : pos < next) (h2 : next ≤ l.length) :
    step_ok l pos (word_token keywords l pos next) := by
  obtain ⟨hlt, hdrop⟩ := drop_of_getElem? hc
  unfold word_token
  rw [substr_some _ (by omega)]
  have hlen : ((l.drop pos).take (next - pos)).length = next - pos := by
    rw [List.length_take, List.length_drop]
    omega
  have hhead : ((l.drop pos).take (next - pos))[0]? = some c := by
    obtain ⟨k, hk⟩ : ∃ k, next - pos = k + 1 := ⟨next - pos - 1, by omega⟩
    rw [hdrop, hk]
    simp
  have hnot : ¬ ((l.drop pos).take (next - pos) ≠ [] ∧
      ((l.drop pos).take (next - pos))[0]? = some '#') := by
    rintro ⟨_, h⟩
    rw [hhead] at h
    exact hne (Option.some.inj h)
  simp only [hnot, if_false]
  split
  · exact ⟨_, next, rfl, h1, h2, rfl, hlen, rfl, by simp⟩
  · exact ⟨_, next, rfl, h1, h2, rfl, hlen, rfl, by simp⟩

theorem operator_token_ok (l : List Char) (pos : Nat) (c : Char) (hc : l[pos]? = some c) :
    step_ok l pos (operator_token l pos c) := by
  obtain ⟨hlt, hdrop⟩ := drop_of_getElem? hc
  have hone : (l.drop pos).take (pos + 1 - pos) = [c] := by
    rw [hdrop, Nat.add_sub_cancel_left]
    rfl
  have hsingle : step_ok l pos (some
      (if c ∈ punctuation then
        ((⟨[c], TokenTYPE.PUNCTUATION, pos, 1⟩ : Token), pos + 1)
      else ((⟨[c], TokenTYPE.DEFAULT, pos, 1⟩ : Token), pos + 1))) := by
    split
    · exact ⟨_, pos + 1, rfl, by omega, by omega, rfl, by simp, hone.symm, by simp⟩
    · exact ⟨_, pos + 1, rfl, by omega, by omega, rfl, by simp, hone.symm, by simp⟩
  unfold operator_token
  simp only
  split
  · rename_i h2
    rw [substr_some _ (by omega)]
    simp only
    split
    · exact ⟨_, pos + 2, rfl, by omega, by omega, rfl, by simp,
        by rw [Nat.add_sub_cancel_left], by simp⟩
    · exact hsingle
  · exact hsingle

/-- Every iteration of the loop of `tokenize` pushes a token for a non-empty range that
starts at the current position, and moves to the end of that range. -/
theorem next_token_ok (keywords : List (List Char)) (l : List Char) (pos : Nat) (c : Char)
    (hc : l[pos]? = some c) : step_ok l pos (next_token keywords l pos c) := by
  obtain ⟨hlt, hdrop⟩ := drop_of_getElem? hc
  unfold next_token
  split
  · rename_i h
    obtain ⟨h1, h2⟩ := scan_while_spec isspace l pos c hc h
    exact range_token_ok l _ pos _ (by simp) h1 h2
  · split
    · rename_i h
      obtain ⟨h1, h2⟩ := scan_while_spec (fun x => x ≠ '\n' && x ≠ '\r') l pos c hc
        (by rw [h.1]; decide)
      exact range_token_ok l _ pos _ (by simp) h1 h2
    · split
      · have hge := scan_comment_ge (l.drop (pos + 2)) (pos + 2)
        simp only
        refine range_token_ok l _ pos _ (by simp) ?_ ?_
        · split <;> omega
        · split <;> omega
      · split
        · have hge := scan_string_ge c _ (l.drop (pos + 1)) (le_refl _) (pos + 1)
          simp only
          refine range_token_ok l _ pos _ (by simp) ?_ ?_
          · split <;> omega
          · split <;> omega
        · split
          · rename_i h
            have hp : (fun x => isalnum x || decide (x = '_')) c = true := by
              rcases h with h | h
              · simp [isalnum, h]
              · simp [h]
            obtain ⟨h1, h2⟩ :=
              scan_while_spec (fun x => isalnum x || decide (x = '_')) l pos c hc hp
            refine word_token_ok keywords l pos _ c hc ?_ h1 h2
            rcases h with h | h
            · intro hh; rw [hh] at h; exact absurd h (by decide)
            · rw [h]; decide
          · split
            · rename_i h
              obtain ⟨h1, h2⟩ := scan_while_spec isdigit l pos c hc h
              exact range_token_ok l _ pos _ (by simp) h1 h2
            · exact operator_token_ok l pos c hc

theorem contiguous_from_lengths (tokens : List Token) :
    ∀ pos, contiguous_from pos tokens →
      ∀ pre tok post, tokens = pre ++ tok :: post →
        tok.start_pos = pos + (pre.map Token.length).sum := by
  induction tokens with
  | nil => intro pos _ pre tok post h; simp at h
  | cons t ts ih =>
    intro pos hcont pre tok post h
    obtain ⟨h1, h2⟩ := hcont
    cases pre with
    | nil =>
      simp only [List.nil_append, List.cons.injEq] at h
      rw [← h.1, h1]
      simp
    | cons p pre' =>
      simp only [List.cons_append, List.cons.injEq] at h
      rw [ih _ h2 pre' tok post h.2, ← h.1]
      simp only [List.map_cons, List.sum_cons]
      omega

/-- The loop of `tokenize` from the position `pos`, with enough iterations left for the rest
of the line: it ends, and the tokens it pushes are contiguous from `pos`, cover the rest of
the line, and have the stated properties. -/
theorem tokenize_loop_ok (keywords : List (List Char)) (l : List Char) :
    ∀ (fuel pos : Nat) (tokens : List Token), pos ≤ l.length → l.length - pos ≤ fuel →
      ∃ out, tokenize_loop keywords l fuel pos tokens = some (tokens ++ out) ∧
        contiguous_from pos out ∧ (out.map Token.text).flatten = l.drop pos ∧
        (out.map Token.length).sum = l.length - pos ∧
        ∀ tok ∈ out, tok.text ≠ [] ∧ tok.text.length = tok.length ∧
          substr l tok.start_pos tok.length = some tok.text ∧
          tok.type ≠ TokenTYPE.PREPROCESSOR := by
  intro fuel
  induction fuel with
  | zero =>
    intro pos tokens h1 h2
    have hpos : pos = l.length := by omega
    subst hpos
    exact ⟨[], by simp [tokenize_loop], trivial, by simp, by simp, by simp⟩
  | succ fuel ih =>
    intro pos tokens h1 h2
    rw [tokenize_loop]
    cases hc : l[pos]? with
    | none =>
      have hpos : pos = l.length := by
        have := List.getElem?_eq_none_iff.1 hc
        omega
      subst hpos
      exact ⟨[], by simp, trivial, by simp, by simp, by simp⟩
    | some c =>
      obtain ⟨tok, next, hnext, hlt, hle, hstart, hlen, htext, htype⟩ :=
        next_token_ok keywords l pos c hc
      obtain ⟨out, hout, hcont, hflat, hsum, hall⟩ := ih next (tokens ++ [tok]) hle (by omega)
      simp only [hnext]
      have htl : tok.text.length = tok.length := by
        rw [htext, hlen, List.length_take, List.length_drop]
        omega
      refine ⟨tok :: out, ?_, ?_, ?_, ?_, ?_⟩
      · rw [hout, List.append_assoc]
        rfl
      · refine ⟨hstart, ?_⟩
        rw [hlen]
        have : pos + (next - pos) = next := by omega
        rw [this]
        exact hcont
      · simp only [List.map_cons, List.flatten_cons, hflat, htext]
        have : l.drop next = (l.drop pos).drop (next - pos) := by
          rw [List.drop_drop]
          congr 1
          omega
        rw [this, List.take_append_drop]
      · simp only [List.map_cons, List.sum_cons, hsum, hlen]
        omega
      · intro t ht
        rcases List.mem_cons.1 ht with rfl | ht
        · refine ⟨?_, htl, ?_, htype⟩
          · intro he
            rw [he] at htl
            simp only [List.length_nil] at htl
            omega
          · rw [hstart, substr_some _ h1, hlen, htext]
        · exact hall t ht

theorem tokenize_ok (keywords : List (List Char)) (l : List Char) :
    ∃ tokens, tokenize keywords l = some tokens ∧
      contiguous_from 0 tokens ∧ (tokens.map Token.text).flatten = l ∧
      (tokens.map Token.length).sum = l.length ∧
      ∀ tok ∈ tokens, tok.text ≠ [] ∧ tok.text.length = tok.length ∧
        substr l tok.start_pos tok.length = some tok.text ∧
        tok.type ≠ TokenTYPE.PREPROCESSOR := by
  obtain ⟨out, hout, hcont, hflat, hsum, hall⟩ :=
    tokenize_loop_ok keywords l l.length 0 [] (Nat.zero_le _) (by omega)
  exact ⟨out, by simpa [tokenize] using hout, hcont, by simpa using hflat, by simpa using hsum,
    hall⟩

/-! ## C30, C31: the tokens of a line -/

set_option maxRecDepth 100000 in
theorem tokenize_scenario :
    tokenize initialize_keywords "int x=42;".toList =
      some [⟨"int".toList, TokenTYPE.KEYWORD, 0, 3⟩, ⟨" ".toList, TokenTYPE.DEFAULT, 3, 1⟩,
        ⟨"x".toList, TokenTYPE.DEFAULT, 4, 1⟩, ⟨"=".toList, TokenTYPE.PUNCTUATION, 5, 1⟩,
        ⟨"42".toList, TokenTYPE.NUMBER_LITERAL, 6, 2⟩,
        ⟨";".toList, TokenTYPE.PUNCTUATION, 8, 1⟩] := by
  decide

set_option maxRecDepth 100000 in
theorem tokenize_scenario_directive :
    "#include".toList ∈ initialize_keywords ∧
    tokenize initialize_keywords "#include".toList =
      some [⟨"#".toList, TokenTYPE.DEFAULT, 0, 1⟩, ⟨"include".toList, TokenTYPE.DEFAULT, 1, 7⟩] := by
  decide

/-- C30: `tokenize` is lossless and terminating.  For every keyword set and every line:
an iteration of the loop at a position `pos` inside the line pushes a token and moves to a
position `next` with `pos < next <= |line|`; the call returns a list of tokens (no
exception, and the bound on the iterations is not reached before the end of the line);
every token has a non-empty text equal to `line.substr(start_pos, length)`, of that
length; the tokens are contiguous from the position 0 and their lengths add up to the
length of the line; the concatenation of the texts is the line.  For instance `int x=42;`
gives the tokens `int`, a blank, `x`, `=`, `42`, `;`. -/
theorem C30_tokenize_is_lossless (keywords : List (List Char)) (line : List Char) :
    (∀ pos c, (line)[pos]? = some c →
      ∃ tok next, next_token keywords line pos c = some (tok, next) ∧ pos < next ∧
        next ≤ line.length) ∧
    (∃ tokens, tokenize keywords line = some tokens ∧
      (∀ tok ∈ tokens, tok.text ≠ [] ∧ tok.text.length = tok.length ∧
        substr line tok.start_pos tok.length = some tok.text) ∧
      contiguous_from 0 tokens ∧
      (∀ pre tok post, tokens = pre ++ tok :: post →
        tok.start_pos = (pre.map Token.length).sum) ∧
      (tokens.map Token.length).sum = line.length ∧
      (tokens.map Token.text).flatten = line) ∧
    tokenize initialize_keywords "int x=42;".toList =
      some [⟨"int".toList, TokenTYPE.KEYWORD, 0, 3⟩, ⟨" ".toList, TokenTYPE.DEFAULT, 3, 1⟩,
        ⟨"x".toList, TokenTYPE.DEFAULT, 4, 1⟩, ⟨"=".toList, TokenTYPE.PUNCTUATION, 5, 1⟩,
        ⟨"42".toList, TokenTYPE.NUMBER_LITERAL, 6, 2⟩,
        ⟨";".toList, TokenTYPE.PUNCTUATION, 8, 1⟩] := by
  refine ⟨?_, ?_, tokenize_scenario⟩
  · intro pos c hc
    obtain ⟨tok, next, h, h1, h2, _⟩ := next_token_ok keywords line pos c hc
    exact ⟨tok, next, h, h1, h2⟩
  · obtain ⟨tokens, h, hcont, hflat, hsum, hall⟩ := tokenize_ok keywords line
    refine ⟨tokens, h, fun tok ht => ?_, hcont, ?_, hsum, hflat⟩
    · obtain ⟨a, b, c, _⟩ := hall tok ht
      exact ⟨a, b, c⟩
    · intro pre tok post he
      have := contiguous_from_lengths tokens 0 hcont pre tok post he
      omega

/-- C31: for every keyword set and every line, `tokenize` returns tokens none of which has
the type `PREPROCESSOR`: a token of rule 4 starts with a letter or an underscore, so its
text does not start with `#`.  The directives such as `#include` are in the keyword set
of `initialize_keywords`, and the line `#include` is tokenized as `#` and `include`, both
of type `DEFAULT`. -/
theorem C31_no_preprocessor_token :
    (∀ (keywords : List (List Char)) (line : List Char),
      ∃ tokens, tokenize keywords line = some tokens ∧
        ∀ tok ∈ tokens, tok.type ≠ TokenTYPE.PREPROCESSOR) ∧
    "#include".toList ∈ initialize_keywords ∧
    tokenize initialize_keywords "#include".toList =
      some [⟨"#".toList, TokenTYPE.DEFAULT, 0, 1⟩,
        ⟨"include".toList, TokenTYPE.DEFAULT, 1, 7⟩] := by
  refine ⟨?_, tokenize_scenario_directive.1, tokenize_scenario_directive.2⟩
  intro keywords line
  obtain ⟨tokens, h, _, _, _, hall⟩ := tokenize_ok keywords line
  exact ⟨tokens, h, fun tok ht => (hall tok ht).2.2.2⟩

end TrieEngine
